import Mathlib

/-!
# The PO scanner of `po/scanner.go`

A shallow embedding of the line scanner for gettext PO files and of the Go
standard-library functions it calls, followed by the properties of the scanner.

Go strings and byte slices are lists of bytes (`Bytes`); a byte is a natural
number below 256.  The embedded `bufio.Scanner` (with its default buffer and
its default `ScanLines` split function) is represented by the token it
currently holds and by the lines its reader still holds.
-/

namespace po

/-! ## Go standard library -/

/-- A Go `string` or `[]byte`: a sequence of bytes, each below 256. -/
abbrev Bytes := List Nat

/-- The constant `utf8.RuneError`, U+FFFD. -/
def RuneError : Nat := 0xFFFD

/-- The constant `utf8.RuneSelf`: bytes below it are single-byte runes. -/
def RuneSelf : Nat := 0x80

/-- The constant `utf8.MaxRune`. -/
def MaxRune : Nat := 0x10FFFF

/-- The function `utf8.ValidRune`: in range and not a surrogate half. -/
def ValidRune (r : Nat) : Bool :=
  if r < 0xD800 then true
  else if 0xDFFF < r ∧ r ≤ MaxRune then true
  else false

/-- The function `utf8.AppendRune` on an empty buffer: the UTF-8 encoding of
a rune; an invalid rune is encoded as `RuneError`. -/
def EncodeRune (r : Nat) : Bytes :=
  if r ≤ 0x7F then [r]
  else if r ≤ 0x7FF then [0xC0 ||| (r >>> 6), 0x80 ||| (r &&& 0x3F)]
  else if r > MaxRune ∨ (0xD800 ≤ r ∧ r ≤ 0xDFFF) then [0xEF, 0xBF, 0xBD]
  else if r ≤ 0xFFFF then
    [0xE0 ||| (r >>> 12), 0x80 ||| ((r >>> 6) &&& 0x3F), 0x80 ||| (r &&& 0x3F)]
  else
    [0xF0 ||| (r >>> 18), 0x80 ||| ((r >>> 12) &&& 0x3F),
      0x80 ||| ((r >>> 6) &&& 0x3F), 0x80 ||| (r &&& 0x3F)]

/-- The function `utf8.DecodeRune`: the first rune of `p` and its width in
bytes; `(RuneError, 0)` on empty input and `(RuneError, 1)` on an invalid
encoding. -/
def DecodeRune (p : Bytes) : Nat × Nat :=
  match p with
  | [] => (RuneError, 0)
  | p0 :: t =>
    if p0 < RuneSelf then (p0, 1)
    else if p0 < 0xC2 ∨ 0xF4 < p0 then (RuneError, 1)
    else
      let sz := if p0 < 0xE0 then 2 else if p0 < 0xF0 then 3 else 4
      let lo := if p0 = 0xE0 then 0xA0 else if p0 = 0xF0 then 0x90 else 0x80
      let hi := if p0 = 0xED then 0x9F else if p0 = 0xF4 then 0x8F else 0xBF
      if p.length < sz then (RuneError, 1)
      else
        match t with
        | [] => (RuneError, 1)
        | b1 :: t1 =>
          if b1 < lo ∨ hi < b1 then (RuneError, 1)
          else if sz ≤ 2 then (((p0 &&& 0x1F) <<< 6) ||| (b1 &&& 0x3F), 2)
          else
            match t1 with
            | [] => (RuneError, 1)
            | b2 :: t2 =>
              if b2 < 0x80 ∨ 0xBF < b2 then (RuneError, 1)
              else if sz ≤ 3 then
                (((p0 &&& 0x0F) <<< 12) ||| ((b1 &&& 0x3F) <<< 6) ||| (b2 &&& 0x3F), 3)
              else
                match t2 with
                | [] => (RuneError, 1)
                | b3 :: _ =>
                  if b3 < 0x80 ∨ 0xBF < b3 then (RuneError, 1)
                  else
                    (((p0 &&& 0x07) <<< 18) ||| ((b1 &&& 0x3F) <<< 12)
                      ||| ((b2 &&& 0x3F) <<< 6) ||| (b3 &&& 0x3F), 4)

/-- The function `utf8.RuneStart`: the byte is not a continuation byte. -/
def RuneStart (b : Nat) : Bool := b &&& 0xC0 != 0x80

/-- The backward search of `utf8.DecodeLastRune` for the start of the last
rune: the nearest rune-start byte among the three bytes before the last one,
and otherwise the position just before them (or the beginning). -/
def lastRuneStart (p : Bytes) : Nat :=
  let stop := p.length
  if 2 ≤ stop ∧ RuneStart (p.getD (stop - 2) 0) then stop - 2
  else if 3 ≤ stop ∧ RuneStart (p.getD (stop - 3) 0) then stop - 3
  else if 4 ≤ stop ∧ RuneStart (p.getD (stop - 4) 0) then stop - 4
  else stop - 5

/-- The function `utf8.DecodeLastRune`: the last rune of `p` and its width. -/
def DecodeLastRune (p : Bytes) : Nat × Nat :=
  let stop := p.length
  if stop = 0 then (RuneError, 0)
  else
    let r := p.getD (stop - 1) 0
    if r < RuneSelf then (r, 1)
    else
      let start := lastRuneStart p
      let (r1, size) := DecodeRune (p.drop start)
      if start + size ≠ stop then (RuneError, 1) else (r1, size)

/-- The function `unicode.IsSpace`. -/
def IsSpace (r : Nat) : Bool :=
  if r ≤ 0xFF then
    r = 0x09 ∨ r = 0x0A ∨ r = 0x0B ∨ r = 0x0C ∨ r = 0x0D ∨ r = 0x20 ∨ r = 0x85 ∨ r = 0xA0
  else
    r = 0x1680 ∨ (0x2000 ≤ r ∧ r ≤ 0x200A) ∨ r = 0x2028 ∨ r = 0x2029 ∨ r = 0x202F
      ∨ r = 0x205F ∨ r = 0x3000

/-- The function `TrimLeftFunc(s, unicode.IsSpace)`: drops leading white-space
runes.  The first argument counts the bytes of a white-space rune that are
still to be dropped. -/
def trimLeftLoop : Nat → Bytes → Bytes
  | _, [] => []
  | k + 1, _ :: t => trimLeftLoop k t
  | 0, b :: t =>
    let (r, n) := DecodeRune (b :: t)
    if IsSpace r then trimLeftLoop (n - 1) t else b :: t

/-- The function `TrimRightFunc(s, unicode.IsSpace)`: drops trailing
white-space runes, found with `DecodeLastRune`.  The first argument bounds
the number of iterations; the length of the input is always enough. -/
def trimRightLoop : Nat → Bytes → Bytes
  | 0, s => s
  | f + 1, s =>
    if s = [] then []
    else
      let (r, n) := DecodeLastRune s
      if IsSpace r then trimRightLoop f (s.take (s.length - n)) else s

/-- The functions `bytes.TrimSpace` and `strings.TrimSpace`. -/
def TrimSpace (s : Bytes) : Bytes :=
  let l := trimLeftLoop 0 s
  trimRightLoop l.length l

/-- The loop of `strings.FieldsFunc(s, unicode.IsSpace)`.  `k` counts the
remaining bytes of the rune being walked over, `sp` tells whether that rune is
white space, `cur` is the field being collected and `out` the finished ones. -/
def fieldsLoop : Nat → Bool → Bytes → Bytes → List Bytes → List Bytes
  | _, _, [], cur, out => if cur = [] then out else out ++ [cur]
  | k + 1, true, _ :: t, cur, out => fieldsLoop k true t cur out
  | k + 1, false, b :: t, cur, out => fieldsLoop k false t (cur ++ [b]) out
  | 0, _, b :: t, cur, out =>
    let (r, n) := DecodeRune (b :: t)
    if IsSpace r then
      fieldsLoop (n - 1) true t [] (if cur = [] then out else out ++ [cur])
    else
      fieldsLoop (n - 1) false t (cur ++ [b]) out

/-- The function `strings.Fields`. -/
def Fields (s : Bytes) : List Bytes := fieldsLoop 0 false s [] []

/-- The function `bytes.HasPrefix`. -/
def HasPrefix (s pfx : Bytes) : Bool := pfx.isPrefixOf s

/-- The function `strconv.Itoa` on a non-negative argument. -/
def Itoa (n : Nat) : Bytes := (Nat.toDigits 10 n).map Char.toNat

/-- The conversion `[]byte(s)` of a string literal: its UTF-8 bytes. -/
def lit (s : String) : Bytes := s.toList.flatMap (fun c => EncodeRune c.toNat)

/-- A Go `error` value: `strconv.ErrSyntax`, `bufio.ErrTooLong`, or a fault of
the reader. -/
inductive GoError where
  | ErrSyntax
  | ErrTooLong
  | readFault (code : Nat)
deriving DecidableEq, Repr

/-- The function `utf8.ValidString`.  The first argument counts the bytes of
the current rune that are still to be walked over. -/
def validLoop : Nat → Bytes → Bool
  | _, [] => true
  | k + 1, _ :: t => validLoop k t
  | 0, b :: t =>
    let (r, n) := DecodeRune (b :: t)
    if r = RuneError ∧ n = 1 then false else validLoop (n - 1) t

/-- The function `utf8.ValidString`. -/
def ValidString (s : Bytes) : Bool := validLoop 0 s

/-- The helper `unhex` of `strconv`. -/
def unhex (b : Nat) : Option Nat :=
  if 0x30 ≤ b ∧ b ≤ 0x39 then some (b - 0x30)
  else if 0x61 ≤ b ∧ b ≤ 0x66 then some (b - 0x61 + 10)
  else if 0x41 ≤ b ∧ b ≤ 0x46 then some (b - 0x41 + 10)
  else none

/-- The digit loop of `UnquoteChar` for `\x`, `\u` and `\U`. -/
def hexValue : Bytes → Nat → Option Nat
  | [], v => some v
  | b :: t, v =>
    match unhex b with
    | none => none
    | some x => hexValue t ((v <<< 4) ||| x)

/-- The digit loop of `UnquoteChar` for an octal escape. -/
def octValue : Bytes → Nat → Option Nat
  | [], v => some v
  | b :: t, v =>
    if b < 0x30 ∨ 0x37 < b then none else octValue t ((v <<< 3) ||| (b - 0x30))

/-- The function `strconv.UnquoteChar`: the value of the first character or
escape of `s`, whether it is to be UTF-8 encoded, and the rest of `s`;
`none` stands for `ErrSyntax`. -/
def UnquoteChar (s : Bytes) (quote : Nat) : Option (Nat × Bool × Bytes) :=
  match s with
  | [] => none
  | c :: t =>
    if c = quote ∧ (quote = 0x27 ∨ quote = 0x22) then none
    else if c ≥ RuneSelf then
      let (r, size) := DecodeRune s
      some (r, true, s.drop size)
    else if c ≠ 0x5C then some (c, false, t)
    else
      match t with
      | [] => none
      | c1 :: s2 =>
        if c1 = 0x61 then some (0x07, false, s2)
        else if c1 = 0x62 then some (0x08, false, s2)
        else if c1 = 0x66 then some (0x0C, false, s2)
        else if c1 = 0x6E then some (0x0A, false, s2)
        else if c1 = 0x72 then some (0x0D, false, s2)
        else if c1 = 0x74 then some (0x09, false, s2)
        else if c1 = 0x76 then some (0x0B, false, s2)
        else if c1 = 0x78 ∨ c1 = 0x75 ∨ c1 = 0x55 then
          let n := if c1 = 0x78 then 2 else if c1 = 0x75 then 4 else 8
          if s2.length < n then none
          else
            match hexValue (s2.take n) 0 with
            | none => none
            | some v =>
              if c1 = 0x78 then some (v, false, s2.drop n)
              else if !ValidRune v then none
              else some (v, true, s2.drop n)
        else if 0x30 ≤ c1 ∧ c1 ≤ 0x37 then
          if s2.length < 2 then none
          else
            match octValue (s2.take 2) (c1 - 0x30) with
            | none => none
            | some v => if v > 255 then none else some (v, false, s2.drop 2)
        else if c1 = 0x5C then some (0x5C, false, s2)
        else if c1 = 0x27 ∨ c1 = 0x22 then
          if c1 ≠ quote then none else some (c1, false, s2)
        else none

/-- The decoding loop of `strconv.unquote` for a literal with escapes: runs
while the input is non-empty and does not start with the quote, and returns
the buffer and the input left; `none` stands for `ErrSyntax`.  The first
argument bounds the iterations; the length of the input is always enough,
since every iteration removes at least one byte. -/
def unquoteLoop (quote : Nat) : Nat → Bytes → Bytes → Option (Bytes × Bytes)
  | 0, inp, buf => some (buf, inp)
  | f + 1, inp, buf =>
    match inp with
    | [] => some (buf, inp)
    | c :: _ =>
      if c = quote then some (buf, inp)
      else
        match UnquoteChar inp quote with
        | none => none
        | some (r, multibyte, rem) =>
          if c = 0x0A then none
          else
            let buf1 := if r < RuneSelf ∨ !multibyte then buf ++ [r] else buf ++ EncodeRune r
            if quote = 0x27 then some (buf1, rem)
            else unquoteLoop quote f rem buf1

/-- The function `strconv.unquote(in, true)`: the unquoted value and the
input left after the literal; `none` stands for `ErrSyntax`. -/
def unquoteLit (inp : Bytes) : Option (Bytes × Bytes) :=
  if inp.length < 2 then none
  else
    match inp with
    | [] => none
    | quote :: tl =>
      if !tl.contains quote then none
      else
        let stop := tl.indexOf quote + 2
        if quote = 0x60 then
          some (((inp.take (stop - 1)).drop 1).filter (fun b => b != 0x0D), inp.drop stop)
        else if quote = 0x22 ∨ quote = 0x27 then
          let fast :=
            if !(inp.take stop).contains 0x5C && !(inp.take stop).contains 0x0A then
              if quote = 0x22 then ValidString ((inp.take (stop - 1)).drop 1)
              else
                let (r, n) := DecodeRune ((inp.take (stop - 1)).drop 1)
                decide (1 + n + 1 = stop) && (r != RuneError || n != 1)
            else false
          if fast then some ((inp.take (stop - 1)).drop 1, inp.drop stop)
          else
            match unquoteLoop quote tl.length tl [] with
            | none => none
            | some (buf, rest) =>
              match rest with
              | [] => none
              | c :: rest1 => if c = quote then some (buf, rest1) else none
        else none

/-- The function `strconv.Unquote`: the value of a quoted Go literal, or the
empty string and `ErrSyntax`. -/
def Unquote (s : Bytes) : Bytes × Option GoError :=
  match unquoteLit s with
  | none => ([], some GoError.ErrSyntax)
  | some (out, rem) => if rem.length > 0 then ([], some GoError.ErrSyntax) else (out, none)

/-- The constant `bufio.MaxScanTokenSize`: the size to which the buffer of a
`bufio.Scanner` grows at most, 64 KiB. -/
def MaxScanTokenSize : Nat := 64 * 1024

/-- The helper `dropCR` of `bufio.ScanLines`: drops a carriage return at the
end of the data. -/
def dropCR (data : Bytes) : Bytes :=
  if data.getLast? = some 0x0D then data.dropLast else data

/-! ## The scanner -/

/-- The ways a run of the embedding ends without a result: the run-time panic
of the slice expression in `txt`, and the exhaustion of the iteration bound
given to a loop. -/
inductive Abort where
  | sliceOutOfRange
  | outOfFuel
deriving DecidableEq, Repr

deriving instance DecidableEq for Except

/-- The struct `scanner`.  The embedded `*bufio.Scanner` is held as three
fields.  `token` is what `s.Bytes()` and `s.Text()` return (empty before the
first `Scan` and after a `Scan` that failed).  `lines` are the lines the
reader still holds, each without its line feed; a carriage return in front of
the line feed is still part of the line.  `readErr` is what
`s.Scanner.Err()` returns.  When the reader itself fails is not modelled: a
scanner given with a read error holds in `lines` what its buffer still
holds. -/
structure scanner where
  token : Bytes
  lines : List Bytes
  readErr : Option GoError
  hasNext : Bool
  err : Option GoError
deriving DecidableEq, Repr

/-- The constructor `newScanner`, on a reader that holds the given lines. -/
def newScanner (lines : List Bytes) (readErr : Option GoError) : scanner :=
  { token := [], lines := lines, readErr := readErr, hasNext := true, err := none }

namespace scanner

/-- The method `bufio.Scanner.Scan` with the default buffer and the
`ScanLines` split function.  With a line left it delivers the line, a terminal
carriage return dropped, as the token and reports `true`; at the end of the
input it clears the token and reports `false`.  A line of `MaxScanTokenSize`
bytes or more does not fit the buffer: `Scan` then clears the token, records
`ErrTooLong` and reports `false`; the buffer keeps the first
`MaxScanTokenSize` bytes of the line, which the next `Scan` delivers as the
last token, and nothing behind them is read any more.  Once an error of the
reader is recorded no more is read, and what the buffer holds is delivered
whatever its length.  (The reader is taken to report the end of its input by
a read of its own that returns no data, as `strings.Reader`, `bytes.Buffer`
and `os.File` do.) -/
def Scan (s : scanner) : Bool × scanner :=
  match s.lines with
  | [] => (false, { s with token := [] })
  | l :: ls =>
    if s.readErr = none ∧ MaxScanTokenSize ≤ l.length then
      (false, { s with token := [], lines := [l.take MaxScanTokenSize],
                       readErr := some GoError.ErrTooLong })
    else (true, { s with token := dropCR l, lines := ls })

/-- The method `prefix` (a reserved word here, hence the longer name): the
current line begins with the given bytes. -/
def hasPrefix (s : scanner) (pfx : Bytes) : Bool := HasPrefix s.token pfx

/-- The method `txt`: the current line after the first `len(prefix)` bytes,
with white space trimmed.  The slice expression panics when the line is
shorter than the prefix. -/
def txt (s : scanner) (pfx : Bytes) : Except Abort Bytes :=
  if pfx.length ≤ s.token.length then .ok (TrimSpace (s.token.drop pfx.length))
  else .error Abort.sliceOutOfRange

/-- The method `unquote`: decodes a quoted literal and records a failure in
the sticky error. -/
def unquote (s : scanner) (str : Bytes) : Bytes × scanner :=
  let (r, err) := Unquote str
  (r, if err ≠ none then { s with err := err } else s)

/-- The loop of `nextmsg`. -/
def nextmsgLoop : Nat → scanner → Except Abort (Bool × scanner)
  | 0, _ => .error Abort.outOfFuel
  | f + 1, s =>
    if s.err ≠ none then .ok (false, s)
    else
      let (ok, s1) := s.Scan
      if !ok then .ok (false, s1)
      else if (TrimSpace s1.token).length > 1 then .ok (true, s1)
      else nextmsgLoop f s1

/-- The method `nextmsg`: goes to the next message, skipping blank lines. -/
def nextmsg (s : scanner) : Except Abort (Bool × scanner) :=
  nextmsgLoop (s.lines.length + 1) s

/-- The loop of `mul`, with the slice `r` built so far. -/
def mulLoop (pfx : Bytes) : Nat → scanner → List Bytes → Except Abort (List Bytes × scanner)
  | 0, _, _ => .error Abort.outOfFuel
  | f + 1, s, r =>
    if s.hasPrefix pfx then
      match s.txt pfx with
      | .error e => .error e
      | .ok t =>
        let r1 := r ++ [t]
        let (ok, s1) := s.Scan
        if !ok then .ok (r1, s1) else mulLoop pfx f s1 r1
    else .ok (r, s)

/-- The method `mul`: the texts of the consecutive lines with the prefix. -/
def mul (s : scanner) (pfx : Bytes) : Except Abort (List Bytes × scanner) :=
  mulLoop pfx (s.lines.length + 1) s []

/-- The method `spc`: the white-space separated fields of one line. -/
def spc (s : scanner) (pfx : Bytes) : Except Abort (List Bytes × scanner) :=
  if s.hasPrefix pfx then
    match s.txt pfx with
    | .error e => .error e
    | .ok t => .ok ([] ++ Fields t, s.Scan.2)
  else .ok ([], s)

/-- The method `one`: the text of one line. -/
def one (s : scanner) (pfx : Bytes) : Except Abort (Bytes × scanner) :=
  if s.hasPrefix pfx then
    match s.txt pfx with
    | .error e => .error e
    | .ok t => .ok (t, s.Scan.2)
  else .ok ([], s)

/-- The inner loop of `quo`, with the string `r` built so far. -/
def quoLoop : Nat → scanner → Bytes → Except Abort (Bytes × scanner)
  | 0, _, _ => .error Abort.outOfFuel
  | f + 1, s, r =>
    let (ok, s1) := s.Scan
    if !ok then .ok (r, s1)
    else if s1.token.length > 0 ∧ s1.token.head? = some 0x22 then
      let (v, s2) := s1.unquote s1.token
      quoLoop f s2 (r ++ v)
    else .ok (r, s1)

/-- The method `quo`: reads a quoted string after the given prefix, with its
continuation lines. -/
def quo (s : scanner) (pfx : Bytes) : Except Abort (Bytes × scanner) :=
  if s.hasPrefix pfx then
    match s.txt pfx with
    | .error e => .error e
    | .ok t =>
      let (r, s1) := s.unquote t
      quoLoop (s1.lines.length + 1) s1 r
  else .ok ([], s)

/-- The prefix `"msgstr[" + strconv.Itoa(n) + "] "` of the n-th plural form. -/
def msgstrPrefix (n : Nat) : Bytes := lit "msgstr[" ++ Itoa n ++ lit "] "

/-- The loop of `msgstr` over the plural forms, with the slice `r` built so
far. -/
def msgstrLoop : Nat → scanner → List Bytes → Except Abort (List Bytes × scanner)
  | 0, _, _ => .error Abort.outOfFuel
  | f + 1, s, r =>
    if !s.hasPrefix (msgstrPrefix r.length) then .ok (r, s)
    else
      match s.quo (msgstrPrefix r.length) with
      | .error e => .error e
      | .ok (v, s1) => msgstrLoop f s1 (r ++ [v])

/-- The method `msgstr`: the msgstr section of a record, either one string or
the indexed plural forms. -/
def msgstr (s : scanner) : Except Abort (List Bytes × scanner) :=
  if s.hasPrefix (lit "msgstr ") then
    match s.quo (lit "msgstr ") with
    | .error e => .error e
    | .ok (v, s1) => .ok ([v], s1)
  else msgstrLoop (s.lines.length + 2) s []

/-- The method `Err`: the last error encountered, if any. -/
def Err (s : scanner) : Option GoError :=
  if s.err ≠ none then s.err else s.readErr

end scanner

open scanner

/-! ## Vocabulary of the properties -/

/-- A line that `quo` takes as a continuation: its first byte is a double
quote. -/
def isQuoted (l : Bytes) : Bool := l.head? = some 0x22

/-- The value a piece contributes to the string read by `quo`: the value of
the literal when `strconv.Unquote` accepts it, the empty string when it does
not. -/
def decoded (l : Bytes) : Bytes :=
  match Unquote l with
  | (v, none) => v
  | (_, some _) => []

/-- The sticky error after the given pieces have been decoded in order,
starting from the sticky error `e`. -/
def stickyAfter (e : Option GoError) (pieces : List Bytes) : Option GoError :=
  pieces.foldl (fun e l => if (Unquote l).2 ≠ none then (Unquote l).2 else e) e

/-- The reader can deliver the line `l`: the line is shorter than
`MaxScanTokenSize`, or an error of the reader is recorded already, so that the
line is what the buffer holds. -/
def fits (re : Option GoError) (l : Bytes) : Bool :=
  re.isSome || decide (l.length < MaxScanTokenSize)

/-- The line `l` is delivered and, as delivered, satisfies `p`. -/
def taken (re : Option GoError) (p : Bytes → Bool) (l : Bytes) : Bool :=
  fits re l && p (dropCR l)

/-- The scanner after the leading run of the lines `ls` that satisfy `p` has
been passed and one more `Scan` has been made, with sticky error `e`. -/
def afterRun (p : Bytes → Bool) (s : scanner) (ls : List Bytes) (e : Option GoError) :
    scanner :=
  ({ s with lines := ls.dropWhile p, err := e } : scanner).Scan.2

/-- All the lines are shorter than `MaxScanTokenSize`. -/
def shortLines (ls : List Bytes) : Bool := ls.all (fun l => decide (l.length < MaxScanTokenSize))

/-- The number of lines the scanner still holds: the lines to be read, and
the current line when it is not empty. -/
def remaining (s : scanner) : Nat := s.lines.length + (if s.token = [] then 0 else 1)

/-- A line that `nextmsg` skips: at most one byte is left after trimming. -/
def isBlank (l : Bytes) : Bool := decide ((TrimSpace l).length ≤ 1)

/-- A scanner without errors whose current line is `cur` and whose lines still
to be read are `next`; used to write down example inputs. -/
def atLine (cur : String) (next : List String) : scanner :=
  { token := lit cur, lines := next.map lit, readErr := none, hasNext := true, err := none }

/-- A scanner without errors whose current line and lines still to be read are
given as bytes; used to write down example inputs that are not UTF-8. -/
def atBytes (cur : Bytes) (next : List Bytes) : scanner :=
  { token := cur, lines := next, readErr := none, hasNext := true, err := none }

/-- A call of one of the operations of the scanner. -/
inductive Op where
  | nextmsg
  | mul (pfx : Bytes)
  | spc (pfx : Bytes)
  | one (pfx : Bytes)
  | quo (pfx : Bytes)
  | msgstr
deriving DecidableEq, Repr

/-- The value an operation returns. -/
inductive Ret where
  | flag (b : Bool)
  | strs (l : List Bytes)
  | str (b : Bytes)
deriving DecidableEq, Repr

/-- The call of an operation on a scanner: the value returned and the scanner
afterwards. -/
def Op.exec (op : Op) (s : scanner) : Except Abort (Ret × scanner) :=
  match op with
  | .nextmsg => (s.nextmsg).map (fun p => (Ret.flag p.1, p.2))
  | .mul pfx => (s.mul pfx).map (fun p => (Ret.strs p.1, p.2))
  | .spc pfx => (s.spc pfx).map (fun p => (Ret.strs p.1, p.2))
  | .one pfx => (s.one pfx).map (fun p => (Ret.str p.1, p.2))
  | .quo pfx => (s.quo pfx).map (fun p => (Ret.str p.1, p.2))
  | .msgstr => (s.msgstr).map (fun p => (Ret.strs p.1, p.2))

/-- The calls of a sequence of operations one after the other: for each call
the value returned and the scanner after it. -/
def runOps : List Op → scanner → Except Abort (List (Ret × scanner))
  | [], _ => .ok []
  | op :: ops, s =>
    match op.exec s with
    | .error e => .error e
    | .ok (r, s1) =>
      match runOps ops s1 with
      | .error e => .error e
      | .ok tr => .ok ((r, s1) :: tr)

/-- The msgstr section of a record as it is written: the text behind the
prefix of the one `msgstr` line, or the texts behind the prefixes of the lines
`msgstr[0]`, `msgstr[1]`, ... -/
inductive MsgStr where
  | single (q : Bytes)
  | plural (q0 : Bytes) (qs : List Bytes)
deriving DecidableEq, Repr

/-- A record as it is written: the text behind `msgid ` and the msgstr
section. -/
structure Record where
  msgid : Bytes
  str : MsgStr
deriving DecidableEq, Repr

/-- The lines `msgstr[n] q`, `msgstr[n+1] q'`, ... for the texts given. -/
def pluralLines : Nat → List Bytes → List Bytes
  | _, [] => []
  | n, q :: qs => (msgstrPrefix n ++ q) :: pluralLines (n + 1) qs

/-- The texts of a msgstr section, in order. -/
def MsgStr.texts : MsgStr → List Bytes
  | .single q => [q]
  | .plural q0 qs => q0 :: qs

/-- The lines of a msgstr section. -/
def MsgStr.lines : MsgStr → List Bytes
  | .single q => [lit "msgstr " ++ q]
  | .plural q0 qs => pluralLines 0 (q0 :: qs)

/-- The lines of a record: the `msgid` line, then the msgstr section. -/
def Record.lines (r : Record) : List Bytes := (lit "msgid " ++ r.msgid) :: r.str.lines

/-- The text behind a prefix is a well-formed literal: `strconv.Unquote`
accepts it once trimmed. -/
def wellFormedLit (q : Bytes) : Bool := decide ((Unquote (TrimSpace q)).2 = none)

/-- Every literal of the record is well formed. -/
def Record.wellFormed (r : Record) : Bool :=
  wellFormedLit r.msgid && r.str.texts.all wellFormedLit

/-- The decoded msgid of a record and the list of its decoded msgstr values. -/
def Record.decoded (r : Record) : Bytes × List Bytes :=
  (po.decoded (TrimSpace r.msgid), r.str.texts.map (fun q => po.decoded (TrimSpace q)))

/-- The lines of an input made of records, each followed by its separator
lines. -/
def layout : List (Record × List Bytes) → List Bytes
  | [] => []
  | (r, sep) :: rest => r.lines ++ sep ++ layout rest

/-- The records are separated by one or more blank lines: every separator line
is blank, and only the last record may have no separator line behind it. -/
def blankSeparated : List (Record × List Bytes) → Bool
  | [] => true
  | (_, sep) :: rest => sep.all isBlank && (!sep.isEmpty || rest.isEmpty) && blankSeparated rest

/-- The loop of a caller that reads whole records, as the round-trip scenario
of the specification describes it (the callers of the scanner are outside
`scanner.go`): `nextmsg`, then `quo("msgid ")`, then `msgstr`, again and again
until `nextmsg` returns `false`.  The result holds the pair of values read
after each `nextmsg` that returned `true`, in order, and the scanner at the
end.  The first argument bounds the number of `nextmsg` calls. -/
def drive : Nat → scanner → Except Abort (List (Bytes × List Bytes) × scanner)
  | 0, _ => .error Abort.outOfFuel
  | n + 1, s =>
    match s.nextmsg with
    | .error e => .error e
    | .ok (false, s1) => .ok ([], s1)
    | .ok (true, s1) =>
      match s1.quo (lit "msgid ") with
      | .error e => .error e
      | .ok (id, s2) =>
        match s2.msgstr with
        | .error e => .error e
        | .ok (strs, s3) =>
          match drive n s3 with
          | .error e => .error e
          | .ok (more, s4) => .ok ((id, strs) :: more, s4)

/-- The two-record input of the specification: `msgid "one"`, `msgstr "uno"`,
an empty line, `msgid "two"`, `msgstr[0] "dos-a"`, `msgstr[1] "dos-b"`. -/
def twoRecords : List (Record × List Bytes) :=
  [({ msgid := lit "\"one\"", str := .single (lit "\"uno\"") }, [lit ""]),
   ({ msgid := lit "\"two\"", str := .plural (lit "\"dos-a\"") [lit "\"dos-b\""] }, [])]

/-- Two records separated by one line that holds a lone double quote:
`msgid "one"`, `msgstr "uno"`, `"`, `msgid "two"`, `msgstr "dos"`. -/
def quoteSeparated : List (Record × List Bytes) :=
  [({ msgid := lit "\"one\"", str := .single (lit "\"uno\"") }, [lit "\""]),
   ({ msgid := lit "\"two\"", str := .single (lit "\"dos\"") }, [])]

/-- The table `asciiSpace` of Go's `bytes` and `strings` packages: tab, line
feed, vertical tab, form feed, carriage return and space. -/
def asciiSpace (w : Nat) : Bool :=
  w = 0x09 ∨ w = 0x0A ∨ w = 0x0B ∨ w = 0x0C ∨ w = 0x0D ∨ w = 0x20

/-- The line at index `i` of what the scanner holds, as `Scan` delivers it: the
current line at index 0, then the lines still to be read without their
terminal carriage return; the empty line beyond the end. -/
def lineAt (s : scanner) (i : Nat) : Bytes := (s.token :: s.lines.map dropCR).getD i []

/-- The scanner `s1` stands at index `j` of what the scanner `s` held: its
current line is the line at index `j` and exactly the lines behind it are
still to be read (beyond the end: the exhausted scanner). -/
def atIndex (s : scanner) (j : Nat) (s1 : scanner) : Prop :=
  s1.token = lineAt s j ∧ s1.lines = (s.token :: s.lines).drop (j + 1)

/-- Two scanners hold the same number of lines and agree, line by line, on
which lines begin with a double quote and on which lines start with each of
the prefixes `ps`. -/
def agree (ps : Bytes → Prop) (s s' : scanner) : Prop :=
  s.lines.length = s'.lines.length ∧
  ∀ i, isQuoted (lineAt s i) = isQuoted (lineAt s' i) ∧
    ∀ p, ps p → HasPrefix (lineAt s i) p = HasPrefix (lineAt s' i) p

/-- The text contains a white-space character: walking over the text rune by
rune, as Go does, some rune is white space.  The first argument counts the
bytes of the current rune that are still to be walked over. -/
def hasSpaceLoop : Nat → Bytes → Bool
  | _, [] => false
  | k + 1, _ :: t => hasSpaceLoop k t
  | 0, b :: t =>
    let (r, n) := DecodeRune (b :: t)
    if IsSpace r then true else hasSpaceLoop (n - 1) t

/-- The text contains a white-space character. -/
def hasSpace (s : Bytes) : Bool := hasSpaceLoop 0 s

/-- The text with its runs of white space collapsed and its ends trimmed, in
one pass over the runes: a white-space rune is dropped, and a single space is
written in front of a rune that is not white space when white space was
dropped since the last rune written.  `k` counts the bytes of the current rune
that are still to be walked over, `sp` tells whether that rune is white space,
`started` whether a rune has been written yet, and `pending` whether white
space was dropped since. -/
def collapseLoop : Nat → Bool → Bytes → Bool → Bool → Bytes
  | _, _, [], _, _ => []
  | k + 1, true, _ :: t, started, pending => collapseLoop k true t started pending
  | k + 1, false, b :: t, started, pending => b :: collapseLoop k false t started pending
  | 0, _, b :: t, started, pending =>
    let (r, n) := DecodeRune (b :: t)
    if IsSpace r then collapseLoop (n - 1) true t started started
    else (if pending then [0x20] else []) ++ b :: collapseLoop (n - 1) false t true false

/-- The text with every run of white space replaced by one space and the white
space at its two ends removed. -/
def collapseSpace (s : Bytes) : Bytes := collapseLoop 0 false s false false

/-- A line of `MaxScanTokenSize` bytes that begins with a double quote: a
double quote followed by the letter `b` again and again. -/
def longQuoted : Bytes := 0x22 :: List.replicate (MaxScanTokenSize - 1) 0x62

/-- A line of `MaxScanTokenSize` letters `a`. -/
def longLine : Bytes := List.replicate MaxScanTokenSize 0x61

/-- The number a run of ASCII decimal digits denotes, most significant digit
first. -/
def decimalValue (ds : Bytes) : Nat := ds.foldl (fun a d => 10 * a + (d - 0x30)) 0

/-- A run of ASCII decimal digits that is the decimal notation of a number: it
is not empty, holds digits only, and has no leading zero unless it is the
single digit `0`. -/
def isDecimal (ds : Bytes) : Bool :=
  !ds.isEmpty && ds.all (fun d => decide (0x30 ≤ d ∧ d ≤ 0x39)) &&
    (ds.head? != some 0x30 || ds.length == 1)

/-- A line of `MaxScanTokenSize` spaces. -/
def longBlank : Bytes := List.replicate MaxScanTokenSize 0x20

/-- Two records separated by one line of 64 KiB spaces: `msgid "one"`,
`msgstr "uno"`, the line of spaces, `msgid "two"`, `msgstr "dos"`. -/
def longSeparated : List (Record × List Bytes) :=
  [({ msgid := lit "\"one\"", str := .single (lit "\"uno\"") }, [longBlank]),
   ({ msgid := lit "\"two\"", str := .single (lit "\"dos\"") }, [])]

/-- The value of a hexadecimal digit as it is written: its place in
`0123456789abcdef` or in `0123456789ABCDEF`; 16 for a byte that is no
hexadecimal digit. -/
def digitOf (b : Nat) : Nat :=
  min ((lit "0123456789abcdef").indexOf b) ((lit "0123456789ABCDEF").indexOf b)

/-- The byte is a hexadecimal digit. -/
def isHexDigit (b : Nat) : Bool := decide (digitOf b < 16)

/-- The byte is an octal digit, `0` to `7`. -/
def isOctDigit (b : Nat) : Bool := decide (0x30 ≤ b ∧ b ≤ 0x37)

/-- The number a run of hexadecimal digits denotes, most significant digit
first. -/
def hexNumber (ds : Bytes) : Nat := ds.foldl (fun a d => 16 * a + digitOf d) 0

/-- The number a run of octal digits denotes, most significant digit first. -/
def octNumber (ds : Bytes) : Nat := ds.foldl (fun a d => 8 * a + (d - 0x30)) 0

/-- The single-character escapes of a double-quoted Go string literal, each
with the byte it stands for: `\a` (bell), `\b` (backspace), `\f` (form feed),
`\n` (line feed), `\r` (carriage return), `\t` (tab), `\v` (vertical tab),
`\\` (backslash) and `\"` (double quote). -/
def simpleEscapes : List (Nat × Nat) :=
  [(0x61, 0x07), (0x62, 0x08), (0x66, 0x0C), (0x6E, 0x0A), (0x72, 0x0D), (0x74, 0x09),
    (0x76, 0x0B), (0x5C, 0x5C), (0x22, 0x22)]

/-- A constituent of the text between the quotes of a double-quoted Go string
literal: a character that stands for itself, a single-character escape (the
byte behind the backslash is given), `\x` with two hexadecimal digits, a
backslash with three octal digits, `\u` with four hexadecimal digits, or `\U`
with eight. -/
inductive Item where
  | char (r : Nat)
  | simple (c : Nat)
  | hex (d1 d2 : Nat)
  | oct (d1 d2 d3 : Nat)
  | small (ds : Bytes)
  | big (ds : Bytes)
deriving DecidableEq, Repr

/-- The bytes of a constituent as it is written between the quotes: the UTF-8
encoding of a character, the bytes of an escape. -/
def Item.written : Item → Bytes
  | .char r => EncodeRune r
  | .simple c => [0x5C, c]
  | .hex d1 d2 => [0x5C, 0x78, d1, d2]
  | .oct d1 d2 d3 => [0x5C, d1, d2, d3]
  | .small ds => 0x5C :: 0x75 :: ds
  | .big ds => 0x5C :: 0x55 :: ds

/-- The bytes a constituent stands for: the character unchanged; the byte of
the table for a single-character escape; the byte of the given value for `\x`
and for an octal escape; the UTF-8 encoding of the character of the given
code point for `\u` and `\U`. -/
def Item.meaning : Item → Bytes
  | .char r => EncodeRune r
  | .simple c => [((simpleEscapes.lookup c).getD 0)]
  | .hex d1 d2 => [hexNumber [d1, d2]]
  | .oct d1 d2 d3 => [octNumber [d1, d2, d3]]
  | .small ds => EncodeRune (hexNumber ds)
  | .big ds => EncodeRune (hexNumber ds)

/-- The constituent is well formed: a character that stands for itself is a
valid rune other than the backslash, the double quote and the line feed; a
single-character escape is one of the table; the digits of an escape are
digits, in the number asked for; an octal escape denotes a byte (255 at most)
and `\u` and `\U` denote a valid rune. -/
def Item.plain : Item → Bool
  | .char r => ValidRune r && (r != 0x5C && (r != 0x22 && r != 0x0A))
  | .simple c => (simpleEscapes.lookup c).isSome
  | .hex d1 d2 => isHexDigit d1 && isHexDigit d2
  | .oct d1 d2 d3 =>
    isOctDigit d1 && isOctDigit d2 && isOctDigit d3 && decide (octNumber [d1, d2, d3] ≤ 255)
  | .small ds => decide (ds.length = 4) && ds.all isHexDigit && ValidRune (hexNumber ds)
  | .big ds => decide (ds.length = 8) && ds.all isHexDigit && ValidRune (hexNumber ds)

/-- The text between the quotes as it is written. -/
def written (items : List Item) : Bytes := items.flatMap Item.written

/-- The text the constituents stand for. -/
def meaning (items : List Item) : Bytes := items.flatMap Item.meaning

/-- The constituents of the text written
`a\tb\\c\"d\né\r\x41\101\u00e9\U0001F600\a`: `a`, the escape of a tab,
`b`, the escape of a backslash, `c`, the escape of a double quote, `d`, the
escape of a line feed, `é` (U+00E9), the escape of a carriage return, `\x41`
and `\101` (both the letter `A`), `\u00e9` (again `é`), `\U0001F600` (an
emoji) and the escape of a bell. -/
def sampleItems : List Item :=
  [.char 0x61, .simple 0x74, .char 0x62, .simple 0x5C, .char 0x63, .simple 0x22, .char 0x64,
    .simple 0x6E, .char 0xE9, .simple 0x72, .hex 0x34 0x31, .oct 0x31 0x30 0x31,
    .small (lit "00e9"), .big (lit "0001F600"), .simple 0x61]

/-- A double-quoted literal of `MaxScanTokenSize - 100` bytes: the letter `b`
again and again between two double quotes. -/
def longLiteral : Bytes := 0x22 :: (List.replicate (MaxScanTokenSize - 102) 0x62 ++ [0x22])

/-- The literal `longLiteral` followed by 100 spaces: a line of
`MaxScanTokenSize` bytes. -/
def paddedLiteral : Bytes := longLiteral ++ List.replicate 100 0x20

/-- The bytes that can follow the backslash of an escape in a double-quoted Go
string literal: the letters of the single-character escapes, `x`, `u`, `U`,
an octal digit, the backslash and the double quote. -/
def isEscapeStart (c : Nat) : Bool := (lit "abfnrtvxuU01234567\\\"").contains c

/-! ## Lemmas on the Go standard library -/

theorem Unquote_fst (l : Bytes) : (Unquote l).1 = decoded l := by
  unfold decoded Unquote
  split <;> simp
  split <;> simp

theorem stickyAfter_cons (e : Option GoError) (x : Bytes) (xs : List Bytes) :
    stickyAfter e (x :: xs) = stickyAfter (stickyAfter e [x]) xs := by
  simp [stickyAfter]

/-- An ASCII byte decodes to itself. -/
theorem DecodeRune_ascii (a : Nat) (t : Bytes) (ha : a < RuneSelf) :
    DecodeRune (a :: t) = (a, 1) := by
  simp [DecodeRune, ha]

/-- The last rune of a line that begins with two ASCII bytes that are not
white space, when it is white space, lies behind these two bytes. -/
theorem DecodeLastRune_behind (a b : Nat) (t : Bytes) (ha : a < RuneSelf) (hb : b < RuneSelf)
    (hsb : IsSpace b = false) (r n : Nat) (h : DecodeLastRune (a :: b :: t) = (r, n))
    (hr : IsSpace r = true) : n ≤ t.length := by
  unfold DecodeLastRune at h
  simp only [List.length_cons, Nat.add_eq_zero, and_false, one_ne_zero, if_false] at h
  split at h
  · rename_i hlast
    simp only [Prod.mk.injEq] at h
    obtain ⟨h1, h2⟩ := h
    cases t with
    | nil =>
      simp at h1
      rw [← h1, hsb] at hr
      exact absurd hr (by simp)
    | cons c t => simp [← h2]
  · rename_i hlast
    generalize lastRuneStart (a :: b :: t) = start at h
    match start, h with
    | 0, h =>
      simp [DecodeRune_ascii a _ ha] at h
      have : IsSpace RuneError = false := by decide
      rw [← h.1, this] at hr
      exact absurd hr (by simp)
    | 1, h =>
      simp only [List.drop_succ_cons, List.drop_zero, DecodeRune_ascii b _ hb] at h
      cases t with
      | nil => simp at hlast; omega
      | cons c t =>
        simp at h
        have : IsSpace RuneError = false := by decide
        rw [← h.1, this] at hr
        exact absurd hr (by simp)
    | k + 2, h =>
      cases hd : DecodeRune (List.drop (k + 2) (a :: b :: t)) with
      | mk r1 size =>
        rw [hd] at h
        simp only [ne_eq, ite_not] at h
        split at h
        · rename_i heq
          simp only [Prod.mk.injEq] at h
          omega
        · simp only [Prod.mk.injEq] at h
          have : IsSpace RuneError = false := by decide
          rw [← h.1, this] at hr
          exact absurd hr (by simp)

/-- The right trim stops before two leading ASCII bytes that are not white
space. -/
theorem trimRightLoop_keeps (a b : Nat) (ha : a < RuneSelf) (hb : b < RuneSelf)
    (hsb : IsSpace b = false) : ∀ (fuel : Nat) (t : Bytes),
    ∃ t1, trimRightLoop fuel (a :: b :: t) = a :: b :: t1 := by
  intro fuel
  induction fuel with
  | zero => intro t; exact ⟨t, rfl⟩
  | succ f ih =>
    intro t
    cases hd : DecodeLastRune (a :: b :: t) with
    | mk r n =>
      by_cases hr : IsSpace r = true
      · have hn := DecodeLastRune_behind a b t ha hb hsb r n hd hr
        obtain ⟨t1, ht1⟩ := ih (t.take (t.length - n))
        refine ⟨t1, ?_⟩
        have hlen : (a :: b :: t).length - n = (t.length - n) + 2 := by
          simp only [List.length_cons]; omega
        simp only [trimRightLoop, hd, hr, if_true, hlen, List.take_succ_cons]
        simpa using ht1
      · exact ⟨t, by simp [trimRightLoop, hd, hr]⟩

/-- A line that begins with two ASCII bytes that are not white space keeps
more than one byte when trimmed. -/
theorem TrimSpace_two (a b : Nat) (t : Bytes) (ha : a < RuneSelf) (hb : b < RuneSelf)
    (hsa : IsSpace a = false) (hsb : IsSpace b = false) :
    1 < (TrimSpace (a :: b :: t)).length := by
  have hl : trimLeftLoop 0 (a :: b :: t) = a :: b :: t := by
    simp [trimLeftLoop, DecodeRune_ascii a _ ha, hsa]
  obtain ⟨t1, ht1⟩ := trimRightLoop_keeps a b ha hb hsb (a :: b :: t).length t
  show 1 < (trimRightLoop (trimLeftLoop 0 (a :: b :: t)).length
    (trimLeftLoop 0 (a :: b :: t))).length
  rw [hl, ht1]
  simp

theorem lit_msgid : lit "msgid " = [109, 115, 103, 105, 100, 32] := by decide

theorem lit_msgstr : lit "msgstr " = [109, 115, 103, 115, 116, 114, 32] := by decide

theorem msgstrPrefix_eq (n : Nat) :
    msgstrPrefix n = 109 :: 115 :: ([103, 115, 116, 114, 91] ++ Itoa n ++ lit "] ") := by
  have : lit "msgstr[" = [109, 115, 103, 115, 116, 114, 91] := by decide
  simp [msgstrPrefix, this]

/-- A `msgid` line is not blank. -/
theorem isBlank_msgid (q : Bytes) : isBlank (lit "msgid " ++ q) = false := by
  have := TrimSpace_two 109 115 ([103, 105, 100, 32] ++ q) (by decide) (by decide) (by decide)
    (by decide)
  simp only [isBlank, lit_msgid, decide_eq_false_iff_not]
  simp only [List.cons_append, List.nil_append] at this ⊢
  omega

/-- A blank line does not start with the prefix of a plural form. -/
theorem not_msgstrPrefix_of_isBlank {l : Bytes} (n : Nat) (h : isBlank l = true) :
    HasPrefix l (msgstrPrefix n) = false := by
  by_contra hc
  simp only [Bool.not_eq_false] at hc
  unfold HasPrefix at hc
  obtain ⟨t, rfl⟩ := List.isPrefixOf_iff_prefix.mp hc
  have := TrimSpace_two 109 115 ([103, 115, 116, 114, 91] ++ Itoa n ++ lit "] " ++ t)
    (by decide) (by decide) (by decide) (by decide)
  simp only [isBlank, msgstrPrefix_eq, decide_eq_true_eq] at h
  simp only [List.cons_append, List.nil_append, List.append_assoc] at this h
  omega

/-- What `UnquoteChar` leaves is an end part of its input. -/
theorem UnquoteChar_suffix (s : Bytes) (quote : Nat) (r : Nat) (m : Bool) (tail : Bytes)
    (h : UnquoteChar s quote = some (r, m, tail)) : tail <:+ s := by
  cases s with
  | nil => exact absurd h (by simp [UnquoteChar])
  | cons c t =>
    unfold UnquoteChar at h
    simp only at h
    by_cases h1 : c = quote ∧ (quote = 39 ∨ quote = 34)
    · rw [if_pos h1] at h
      exact absurd h (by simp)
    · rw [if_neg h1] at h
      by_cases h2 : c ≥ RuneSelf
      · rw [if_pos h2] at h
        simp only [Option.some.injEq, Prod.mk.injEq] at h
        rw [← h.2.2]
        exact List.drop_suffix _ _
      · rw [if_neg h2] at h
        by_cases h3 : c ≠ 92
        · rw [if_pos h3] at h
          simp only [Option.some.injEq, Prod.mk.injEq] at h
          rw [← h.2.2]
          exact List.suffix_cons _ _
        · rw [if_neg h3] at h
          cases t with
          | nil => exact absurd h (by simp)
          | cons c1 s2 =>
            simp only at h
            have h2 : s2 <:+ c :: c1 :: s2 :=
              (List.suffix_cons c1 s2).trans (List.suffix_cons c (c1 :: s2))
            have hd : ∀ n, List.drop n s2 <:+ c :: c1 :: s2 :=
              fun n => (List.drop_suffix n s2).trans h2
            by_cases k97 : c1 = 97
            · rw [if_pos k97] at h
              cases h
              exact h2
            rw [if_neg k97] at h
            by_cases k98 : c1 = 98
            · rw [if_pos k98] at h
              cases h
              exact h2
            rw [if_neg k98] at h
            by_cases k102 : c1 = 102
            · rw [if_pos k102] at h
              cases h
              exact h2
            rw [if_neg k102] at h
            by_cases k110 : c1 = 110
            · rw [if_pos k110] at h
              cases h
              exact h2
            rw [if_neg k110] at h
            by_cases k114 : c1 = 114
            · rw [if_pos k114] at h
              cases h
              exact h2
            rw [if_neg k114] at h
            by_cases k116 : c1 = 116
            · rw [if_pos k116] at h
              cases h
              exact h2
            rw [if_neg k116] at h
            by_cases k118 : c1 = 118
            · rw [if_pos k118] at h
              cases h
              exact h2
            rw [if_neg k118] at h
            by_cases hx : c1 = 120 ∨ c1 = 117 ∨ c1 = 85
            · rw [if_pos hx] at h
              generalize (if c1 = 120 then 2 else if c1 = 117 then 4 else 8) = n at h
              by_cases hl : s2.length < n
              · rw [if_pos hl] at h
                cases h
              rw [if_neg hl] at h
              cases hv : hexValue (List.take n s2) 0 with
              | none =>
                rw [hv] at h
                cases h
              | some v =>
                rw [hv] at h
                simp only at h
                by_cases hc : c1 = 120
                · rw [if_pos hc] at h
                  cases h
                  exact hd _
                rw [if_neg hc] at h
                by_cases hr : (!ValidRune v) = true
                · rw [if_pos hr] at h
                  cases h
                rw [if_neg hr] at h
                cases h
                exact hd _
            rw [if_neg hx] at h
            by_cases ho : 48 ≤ c1 ∧ c1 ≤ 55
            · rw [if_pos ho] at h
              by_cases hl : s2.length < 2
              · rw [if_pos hl] at h
                cases h
              rw [if_neg hl] at h
              cases hv : octValue (List.take 2 s2) (c1 - 48) with
              | none =>
                rw [hv] at h
                cases h
              | some v =>
                rw [hv] at h
                simp only at h
                by_cases hr : v > 255
                · rw [if_pos hr] at h
                  cases h
                rw [if_neg hr] at h
                cases h
                exact hd _
            rw [if_neg ho] at h
            by_cases hb : c1 = 92
            · rw [if_pos hb] at h
              cases h
              exact h2
            rw [if_neg hb] at h
            by_cases hq : c1 = 39 ∨ c1 = 34
            · rw [if_pos hq] at h
              by_cases hne : c1 ≠ quote
              · rw [if_pos hne] at h
                cases h
              rw [if_neg hne] at h
              cases h
              exact h2
            rw [if_neg hq] at h
            cases h

/-- What the decoding loop leaves is an end part of its input. -/
theorem unquoteLoop_suffix (quote : Nat) : ∀ (f : Nat) (inp buf b rest : Bytes),
    unquoteLoop quote f inp buf = some (b, rest) → rest <:+ inp := by
  intro f
  induction f with
  | zero =>
    intro inp buf b rest h
    simp only [unquoteLoop, Option.some.injEq, Prod.mk.injEq] at h
    rw [← h.2]
  | succ f ih =>
    intro inp buf b rest h
    cases inp with
    | nil =>
      simp only [unquoteLoop, Option.some.injEq, Prod.mk.injEq] at h
      rw [← h.2]
    | cons c t =>
      simp only [unquoteLoop] at h
      by_cases hc : c = quote
      · rw [if_pos hc] at h
        simp only [Option.some.injEq, Prod.mk.injEq] at h
        rw [← h.2]
      · rw [if_neg hc] at h
        cases hu : UnquoteChar (c :: t) quote with
        | none =>
          rw [hu] at h
          exact absurd h (by simp)
        | some x =>
          obtain ⟨r, m, rem⟩ := x
          rw [hu] at h
          simp only at h
          have hs := UnquoteChar_suffix _ _ _ _ _ hu
          split_ifs at h
          all_goals first
            | (cases h; done)
            | (simp only [Option.some.injEq, Prod.mk.injEq] at h
               rw [← h.2]
               exact hs)
            | exact (ih _ _ _ _ h).trans hs

/-- When the first occurrence of `q` in a list is at its last position, `q` is
the last element. -/
theorem getLast_of_indexOf (q : Nat) (tl : Bytes) (hm : q ∈ tl)
    (hl : tl.length ≤ tl.indexOf q + 1) : tl.getLast? = some q := by
  have hlt : tl.indexOf q < tl.length := List.indexOf_lt_length.mpr hm
  have hidx : tl.indexOf q = tl.length - 1 := by omega
  have hget : tl[tl.indexOf q] = q := List.getElem_indexOf hlt
  rw [List.getLast?_eq_getElem?, ← hidx, List.getElem?_eq_getElem hlt, hget]

/-- A literal that `strconv.Unquote` accepts is at least two bytes long and is
bounded by the same quote character at both ends: a double quote, a single
quote or a back quote. -/
theorem Unquote_ok_bounded (inp : Bytes) (h : (Unquote inp).2 = none) :
    ∃ q, (q = 0x22 ∨ q = 0x27 ∨ q = 0x60) ∧ inp.head? = some q ∧ inp.getLast? = some q ∧
      2 ≤ inp.length := by
  unfold Unquote at h
  cases hu : unquoteLit inp with
  | none =>
    rw [hu] at h
    exact absurd h (by simp)
  | some x =>
    obtain ⟨out, rem⟩ := x
    rw [hu] at h
    simp only at h
    by_cases hr : rem.length > 0
    · rw [if_pos hr] at h
      exact absurd h (by simp)
    have hrem : rem = [] := by
      cases rem with
      | nil => rfl
      | cons a t => simp at hr
    subst hrem
    unfold unquoteLit at hu
    by_cases hlen : inp.length < 2
    · rw [if_pos hlen] at hu
      cases hu
    rw [if_neg hlen] at hu
    cases inp with
    | nil => cases hu
    | cons quote tl =>
      simp only at hu
      by_cases hc : (!tl.contains quote) = true
      · rw [if_pos hc] at hu
        cases hu
      rw [if_neg hc] at hu
      have hmem : quote ∈ tl := by simpa using hc
      have hdrop : ∀ out1, some (out1, List.drop (tl.indexOf quote + 2) (quote :: tl))
          = some (out, ([] : Bytes)) → tl.getLast? = some quote := by
        intro out1 heq
        simp only [Option.some.injEq, Prod.mk.injEq, List.drop_succ_cons] at heq
        exact getLast_of_indexOf quote tl hmem (List.drop_eq_nil_iff.mp heq.2)
      have hlast : ∀ (hq : quote = 0x22 ∨ quote = 0x27 ∨ quote = 0x60),
          tl.getLast? = some quote →
          ∃ q, (q = 0x22 ∨ q = 0x27 ∨ q = 0x60) ∧ (quote :: tl).head? = some q ∧
            (quote :: tl).getLast? = some q ∧ 2 ≤ (quote :: tl).length := by
        intro hq hl
        refine ⟨quote, hq, rfl, ?_, by omega⟩
        cases tl with
        | nil => simp at hl
        | cons a t =>
          rw [List.getLast?_cons_cons]
          exact hl
      by_cases hb : quote = 0x60
      · rw [if_pos hb] at hu
        exact hlast (Or.inr (Or.inr hb)) (hdrop _ hu)
      rw [if_neg hb] at hu
      by_cases hq : quote = 0x22 ∨ quote = 0x27
      · rw [if_pos hq] at hu
        have hq3 : quote = 0x22 ∨ quote = 0x27 ∨ quote = 0x60 := by
          rcases hq with h1 | h1
          · exact Or.inl h1
          · exact Or.inr (Or.inl h1)
        have hslow : (match unquoteLoop quote tl.length tl [] with
            | none => none
            | some (buf, rest) =>
              match rest with
              | [] => none
              | c :: rest1 => if c = quote then some (buf, rest1) else none)
              = some (out, ([] : Bytes)) → tl.getLast? = some quote := by
          intro hu
          cases hl : unquoteLoop quote tl.length tl [] with
          | none =>
            rw [hl] at hu
            cases hu
          | some y =>
            obtain ⟨buf, rest⟩ := y
            rw [hl] at hu
            simp only at hu
            have hsuf := unquoteLoop_suffix quote _ _ _ _ _ hl
            cases rest with
            | nil => cases hu
            | cons c rest1 =>
              simp only at hu
              by_cases hcq : c = quote
              · rw [if_pos hcq] at hu
                simp only [Option.some.injEq, Prod.mk.injEq] at hu
                rw [hu.2, hcq] at hsuf
                obtain ⟨pre, hpre⟩ := hsuf
                rw [← hpre]
                simp
              · rw [if_neg hcq] at hu
                cases hu
        split_ifs at hu
        all_goals first
          | exact hlast hq3 (hdrop _ hu)
          | exact hlast hq3 (hslow hu)
      · rw [if_neg hq] at hu
        cases hu

/-- A literal that `strconv.Unquote` rejects gives the empty string and
`ErrSyntax`. -/
theorem Unquote_rejected (x : Bytes) (h : (Unquote x).2 ≠ none) :
    Unquote x = ([], some GoError.ErrSyntax) := by
  unfold Unquote at h ⊢
  split
  · rfl
  · rename_i out rem hu
    rw [hu] at h
    simp only at h
    split_ifs at h ⊢
    · rfl
    · exact absurd rfl h

/-- Once the sticky error is `ErrSyntax`, decoding further pieces leaves it so. -/
theorem stickyAfter_ErrSyntax (ps : List Bytes) :
    stickyAfter (some GoError.ErrSyntax) ps = some GoError.ErrSyntax := by
  induction ps with
  | nil => rfl
  | cons a t ih =>
    rw [stickyAfter_cons]
    by_cases ha : (Unquote a).2 = none
    · simp only [stickyAfter, List.foldl_cons, List.foldl_nil, ha, ne_eq, not_true_eq_false,
        if_false]
      exact ih
    · have := Unquote_rejected a ha
      simp only [stickyAfter, List.foldl_cons, List.foldl_nil, this, ne_eq, reduceCtorEq,
        not_false_eq_true, if_true]
      exact ih

/-- The sticky error is set after decoding pieces exactly when it was set
before or a piece is rejected. -/
theorem stickyAfter_ne_none_iff (e : Option GoError) (ps : List Bytes) :
    stickyAfter e ps ≠ none ↔ e ≠ none ∨ ∃ p ∈ ps, (Unquote p).2 ≠ none := by
  induction ps generalizing e with
  | nil => simp [stickyAfter]
  | cons a t ih =>
    rw [stickyAfter_cons, ih]
    by_cases ha : (Unquote a).2 = none <;> simp [stickyAfter, ha]

/-- An ASCII white-space byte is a single-byte rune, is white space, and is not
a double quote. -/
theorem asciiSpace_facts {w : Nat} (h : asciiSpace w = true) :
    w < RuneSelf ∧ IsSpace w = true ∧ w ≠ 0x22 := by
  simp only [asciiSpace, Bool.decide_or, Bool.or_eq_true, decide_eq_true_eq] at h
  rcases h with h | h | h | h | h | h <;> subst h <;> decide

/-- The left trim drops leading ASCII white space. -/
theorem trimLeftLoop_ascii (ws x : Bytes) (h : ∀ w ∈ ws, asciiSpace w = true) :
    trimLeftLoop 0 (ws ++ x) = trimLeftLoop 0 x := by
  induction ws with
  | nil => rfl
  | cons w t ih =>
    obtain ⟨h1, h2, _⟩ := asciiSpace_facts (h w (by simp))
    simp only [List.cons_append, trimLeftLoop, DecodeRune_ascii w _ h1, h2, if_true]
    exact ih (fun v hv => h v (by simp [hv]))

/-- The last rune of a string that ends in an ASCII byte is that byte. -/
theorem DecodeLastRune_ascii (y : Bytes) (w : Nat) (hw : w < RuneSelf) :
    DecodeLastRune (y ++ [w]) = (w, 1) := by
  unfold DecodeLastRune
  simp [hw]

/-- The right trim drops trailing ASCII white space. -/
theorem trimRightLoop_ascii (ws : Bytes) : ∀ (x : Bytes) (f : Nat),
    (∀ w ∈ ws, asciiSpace w = true) → ws.length ≤ f →
    trimRightLoop f (x ++ ws) = trimRightLoop (f - ws.length) x := by
  induction ws using List.reverseRecOn with
  | nil => intro x f _ _; simp
  | append_singleton t w ih =>
    intro x f h hf
    obtain ⟨h1, h2, _⟩ := asciiSpace_facts (h w (by simp))
    have hpos : 0 < f := by
      simp only [List.length_append, List.length_singleton] at hf
      omega
    obtain ⟨f, rfl⟩ : ∃ g, f = g + 1 := ⟨f - 1, by omega⟩
    · have hne : x ++ (t ++ [w]) ≠ [] := by simp
      have hd : DecodeLastRune (x ++ (t ++ [w])) = (w, 1) := by
        rw [← List.append_assoc]
        exact DecodeLastRune_ascii _ w h1
      simp only [trimRightLoop, hne, if_false, hd, h2, if_true]
      have ht : List.take ((x ++ (t ++ [w])).length - 1) (x ++ (t ++ [w])) = x ++ t := by
        have hlen : (x ++ (t ++ [w])).length - 1 = (x ++ t).length := by simp
        rw [hlen, ← List.append_assoc, List.take_left]
      rw [ht, ih x f (fun v hv => h v (by simp [hv])) (by simp at hf; omega)]
      simp

/-- The right trim stops at an ASCII byte that is not white space. -/
theorem trimRightLoop_stop (y : Bytes) (b : Nat) (hb : b < RuneSelf) (hs : IsSpace b = false)
    (f : Nat) : trimRightLoop f (y ++ [b]) = y ++ [b] := by
  cases f with
  | zero => rfl
  | succ f => simp [trimRightLoop, DecodeLastRune_ascii y b hb, hs]

/-- Trimming a text that is bounded by double quotes and surrounded by ASCII
white space gives the text. -/
theorem TrimSpace_quoted (ws1 ws2 mid : Bytes) (h1 : ∀ w ∈ ws1, asciiSpace w = true)
    (h2 : ∀ w ∈ ws2, asciiSpace w = true) :
    TrimSpace (ws1 ++ (0x22 :: (mid ++ [0x22])) ++ ws2) = 0x22 :: (mid ++ [0x22]) := by
  have hl : trimLeftLoop 0 (ws1 ++ (0x22 :: (mid ++ [0x22])) ++ ws2)
      = (0x22 :: (mid ++ [0x22])) ++ ws2 := by
    rw [List.append_assoc, trimLeftLoop_ascii _ _ h1]
    simp [trimLeftLoop, DecodeRune_ascii 0x22 _ (by decide), show IsSpace 0x22 = false by decide]
  show trimRightLoop (trimLeftLoop 0 _).length (trimLeftLoop 0 _) = _
  rw [hl, trimRightLoop_ascii ws2 _ _ h2 (by simp only [List.length_append, List.length_cons]; omega)]
  have : (0x22 :: (mid ++ [0x22]) : Bytes) = (0x22 :: mid) ++ [0x22] := by simp
  rw [this]
  exact trimRightLoop_stop _ _ (by decide) (by decide) _

/-- A list with a first and a last element that are the same double quote, of
length two at least, is a double quote, a middle part and a double quote. -/
theorem quoted_shape (q : Bytes) (h0 : q.head? = some 0x22) (hl : q.getLast? = some 0x22)
    (h2 : 2 ≤ q.length) : ∃ mid, q = 0x22 :: (mid ++ [0x22]) := by
  cases q with
  | nil => simp at h2
  | cons a t =>
    simp only [List.head?_cons, Option.some.injEq] at h0
    subst h0
    cases t with
    | nil => simp at h2
    | cons b t1 =>
      rw [List.getLast?_cons_cons] at hl
      refine ⟨(b :: t1).dropLast, ?_⟩
      rw [List.dropLast_append_getLast? _ hl]

/-- A double-quoted literal that `strconv.Unquote` accepts is a double quote, a
middle part and a double quote. -/
theorem accepted_shape (q : Bytes) (hq : (Unquote q).2 = none) (h0 : q.head? = some 0x22) :
    ∃ mid, q = 0x22 :: (mid ++ [0x22]) := by
  obtain ⟨c, _, hh, hl, h2⟩ := Unquote_ok_bounded q hq
  rw [h0] at hh
  simp only [Option.some.injEq] at hh
  rw [← hh] at hl
  exact quoted_shape q h0 hl h2

/-- The white-space runes. -/
theorem IsSpace_cases {r : Nat} (h : IsSpace r = true) :
    r ∈ [0x09, 0x0A, 0x0B, 0x0C, 0x0D, 0x20, 0x85, 0xA0, 0x1680, 0x2000, 0x2001, 0x2002, 0x2003,
      0x2004, 0x2005, 0x2006, 0x2007, 0x2008, 0x2009, 0x200A, 0x2028, 0x2029, 0x202F, 0x205F,
      0x3000] := by
  unfold IsSpace at h
  split_ifs at h with h1
  · simp only [Bool.decide_or, Bool.or_eq_true, decide_eq_true_eq] at h
    rcases h with h | h | h | h | h | h | h | h <;> subst h <;> decide
  · simp only [Bool.decide_or, Bool.decide_and, Bool.or_eq_true, decide_eq_true_eq,
      Bool.and_eq_true] at h
    rcases h with h | h | h | h | h | h | h
    · subst h; decide
    · obtain ⟨ha, hb⟩ := h
      interval_cases r <;> decide
    all_goals (subst h; decide)

/-- The UTF-8 encoding of a white-space rune is not empty and holds no double
quote. -/
theorem space_encoding {r : Nat} (h : IsSpace r = true) :
    EncodeRune r ≠ [] ∧ 0x22 ∉ EncodeRune r := by
  have hm := IsSpace_cases h
  simp only [List.mem_cons, List.mem_singleton, List.not_mem_nil, or_false] at hm
  rcases hm with h | h | h | h | h | h | h | h | h | h | h | h | h | h | h | h | h | h | h | h |
    h | h | h | h | h <;> subst h <;> decide

/-- A valid two-byte encoding decodes to its rune. -/
theorem DecodeRune_two (p0 b1 : Nat) (t : Bytes) (h1 : 0xC2 ≤ p0) (h2 : p0 < 0xE0)
    (h3 : 0x80 ≤ b1) (h4 : b1 ≤ 0xBF) :
    DecodeRune (p0 :: b1 :: t) = (((p0 &&& 0x1F) <<< 6) ||| (b1 &&& 0x3F), 2) := by
  have c1 : ¬ p0 < 128 := by omega
  have c2 : ¬ (p0 < 194 ∨ 244 < p0) := by omega
  have c3 : p0 < 224 := by omega
  have c4 : ¬ p0 = 224 := by omega
  have c5 : ¬ p0 = 240 := by omega
  have c6 : ¬ p0 = 237 := by omega
  have c7 : ¬ p0 = 244 := by omega
  have c8 : ¬ (b1 < 128 ∨ 191 < b1) := by omega
  have c9 : ¬ (t.length + 1 + 1 < 2) := by omega
  simp only [DecodeRune, RuneSelf, c1, c2, c3, c4, c5, c6, c7, c8, c9, if_true, if_false,
    List.length_cons, Nat.le_refl]

/-- A valid three-byte encoding decodes to its rune. -/
theorem DecodeRune_three (p0 b1 b2 : Nat) (t : Bytes) (h1 : 0xE0 ≤ p0) (h2 : p0 < 0xF0)
    (h3 : (if p0 = 0xE0 then 0xA0 else 0x80) ≤ b1)
    (h4 : b1 ≤ (if p0 = 0xED then 0x9F else 0xBF)) (h5 : 0x80 ≤ b2) (h6 : b2 ≤ 0xBF) :
    DecodeRune (p0 :: b1 :: b2 :: t)
      = (((p0 &&& 0x0F) <<< 12) ||| ((b1 &&& 0x3F) <<< 6) ||| (b2 &&& 0x3F), 3) := by
  have c1 : ¬ p0 < 128 := by omega
  have c2 : ¬ (p0 < 194 ∨ 244 < p0) := by omega
  have c3 : ¬ p0 < 224 := by omega
  have c3' : p0 < 240 := by omega
  have c5 : ¬ p0 = 240 := by omega
  have c7 : ¬ p0 = 244 := by omega
  have c8 : ¬ (b1 < (if p0 = 224 then 160 else 128) ∨ (if p0 = 237 then 159 else 191) < b1) := by
    omega
  have c9 : ¬ (t.length + 1 + 1 + 1 < 3) := by omega
  have c10 : ¬ (b2 < 128 ∨ 191 < b2) := by omega
  have c11 : ¬ (3 ≤ 2) := by omega
  simp only [DecodeRune, RuneSelf, c1, c2, c3, c3', c5, c7, c8, c9, c10, c11, if_true,
    if_false, List.length_cons, Nat.le_refl]

/-- A valid four-byte encoding decodes to its rune. -/
theorem DecodeRune_four (p0 b1 b2 b3 : Nat) (t : Bytes) (h1 : 0xF0 ≤ p0) (h2 : p0 ≤ 0xF4)
    (h3 : (if p0 = 0xF0 then 0x90 else 0x80) ≤ b1)
    (h4 : b1 ≤ (if p0 = 0xF4 then 0x8F else 0xBF)) (h5 : 0x80 ≤ b2) (h6 : b2 ≤ 0xBF)
    (h7 : 0x80 ≤ b3) (h8 : b3 ≤ 0xBF) :
    DecodeRune (p0 :: b1 :: b2 :: b3 :: t)
      = (((p0 &&& 0x07) <<< 18) ||| ((b1 &&& 0x3F) <<< 12) ||| ((b2 &&& 0x3F) <<< 6)
          ||| (b3 &&& 0x3F), 4) := by
  have c1 : ¬ p0 < 128 := by omega
  have c2 : ¬ (p0 < 194 ∨ 244 < p0) := by omega
  have c3 : ¬ p0 < 224 := by omega
  have c3' : ¬ p0 < 240 := by omega
  have c4 : ¬ p0 = 224 := by omega
  have c6 : ¬ p0 = 237 := by omega
  have c8 : ¬ (b1 < (if p0 = 240 then 144 else 128) ∨ (if p0 = 244 then 143 else 191) < b1) := by
    omega
  have c9 : ¬ (t.length + 1 + 1 + 1 + 1 < 4) := by omega
  have c10 : ¬ (b2 < 128 ∨ 191 < b2) := by omega
  have c11 : ¬ (4 ≤ 2) := by omega
  have c12 : ¬ (4 ≤ 3) := by omega
  have c13 : ¬ (b3 < 128 ∨ 191 < b3) := by omega
  simp only [DecodeRune, RuneSelf, c1, c2, c3, c3', c4, c6, c8, c9, c10, c11, c12, c13,
    if_true, if_false, List.length_cons]

/-- The shapes of the input of `DecodeRune`: a single byte below `RuneSelf`, a
valid encoding on two, three or four bytes, and otherwise an invalid encoding,
decoded as `RuneError` of width 1. -/
theorem DecodeRune_cases (p0 : Nat) (t : Bytes) :
    (p0 < 0x80 ∧ DecodeRune (p0 :: t) = (p0, 1)) ∨
    (0x80 ≤ p0 ∧ DecodeRune (p0 :: t) = (RuneError, 1)) ∨
    (∃ b1 t1, t = b1 :: t1 ∧ 0xC2 ≤ p0 ∧ p0 < 0xE0 ∧ 0x80 ≤ b1 ∧ b1 ≤ 0xBF) ∨
    (∃ b1 b2 t2, t = b1 :: b2 :: t2 ∧ 0xE0 ≤ p0 ∧ p0 < 0xF0 ∧
      (if p0 = 0xE0 then 0xA0 else 0x80) ≤ b1 ∧ b1 ≤ (if p0 = 0xED then 0x9F else 0xBF) ∧
      0x80 ≤ b2 ∧ b2 ≤ 0xBF) ∨
    (∃ b1 b2 b3 t3, t = b1 :: b2 :: b3 :: t3 ∧ 0xF0 ≤ p0 ∧ p0 ≤ 0xF4 ∧
      (if p0 = 0xF0 then 0x90 else 0x80) ≤ b1 ∧ b1 ≤ (if p0 = 0xF4 then 0x8F else 0xBF) ∧
      0x80 ≤ b2 ∧ b2 ≤ 0xBF ∧ 0x80 ≤ b3 ∧ b3 ≤ 0xBF) := by
  by_cases h1 : p0 < 0x80
  · exact Or.inl ⟨h1, DecodeRune_ascii p0 t h1⟩
  have c1 : ¬ p0 < 128 := h1
  by_cases h2 : p0 < 194 ∨ 244 < p0
  · refine Or.inr (Or.inl ⟨by omega, ?_⟩)
    simp only [DecodeRune, RuneSelf, c1, h2, if_true, if_false]
  by_cases h3 : p0 < 224
  · have c4 : ¬ p0 = 224 := by omega
    have c5 : ¬ p0 = 240 := by omega
    have c6 : ¬ p0 = 237 := by omega
    have c7 : ¬ p0 = 244 := by omega
    cases t with
    | nil =>
      refine Or.inr (Or.inl ⟨by omega, ?_⟩)
      simp [DecodeRune, RuneSelf, c1, h2, h3]
    | cons b1 t1 =>
      by_cases h4 : b1 < 128 ∨ 191 < b1
      · refine Or.inr (Or.inl ⟨by omega, ?_⟩)
        simp [DecodeRune, RuneSelf, c1, h2, h3, c4, c5, c6, c7, h4]
      · exact Or.inr (Or.inr (Or.inl ⟨b1, t1, rfl, by omega, h3, by omega, by omega⟩))
  by_cases h3' : p0 < 240
  · have c5 : ¬ p0 = 240 := by omega
    have c7 : ¬ p0 = 244 := by omega
    cases t with
    | nil =>
      refine Or.inr (Or.inl ⟨by omega, ?_⟩)
      simp [DecodeRune, RuneSelf, c1, h2, h3, h3']
    | cons b1 t1 =>
      by_cases h4 : b1 < (if p0 = 224 then 160 else 128) ∨ (if p0 = 237 then 159 else 191) < b1
      · refine Or.inr (Or.inl ⟨by omega, ?_⟩)
        simp [DecodeRune, RuneSelf, c1, h2, h3, h3', c5, c7, h4]
      cases t1 with
      | nil =>
        refine Or.inr (Or.inl ⟨by omega, ?_⟩)
        simp [DecodeRune, RuneSelf, c1, h2, h3, h3']
      | cons b2 t2 =>
        by_cases h5 : b2 < 128 ∨ 191 < b2
        · refine Or.inr (Or.inl ⟨by omega, ?_⟩)
          simp [DecodeRune, RuneSelf, c1, h2, h3, h3', c5, c7, h4, h5]
        · exact Or.inr (Or.inr (Or.inr (Or.inl ⟨b1, b2, t2, rfl, by omega, h3', by omega,
            by omega, by omega, by omega⟩)))
  have c4 : ¬ p0 = 224 := by omega
  have c6 : ¬ p0 = 237 := by omega
  cases t with
  | nil =>
    refine Or.inr (Or.inl ⟨by omega, ?_⟩)
    simp [DecodeRune, RuneSelf, c1, h2, h3, h3']
  | cons b1 t1 =>
    by_cases h4 : b1 < (if p0 = 240 then 144 else 128) ∨ (if p0 = 244 then 143 else 191) < b1
    · refine Or.inr (Or.inl ⟨by omega, ?_⟩)
      simp [DecodeRune, RuneSelf, c1, h2, h3, h3', c4, c6, h4]
    cases t1 with
    | nil =>
      refine Or.inr (Or.inl ⟨by omega, ?_⟩)
      simp [DecodeRune, RuneSelf, c1, h2, h3, h3']
    | cons b2 t2 =>
      by_cases h5 : b2 < 128 ∨ 191 < b2
      · refine Or.inr (Or.inl ⟨by omega, ?_⟩)
        simp [DecodeRune, RuneSelf, c1, h2, h3, h3', c4, c6, h4, h5]
      cases t2 with
      | nil =>
        refine Or.inr (Or.inl ⟨by omega, ?_⟩)
        simp [DecodeRune, RuneSelf, c1, h2, h3, h3']
      | cons b3 t3 =>
        by_cases h6 : b3 < 128 ∨ 191 < b3
        · refine Or.inr (Or.inl ⟨by omega, ?_⟩)
          simp [DecodeRune, RuneSelf, c1, h2, h3, h3', c4, c6, h4, h5, h6]
        · exact Or.inr (Or.inr (Or.inr (Or.inr ⟨b1, b2, b3, t3, rfl, by omega, by omega,
            by omega, by omega, by omega, by omega, by omega, by omega⟩)))

/-- The width `DecodeRune` reports on a non-empty input is at least one and at
most the length of the input. -/
theorem DecodeRune_size (p0 : Nat) (t : Bytes) (r n : Nat) (h : DecodeRune (p0 :: t) = (r, n)) :
    1 ≤ n ∧ n ≤ t.length + 1 := by
  rcases DecodeRune_cases p0 t with ⟨_, e⟩ | ⟨_, e⟩ | ⟨b1, t1, rfl, h1, h2, h3, h4⟩ |
    ⟨b1, b2, t2, rfl, h1, h2, h3, h4, h5, h6⟩ |
    ⟨b1, b2, b3, t3, rfl, h1, h2, h3, h4, h5, h6, h7, h8⟩
  · rw [e] at h; injection h with _ hn; subst hn; simp
  · rw [e] at h; injection h with _ hn; subst hn; simp
  · rw [DecodeRune_two p0 b1 t1 h1 h2 h3 h4] at h; injection h with _ hn; subst hn; simp
  · rw [DecodeRune_three p0 b1 b2 t2 h1 h2 h3 h4 h5 h6] at h
    injection h with _ hn; subst hn; simp
  · rw [DecodeRune_four p0 b1 b2 b3 t3 h1 h2 h3 h4 h5 h6 h7 h8] at h
    injection h with _ hn; subst hn; simp

/-- A rune that `DecodeRune` finds within the first part of an input is found
on that part alone. -/
theorem DecodeRune_local (a c : Bytes) (r n : Nat) (ha : a ≠ [])
    (h : DecodeRune (a ++ c) = (r, n)) (hn : n ≤ a.length) : DecodeRune a = (r, n) := by
  obtain ⟨p0, a1, rfl⟩ := List.exists_cons_of_ne_nil ha
  rw [List.cons_append] at h
  rcases DecodeRune_cases p0 (a1 ++ c) with ⟨k, e⟩ | ⟨k, e⟩ | ⟨b1, t1, et, h1, h2, h3, h4⟩ |
    ⟨b1, b2, t2, et, h1, h2, h3, h4, h5, h6⟩ |
    ⟨b1, b2, b3, t3, et, h1, h2, h3, h4, h5, h6, h7, h8⟩
  · rw [e] at h; rw [← h]; exact DecodeRune_ascii p0 a1 k
  · rw [e] at h; rw [← h]
    rcases DecodeRune_cases p0 a1 with ⟨k1, _⟩ | ⟨_, e1⟩ | ⟨b1, t1, rfl, h1, h2, h3, h4⟩ |
      ⟨b1, b2, t2, rfl, h1, h2, h3, h4, h5, h6⟩ |
      ⟨b1, b2, b3, t3, rfl, h1, h2, h3, h4, h5, h6, h7, h8⟩
    · omega
    · exact e1
    · rw [List.cons_append, DecodeRune_two p0 b1 _ h1 h2 h3 h4] at e
      injection e with _ e2; cases e2
    · rw [List.cons_append, List.cons_append,
        DecodeRune_three p0 b1 b2 _ h1 h2 h3 h4 h5 h6] at e
      injection e with _ e2; cases e2
    · rw [List.cons_append, List.cons_append, List.cons_append,
        DecodeRune_four p0 b1 b2 b3 _ h1 h2 h3 h4 h5 h6 h7 h8] at e
      injection e with _ e2; cases e2
  · rw [et, DecodeRune_two p0 b1 t1 h1 h2 h3 h4] at h
    injection h with hr hn2; subst hn2
    match a1, et, hn with
    | x :: a2, et, _ =>
      rw [List.cons_append] at et; injection et with ex _; subst ex
      rw [DecodeRune_two p0 x a2 h1 h2 h3 h4, hr]
  · rw [et, DecodeRune_three p0 b1 b2 t2 h1 h2 h3 h4 h5 h6] at h
    injection h with hr hn2; subst hn2
    match a1, et, hn with
    | x :: y :: a2, et, _ =>
      rw [List.cons_append, List.cons_append] at et
      injection et with ex et; injection et with ey _; subst ex; subst ey
      rw [DecodeRune_three p0 x y a2 h1 h2 h3 h4 h5 h6, hr]
  · rw [et, DecodeRune_four p0 b1 b2 b3 t3 h1 h2 h3 h4 h5 h6 h7 h8] at h
    injection h with hr hn2; subst hn2
    match a1, et, hn with
    | x :: y :: z :: a2, et, _ =>
      rw [List.cons_append, List.cons_append, List.cons_append] at et
      injection et with ex et; injection et with ey et; injection et with ez _
      subst ex; subst ey; subst ez
      rw [DecodeRune_four p0 x y z a2 h1 h2 h3 h4 h5 h6 h7 h8, hr]

/-- Or-ing a small number into a multiple of a power of two adds it. -/
theorem or_const (c k y : Nat) (h : y < 2 ^ k) (hc : c % 2 ^ k = 0) : c ||| y = c + y := by
  obtain ⟨q, rfl⟩ : ∃ q, c = 2 ^ k * q := ⟨c / 2 ^ k, by
    have := Nat.div_add_mod c (2 ^ k); omega⟩
  exact (Nat.mul_add_lt_is_or h q).symm

/-- Masking with `2 ^ k - 1` is the remainder modulo `2 ^ k`. -/
theorem and_mask (x k : Nat) : x &&& (2 ^ k - 1) = x % 2 ^ k :=
  Nat.and_pow_two_sub_one_eq_mod x k

/-- The value assembled from the payloads of a two-byte encoding. -/
theorem assemble_two (a b : Nat) (hb : b < 64) : (a <<< 6) ||| b = a * 64 + b := by
  rw [Nat.shiftLeft_eq]
  exact or_const (a * 2 ^ 6) 6 b (by norm_num; omega) (by norm_num)

/-- The value assembled from the payloads of a three-byte encoding. -/
theorem assemble_three (a b c : Nat) (hb : b < 64) (hc : c < 64) :
    (a <<< 12) ||| (b <<< 6) ||| c = a * 4096 + b * 64 + c := by
  rw [Nat.shiftLeft_eq, Nat.shiftLeft_eq,
    or_const (a * 2 ^ 12) 12 (b * 2 ^ 6) (by norm_num; omega) (by norm_num),
    or_const (a * 2 ^ 12 + b * 2 ^ 6) 6 c (by norm_num; omega) (by norm_num; omega)]

/-- The value assembled from the payloads of a four-byte encoding. -/
theorem assemble_four (a b c d : Nat) (hb : b < 64) (hc : c < 64) (hd : d < 64) :
    (a <<< 18) ||| (b <<< 12) ||| (c <<< 6) ||| d = a * 262144 + b * 4096 + c * 64 + d := by
  rw [Nat.shiftLeft_eq, Nat.shiftLeft_eq, Nat.shiftLeft_eq,
    or_const (a * 2 ^ 18) 18 (b * 2 ^ 12) (by norm_num; omega) (by norm_num),
    or_const (a * 2 ^ 18 + b * 2 ^ 12) 12 (c * 2 ^ 6) (by norm_num; omega) (by norm_num; omega),
    or_const (a * 2 ^ 18 + b * 2 ^ 12 + c * 2 ^ 6) 6 d (by norm_num; omega)
      (by norm_num; omega)]

/-- The encoding of a rune between U+0080 and U+07FF. -/
theorem EncodeRune_two (r : Nat) (h1 : 0x80 ≤ r) (h2 : r ≤ 0x7FF) :
    EncodeRune r = [192 + r / 64, 128 + r % 64] := by
  have c1 : ¬ r ≤ 127 := by omega
  have e1 : r >>> 6 = r / 64 := Nat.shiftRight_eq_div_pow r 6
  have e2 : r &&& 0x3F = r % 64 := and_mask r 6
  have e3 : 0xC0 ||| (r / 64) = 192 + r / 64 := or_const 0xC0 6 _ (by norm_num; omega) (by norm_num)
  have e4 : 0x80 ||| (r % 64) = 128 + r % 64 := or_const 0x80 6 _ (by norm_num; omega) (by norm_num)
  simp only [EncodeRune, c1, h2, if_true, if_false, e1, e2, e3, e4]

/-- The encoding of a valid rune between U+0800 and U+FFFF. -/
theorem EncodeRune_three (r : Nat) (h1 : 0x800 ≤ r) (h2 : r ≤ 0xFFFF)
    (h3 : ¬ (0xD800 ≤ r ∧ r ≤ 0xDFFF)) :
    EncodeRune r = [224 + r / 4096, 128 + r / 64 % 64, 128 + r % 64] := by
  have c1 : ¬ r ≤ 127 := by omega
  have c2 : ¬ r ≤ 2047 := by omega
  have c3 : ¬ (r > MaxRune ∨ (55296 ≤ r ∧ r ≤ 57343)) := by unfold MaxRune; omega
  have e0 : r >>> 12 = r / 4096 := Nat.shiftRight_eq_div_pow r 12
  have e1 : r >>> 6 = r / 64 := Nat.shiftRight_eq_div_pow r 6
  have e2 : ∀ x, x &&& 0x3F = x % 64 := fun x => and_mask x 6
  have e3 : 0xE0 ||| (r / 4096) = 224 + r / 4096 :=
    or_const 0xE0 5 _ (by norm_num; omega) (by norm_num)
  have e4 : ∀ x, 0x80 ||| (x % 64) = 128 + x % 64 := fun x =>
    or_const 0x80 6 _ (by norm_num; omega) (by norm_num)
  simp only [EncodeRune, c1, c2, c3, h2, if_true, if_false, e0, e1, e2, e3, e4]

/-- The encoding of a rune between U+10000 and U+10FFFF. -/
theorem EncodeRune_four (r : Nat) (h1 : 0x10000 ≤ r) (h2 : r ≤ 0x10FFFF) :
    EncodeRune r = [240 + r / 262144, 128 + r / 4096 % 64, 128 + r / 64 % 64, 128 + r % 64] := by
  have c1 : ¬ r ≤ 127 := by omega
  have c2 : ¬ r ≤ 2047 := by omega
  have c3 : ¬ (r > MaxRune ∨ (55296 ≤ r ∧ r ≤ 57343)) := by unfold MaxRune; omega
  have c4 : ¬ r ≤ 65535 := by omega
  have e00 : r >>> 18 = r / 262144 := Nat.shiftRight_eq_div_pow r 18
  have e0 : r >>> 12 = r / 4096 := Nat.shiftRight_eq_div_pow r 12
  have e1 : r >>> 6 = r / 64 := Nat.shiftRight_eq_div_pow r 6
  have e2 : ∀ x, x &&& 0x3F = x % 64 := fun x => and_mask x 6
  have e3 : 0xF0 ||| (r / 262144) = 240 + r / 262144 :=
    or_const 0xF0 4 _ (by norm_num; omega) (by norm_num)
  have e4 : ∀ x, 0x80 ||| (x % 64) = 128 + x % 64 := fun x =>
    or_const 0x80 6 _ (by norm_num; omega) (by norm_num)
  simp only [EncodeRune, c1, c2, c3, c4, if_true, if_false, e00, e0, e1, e2, e3, e4]

/-- Decoding the encoding of a valid rune gives the rune back, whatever
follows it; the bytes of an encoding on several bytes are all `RuneSelf` or
above. -/
theorem DecodeRune_EncodeRune (r : Nat) (hv : ValidRune r = true) (rest : Bytes) :
    DecodeRune (EncodeRune r ++ rest) = (r, (EncodeRune r).length) ∧
      EncodeRune r ≠ [] ∧ (0x80 ≤ r → ∀ b ∈ EncodeRune r, 0x80 ≤ b) := by
  have hv' : r < 0xD800 ∨ (0xDFFF < r ∧ r ≤ 0x10FFFF) := by
    unfold ValidRune MaxRune at hv
    by_cases h : r < 0xD800
    · exact Or.inl h
    · rw [if_neg h] at hv
      by_cases h' : 0xDFFF < r ∧ r ≤ 0x10FFFF
      · exact Or.inr h'
      · rw [if_neg h'] at hv; cases hv
  have m6 : ∀ x, x &&& 0x3F = x % 64 := fun x => and_mask x 6
  by_cases h1 : r ≤ 0x7F
  · have e : EncodeRune r = [r] := by simp only [EncodeRune, h1, if_true]
    rw [e]
    refine ⟨DecodeRune_ascii r _ (by unfold RuneSelf; omega), by simp, fun h => by omega⟩
  by_cases h2 : r ≤ 0x7FF
  · rw [EncodeRune_two r (by omega) h2]
    refine ⟨?_, by simp, fun _ b hb => ?_⟩
    · simp only [List.cons_append, List.nil_append, List.length_cons, List.length_nil]
      rw [DecodeRune_two _ _ _ (by omega) (by omega) (by omega) (by omega)]
      have a1 : (192 + r / 64) &&& 0x1F = (192 + r / 64) % 32 := and_mask _ 5
      rw [a1, m6, assemble_two _ _ (by omega)]
      congr 1
      omega
    · simp only [List.mem_cons, List.mem_singleton, List.not_mem_nil, or_false] at hb
      omega
  by_cases h3 : r ≤ 0xFFFF
  · rw [EncodeRune_three r (by omega) h3 (by omega)]
    refine ⟨?_, by simp, fun _ b hb => ?_⟩
    · simp only [List.cons_append, List.nil_append, List.length_cons, List.length_nil]
      rw [DecodeRune_three _ _ _ _ (by omega) (by omega) (by split <;> omega)
        (by split <;> omega) (by omega) (by omega)]
      have a1 : (224 + r / 4096) &&& 0x0F = (224 + r / 4096) % 16 := and_mask _ 4
      rw [a1, m6, m6, assemble_three _ _ _ (by omega) (by omega)]
      congr 1
      omega
    · simp only [List.mem_cons, List.mem_singleton, List.not_mem_nil, or_false] at hb
      omega
  · rw [EncodeRune_four r (by omega) (by omega)]
    refine ⟨?_, by simp, fun _ b hb => ?_⟩
    · simp only [List.cons_append, List.nil_append, List.length_cons, List.length_nil]
      rw [DecodeRune_four _ _ _ _ _ (by omega) (by omega) (by split <;> omega)
        (by split <;> omega) (by omega) (by omega) (by omega) (by omega)]
      have a1 : (240 + r / 262144) &&& 0x07 = (240 + r / 262144) % 8 := and_mask _ 3
      rw [a1, m6, m6, m6, assemble_four _ _ _ _ (by omega) (by omega) (by omega)]
      congr 1
      omega
    · simp only [List.mem_cons, List.mem_singleton, List.not_mem_nil, or_false] at hb
      omega

/-- A conditional is equal to a value to which both of its branches are
equal. -/
theorem ite_eq_of {α : Type} (c : Prop) [Decidable c] (x y z : α) (hx : c → x = z)
    (hy : y = z) : (if c then x else y) = z := by
  by_cases h : c
  · rw [if_pos h]; exact hx h
  · rw [if_neg h]; exact hy

/-- The rune `DecodeRune` finds at the head of a text does not depend on what
follows the text, when what follows begins with a byte that starts a rune. -/
theorem DecodeRune_before_start (a c : Bytes) (ha : a ≠ [])
    (hc : ∀ x t, c = x :: t → x < 0x80 ∨ 0xC0 ≤ x) : DecodeRune (a ++ c) = DecodeRune a := by
  obtain ⟨p0, a1, rfl⟩ := List.exists_cons_of_ne_nil ha
  have lo3 : ∀ p : Nat, 0x80 ≤ (if p = 0xE0 then 0xA0 else 0x80) := by intro p; split <;> omega
  have hi3 : ∀ p : Nat, (if p = 0xED then 0x9F else 0xBF) ≤ 0xBF := by intro p; split <;> omega
  have lo4 : ∀ p : Nat, 0x80 ≤ (if p = 0xF0 then 0x90 else 0x80) := by intro p; split <;> omega
  have hi4 : ∀ p : Nat, (if p = 0xF4 then 0x8F else 0xBF) ≤ 0xBF := by intro p; split <;> omega
  rcases DecodeRune_cases p0 a1 with ⟨k, e⟩ | ⟨k, e⟩ | ⟨b1, t1, rfl, h1, h2, h3, h4⟩ |
    ⟨b1, b2, t2, rfl, h1, h2, h3, h4, h5, h6⟩ |
    ⟨b1, b2, b3, t3, rfl, h1, h2, h3, h4, h5, h6, h7, h8⟩
  · rw [e]; exact DecodeRune_ascii p0 _ k
  · rw [e, List.cons_append]
    rcases DecodeRune_cases p0 (a1 ++ c) with ⟨k1, _⟩ | ⟨_, e1⟩ | ⟨b1, t1, et, h1, h2, h3, h4⟩ |
      ⟨b1, b2, t2, et, h1, h2, h3, h4, h5, h6⟩ |
      ⟨b1, b2, b3, t3, et, h1, h2, h3, h4, h5, h6, h7, h8⟩
    · omega
    · exact e1
    · match a1, et, e with
      | [], et, _ =>
        have := hc b1 t1 et
        omega
      | x :: a2, et, e =>
        rw [List.cons_append] at et; injection et with ex _; subst ex
        rw [DecodeRune_two p0 x a2 h1 h2 h3 h4] at e
        injection e with _ e2; cases e2
    · have := lo3 p0
      have := hi3 p0
      match a1, et, e with
      | [], et, _ =>
        have := hc b1 _ et
        omega
      | [x], et, _ =>
        rw [List.cons_append, List.nil_append] at et; injection et with _ et
        have := hc b2 _ et
        omega
      | x :: y :: a2, et, e =>
        rw [List.cons_append, List.cons_append] at et
        injection et with ex et; injection et with ey _; subst ex; subst ey
        rw [DecodeRune_three p0 x y a2 h1 h2 h3 h4 h5 h6] at e
        injection e with _ e2; cases e2
    · have := lo4 p0
      have := hi4 p0
      match a1, et, e with
      | [], et, _ =>
        have := hc b1 _ et
        omega
      | [x], et, _ =>
        rw [List.cons_append, List.nil_append] at et; injection et with _ et
        have := hc b2 _ et
        omega
      | [x, y], et, _ =>
        rw [List.cons_append, List.cons_append, List.nil_append] at et
        injection et with _ et; injection et with _ et
        have := hc b3 _ et
        omega
      | x :: y :: z :: a2, et, e =>
        rw [List.cons_append, List.cons_append, List.cons_append] at et
        injection et with ex et; injection et with ey et; injection et with ez _
        subst ex; subst ey; subst ez
        rw [DecodeRune_four p0 x y z a2 h1 h2 h3 h4 h5 h6 h7 h8] at e
        injection e with _ e2; cases e2
  · rw [List.cons_append, List.cons_append, DecodeRune_two p0 b1 _ h1 h2 h3 h4,
      DecodeRune_two p0 b1 _ h1 h2 h3 h4]
  · rw [List.cons_append, List.cons_append, List.cons_append,
      DecodeRune_three p0 b1 b2 _ h1 h2 h3 h4 h5 h6, DecodeRune_three p0 b1 b2 _ h1 h2 h3 h4 h5 h6]
  · rw [List.cons_append, List.cons_append, List.cons_append, List.cons_append,
      DecodeRune_four p0 b1 b2 b3 _ h1 h2 h3 h4 h5 h6 h7 h8,
      DecodeRune_four p0 b1 b2 b3 _ h1 h2 h3 h4 h5 h6 h7 h8]

/-- A rune that is not `RuneError` begins with a byte that starts a rune. -/
theorem DecodeRune_start (x : Nat) (t : Bytes) (r n : Nat) (h : DecodeRune (x :: t) = (r, n))
    (hr : r ≠ RuneError) : x < 0x80 ∨ 0xC0 ≤ x := by
  rcases DecodeRune_cases x t with ⟨k, _⟩ | ⟨_, e⟩ | ⟨_, _, _, h1, _⟩ |
    ⟨_, _, _, _, h1, _⟩ | ⟨_, _, _, _, _, h1, _⟩
  · exact Or.inl k
  · rw [e] at h; injection h with h1 _; exact absurd h1.symm hr
  · right; omega
  · right; omega
  · right; omega

/-- The loop of `Fields` at the start of a rune does not look at the flag. -/
theorem fieldsLoop_flag (sp sp1 : Bool) (s cur : Bytes) (out : List Bytes) :
    fieldsLoop 0 sp s cur out = fieldsLoop 0 sp1 s cur out := by
  cases s with
  | nil => simp [fieldsLoop]
  | cons b t => simp [fieldsLoop]

/-- The loop of `Fields` inside a rune that is not white space: the rest of
the rune goes to the current field. -/
theorem fieldsLoop_skip_false : ∀ (k : Nat) (s cur : Bytes) (out : List Bytes), k ≤ s.length →
    fieldsLoop k false s cur out = fieldsLoop 0 false (s.drop k) (cur ++ s.take k) out := by
  intro k
  induction k with
  | zero => intro s cur out _; simp
  | succ k ih =>
    intro s cur out hk
    cases s with
    | nil => simp at hk
    | cons b t =>
      rw [fieldsLoop, ih t _ out (by simpa using hk)]
      simp

/-- The loop of `Fields` inside a white-space rune: the rest of the rune is
dropped. -/
theorem fieldsLoop_skip_true : ∀ (k : Nat) (s cur : Bytes) (out : List Bytes), k ≤ s.length →
    fieldsLoop k true s cur out = fieldsLoop 0 true (s.drop k) cur out := by
  intro k
  induction k with
  | zero => intro s cur out _; simp
  | succ k ih =>
    intro s cur out hk
    cases s with
    | nil => simp at hk
    | cons b t =>
      rw [fieldsLoop, ih t _ out (by simpa using hk)]
      simp

/-- The search for white space inside a rune: the rest of the rune is
skipped. -/
theorem hasSpaceLoop_skip : ∀ (k : Nat) (s : Bytes), k ≤ s.length →
    hasSpaceLoop k s = hasSpaceLoop 0 (s.drop k) := by
  intro k
  induction k with
  | zero => intro s _; simp
  | succ k ih =>
    intro s hk
    cases s with
    | nil => simp at hk
    | cons b t =>
      rw [hasSpaceLoop, ih t (by simpa using hk)]
      simp

/-- The loop of `Fields` over one white-space rune: the current field is
closed and the rune dropped. -/
theorem fieldsLoop_space (sp : Bool) (s cur : Bytes) (out : List Bytes) (r n : Nat)
    (hs : s ≠ []) (hd : DecodeRune s = (r, n)) (hr : IsSpace r = true) :
    fieldsLoop 0 sp s cur out
      = fieldsLoop 0 true (s.drop n) [] (if cur = [] then out else out ++ [cur]) := by
  obtain ⟨b, t, rfl⟩ := List.exists_cons_of_ne_nil hs
  obtain ⟨h1, h2⟩ := DecodeRune_size b t r n hd
  obtain ⟨m, rfl⟩ : ∃ m, n = m + 1 := ⟨n - 1, by omega⟩
  rw [fieldsLoop, hd]
  simp only [hr, if_true, Nat.add_sub_cancel, List.drop_succ_cons]
  exact fieldsLoop_skip_true m t [] _ (by omega)

/-- The loop of `Fields` over one rune that is not white space: the rune is
added to the current field. -/
theorem fieldsLoop_char (sp : Bool) (s cur : Bytes) (out : List Bytes) (r n : Nat)
    (hs : s ≠ []) (hd : DecodeRune s = (r, n)) (hr : IsSpace r = false) :
    fieldsLoop 0 sp s cur out = fieldsLoop 0 false (s.drop n) (cur ++ s.take n) out := by
  obtain ⟨b, t, rfl⟩ := List.exists_cons_of_ne_nil hs
  obtain ⟨h1, h2⟩ := DecodeRune_size b t r n hd
  obtain ⟨m, rfl⟩ : ∃ m, n = m + 1 := ⟨n - 1, by omega⟩
  rw [fieldsLoop, hd]
  simp only [hr, Nat.add_sub_cancel, List.drop_succ_cons, List.take_succ_cons]
  rw [fieldsLoop_skip_false m t _ out (by omega)]
  simp

/-- The search for white space over one rune. -/
theorem hasSpaceLoop_rune (s : Bytes) (r n : Nat) (hs : s ≠ []) (hd : DecodeRune s = (r, n)) :
    hasSpaceLoop 0 s = if IsSpace r then true else hasSpaceLoop 0 (s.drop n) := by
  obtain ⟨b, t, rfl⟩ := List.exists_cons_of_ne_nil hs
  obtain ⟨h1, h2⟩ := DecodeRune_size b t r n hd
  obtain ⟨m, rfl⟩ : ∃ m, n = m + 1 := ⟨n - 1, by omega⟩
  rw [hasSpaceLoop, hd]
  simp only [Nat.add_sub_cancel, List.drop_succ_cons]
  rw [hasSpaceLoop_skip m t (by omega)]

/-- The loop of `Fields` gives no empty field. -/
theorem fieldsLoop_ne_nil : ∀ (s : Bytes) (k : Nat) (sp : Bool) (cur : Bytes) (out : List Bytes),
    (∀ t ∈ out, t ≠ []) → ∀ t ∈ fieldsLoop k sp s cur out, t ≠ [] := by
  intro s
  induction s with
  | nil =>
    intro k sp cur out ho t ht
    rw [fieldsLoop] at ht
    by_cases hc : cur = []
    · rw [if_pos hc] at ht; exact ho t ht
    · rw [if_neg hc] at ht
      rcases List.mem_append.mp ht with h | h
      · exact ho t h
      · rw [List.mem_singleton.mp h]; exact hc
  | cons b t0 ih =>
    intro k sp cur out ho t ht
    have hflush : ∀ t ∈ (if cur = [] then out else out ++ [cur]), t ≠ [] := by
      intro t ht
      by_cases hc : cur = []
      · rw [if_pos hc] at ht; exact ho t ht
      · rw [if_neg hc] at ht
        rcases List.mem_append.mp ht with h | h
        · exact ho t h
        · rw [List.mem_singleton.mp h]; exact hc
    cases k with
    | succ k =>
      cases sp with
      | true => rw [fieldsLoop] at ht; exact ih k true cur out ho t ht
      | false => rw [fieldsLoop] at ht; exact ih k false _ out ho t ht
    | zero =>
      rw [fieldsLoop] at ht
      cases hd : DecodeRune (b :: t0) with
      | mk r n =>
        rw [hd] at ht
        simp only at ht
        by_cases hr : IsSpace r = true
        · rw [if_pos hr] at ht; exact ih _ true [] _ hflush t ht
        · rw [if_neg hr] at ht; exact ih _ false _ out ho t ht

/-- The loop of `Fields` gives no field with white space in it, when the
fields already closed have none and the walk over the bytes collected for the
current field ends where the current rune starts. -/
theorem fieldsLoop_clean : ∀ (m : Nat) (s : Bytes), s.length ≤ m →
    ∀ (sp : Bool) (cur : Bytes) (out : List Bytes),
      (∀ z, z <+: s → hasSpaceLoop 0 (cur ++ z) = hasSpaceLoop 0 z) →
      (∀ t ∈ out, hasSpace t = false) → ∀ t ∈ fieldsLoop 0 sp s cur out, hasSpace t = false := by
  intro m
  induction m with
  | zero =>
    intro s hs sp cur out hc ho t ht
    have hnil : s = [] := List.length_eq_zero.mp (by omega)
    subst hnil
    have hcur : hasSpace cur = false := by
      have := hc [] (List.prefix_refl _)
      simpa [hasSpace, hasSpaceLoop] using this
    rw [fieldsLoop] at ht
    by_cases hcn : cur = []
    · rw [if_pos hcn] at ht; exact ho t ht
    · rw [if_neg hcn] at ht
      rcases List.mem_append.mp ht with h | h
      · exact ho t h
      · rw [List.mem_singleton.mp h]; exact hcur
  | succ m ih =>
    intro s hs sp cur out hc ho t ht
    have hcur : hasSpace cur = false := by
      have := hc [] List.nil_prefix
      simpa [hasSpace, hasSpaceLoop] using this
    have hflush : ∀ t ∈ (if cur = [] then out else out ++ [cur]), hasSpace t = false := by
      intro t ht
      by_cases hcn : cur = []
      · rw [if_pos hcn] at ht; exact ho t ht
      · rw [if_neg hcn] at ht
        rcases List.mem_append.mp ht with h | h
        · exact ho t h
        · rw [List.mem_singleton.mp h]; exact hcur
    by_cases hnil : s = []
    · subst hnil
      rw [fieldsLoop] at ht
      exact hflush t ht
    obtain ⟨b, t0, rfl⟩ := List.exists_cons_of_ne_nil hnil
    cases hd : DecodeRune (b :: t0) with
    | mk r n =>
      obtain ⟨h1, h2⟩ := DecodeRune_size b t0 r n hd
      have hlen : ((b :: t0).drop n).length ≤ m := by
        rw [List.length_drop]
        simp only [List.length_cons] at hs ⊢
        omega
      by_cases hr : IsSpace r = true
      · rw [fieldsLoop_space sp _ cur out r n hnil hd hr] at ht
        exact ih _ hlen true [] _ (fun z _ => rfl) hflush t ht
      · have hr1 : IsSpace r = false := by simpa using hr
        rw [fieldsLoop_char sp _ cur out r n hnil hd hr1] at ht
        refine ih _ hlen false _ out ?_ ho t ht
        intro z hz
        obtain ⟨rest, hrest⟩ := hz
        have hsplit : (b :: t0) = ((b :: t0).take n ++ z) ++ rest := by
          rw [List.append_assoc, hrest, List.take_append_drop]
        have htl : ((b :: t0).take n).length = n := by
          rw [List.length_take]
          simp only [List.length_cons]
          omega
        have hne : (b :: t0).take n ++ z ≠ [] := by
          intro h0
          have := congrArg List.length h0
          rw [List.length_append, htl] at this
          simp at this
          omega
        have hdl : DecodeRune ((b :: t0).take n ++ z) = (r, n) := by
          apply DecodeRune_local _ rest r n hne
          · rw [← hsplit]; exact hd
          · rw [List.length_append, htl]; omega
        rw [List.append_assoc, hc _ ⟨rest, hsplit.symm⟩,
          hasSpaceLoop_rune _ r n hne hdl, hr1]
        simp only [Bool.false_eq_true, if_false]
        rw [List.drop_left' htl]

/-- The left trim does not change the fields: the loop of `Fields` drops the
leading white space as `TrimLeftFunc` does. -/
theorem fieldsLoop_trimLeft : ∀ (s : Bytes) (k : Nat),
    fieldsLoop k true s [] [] = fieldsLoop 0 true (trimLeftLoop k s) [] [] := by
  intro s
  induction s with
  | nil => intro k; simp [trimLeftLoop, fieldsLoop]
  | cons b t ih =>
    intro k
    cases k with
    | succ k => rw [fieldsLoop, trimLeftLoop]; exact ih k
    | zero =>
      rw [trimLeftLoop]
      cases hd : DecodeRune (b :: t) with
      | mk r n =>
        simp only
        by_cases hr : IsSpace r = true
        · rw [if_pos hr, fieldsLoop, hd]
          simp only [hr, if_true]
          exact ih _
        · rw [if_neg hr]

/-- A white-space rune at the end of a text does not change the fields. -/
theorem fieldsLoop_trailing_space (w : Bytes) (r : Nat) (hw : w ≠ [])
    (hd : DecodeRune w = (r, w.length)) (hr : IsSpace r = true) :
    ∀ (a : Bytes) (k : Nat) (sp : Bool) (cur : Bytes) (out : List Bytes), k ≤ a.length →
      fieldsLoop k sp (a ++ w) cur out = fieldsLoop k sp a cur out := by
  have hstart : ∀ x t, w = x :: t → x < 0x80 ∨ 0xC0 ≤ x := by
    intro x t e
    subst e
    refine DecodeRune_start x t r _ hd ?_
    intro h0
    rw [h0] at hr
    exact absurd hr (by decide)
  intro a
  induction a with
  | nil =>
    intro k sp cur out hk
    have hk0 : k = 0 := by simpa using hk
    subst hk0
    rw [List.nil_append, fieldsLoop_space sp w cur out r _ hw hd hr, List.drop_length]
    simp [fieldsLoop]
  | cons b t ih =>
    intro k sp cur out hk
    simp only [List.length_cons] at hk
    cases k with
    | succ k =>
      cases sp with
      | true => rw [List.cons_append, fieldsLoop, fieldsLoop]; exact ih k true cur out (by omega)
      | false => rw [List.cons_append, fieldsLoop, fieldsLoop]; exact ih k false _ out (by omega)
    | zero =>
      have he := DecodeRune_before_start (b :: t) w (by simp) hstart
      rw [List.cons_append] at he
      rw [List.cons_append, fieldsLoop, fieldsLoop, he]
      cases hd2 : DecodeRune (b :: t) with
      | mk r2 n2 =>
        obtain ⟨h1, h2⟩ := DecodeRune_size b t r2 n2 hd2
        simp only
        by_cases hr2 : IsSpace r2 = true
        · rw [if_pos hr2, if_pos hr2]; exact ih _ true [] _ (by omega)
        · rw [if_neg hr2, if_neg hr2]; exact ih _ false _ out (by omega)

/-- When the last rune of a text is white space, `DecodeRune` finds it at its
place. -/
theorem DecodeLastRune_space (s : Bytes) (r n : Nat) (hs : s ≠ [])
    (hd : DecodeLastRune s = (r, n)) (hr : IsSpace r = true) :
    1 ≤ n ∧ n ≤ s.length ∧ DecodeRune (s.drop (s.length - n)) = (r, n) := by
  have hlen : ¬ s.length = 0 := fun h => hs (List.length_eq_zero.mp h)
  have hne : IsSpace RuneError = false := by decide
  unfold DecodeLastRune at hd
  simp only at hd
  rw [if_neg hlen] at hd
  by_cases hA : s.getD (s.length - 1) 0 < RuneSelf
  · rw [if_pos hA] at hd
    injection hd with e1 e2
    subst e2
    rcases List.eq_nil_or_concat s with h0 | ⟨y, x, e0⟩
    · exact absurd h0 hs
    · rw [List.concat_eq_append] at e0
      subst e0
      have hx : (y ++ [x]).getD ((y ++ [x]).length - 1) 0 = x := by simp
      rw [hx] at e1 hA
      subst e1
      refine ⟨le_refl _, by simp, ?_⟩
      have : (y ++ [x]).drop ((y ++ [x]).length - 1) = [x] := by simp
      rw [this]
      exact DecodeRune_ascii x [] hA
  · rw [if_neg hA] at hd
    cases hdr : DecodeRune (s.drop (lastRuneStart s)) with
    | mk r1 size =>
      rw [hdr] at hd
      simp only at hd
      by_cases hB : lastRuneStart s + size ≠ s.length
      · rw [if_pos hB] at hd
        injection hd with e1 _
        rw [← e1, hne] at hr
        cases hr
      · rw [if_neg hB] at hd
        injection hd with e1 e2
        subst e1; subst e2
        have hB1 : lastRuneStart s + size = s.length := by
          by_contra h0
          exact hB h0
        have hst : s.length - size = lastRuneStart s := by omega
        rw [hst]
        refine ⟨?_, by omega, hdr⟩
        cases hx : s.drop (lastRuneStart s) with
        | nil =>
          rw [hx] at hdr
          have : r1 = RuneError := by
            have h0 : DecodeRune [] = (RuneError, 0) := rfl
            rw [h0] at hdr
            injection hdr with e1 _
            exact e1.symm
          rw [this, hne] at hr
          cases hr
        | cons x t =>
          rw [hx] at hdr
          exact (DecodeRune_size x t r1 size hdr).1

/-- The right trim does not change the fields. -/
theorem Fields_trimRight : ∀ (f : Nat) (s : Bytes), Fields (trimRightLoop f s) = Fields s := by
  intro f
  induction f with
  | zero => intro s; rfl
  | succ f ih =>
    intro s
    rw [trimRightLoop]
    by_cases hs : s = []
    · rw [if_pos hs, hs]
    · rw [if_neg hs]
      cases hd : DecodeLastRune s with
      | mk r n =>
        simp only
        by_cases hr : IsSpace r = true
        · rw [if_pos hr, ih]
          obtain ⟨h1, h2, h3⟩ := DecodeLastRune_space s r n hs hd hr
          have hwl : (s.drop (s.length - n)).length = n := by
            rw [List.length_drop]; omega
          have hwne : s.drop (s.length - n) ≠ [] := by
            intro h0
            rw [h0] at hwl
            simp at hwl
            omega
          have hsplit : s = s.take (s.length - n) ++ s.drop (s.length - n) :=
            (List.take_append_drop _ s).symm
          have key := fieldsLoop_trailing_space (s.drop (s.length - n)) r hwne
            (by rw [hwl]; exact h3) hr (s.take (s.length - n)) 0 false [] [] (Nat.zero_le _)
          rw [← hsplit] at key
          exact key.symm
        · rw [if_neg hr]

/-- Trimming a text does not change its fields. -/
theorem Fields_TrimSpace (s : Bytes) : Fields (TrimSpace s) = Fields s := by
  unfold TrimSpace
  simp only
  rw [Fields_trimRight]
  unfold Fields
  rw [fieldsLoop_flag false true, fieldsLoop_flag false true s, fieldsLoop_trimLeft s 0]

/-- Joining with a separator, one more piece at the end. -/
theorem intercalate_snoc (sep : Bytes) (out : List Bytes) (x : Bytes) :
    List.intercalate sep (out ++ [x])
      = List.intercalate sep out ++ (if out = [] then [] else sep) ++ x := by
  induction out with
  | nil => simp [List.intercalate]
  | cons y ys ih =>
    cases ys with
    | nil => simp [List.intercalate]
    | cons z zs =>
      simp only [List.intercalate, List.cons_append, List.intersperse, List.flatten_cons,
        List.append_assoc] at ih ⊢
      simp only [reduceCtorEq, if_false, List.append_eq] at ih ⊢
      rw [ih]

/-- Joining with a separator, one more byte at the end of the last piece. -/
theorem intercalate_grow (sep : Bytes) (out : List Bytes) (x : Bytes) (b : Nat) :
    List.intercalate sep (out ++ [x ++ [b]]) = List.intercalate sep (out ++ [x]) ++ [b] := by
  rw [intercalate_snoc, intercalate_snoc, List.append_assoc, List.append_assoc,
    List.append_assoc]

/-- The fields found by the loop of `Fields`, joined by single spaces, are
what the one-pass collapse writes: behind the fields already found when a
field is being collected, and behind the closed fields otherwise. -/
theorem collapse_fields : ∀ (s : Bytes) (k : Nat) (sp : Bool) (cur : Bytes) (out : List Bytes),
    (cur ≠ [] → List.intercalate [0x20] (fieldsLoop k sp s cur out)
      = List.intercalate [0x20] (out ++ [cur]) ++ collapseLoop k sp s true false) ∧
    (cur = [] → (k = 0 ∨ sp = true) → List.intercalate [0x20] (fieldsLoop k sp s cur out)
      = List.intercalate [0x20] out ++ collapseLoop k sp s (!out.isEmpty) (!out.isEmpty)) := by
  intro s
  induction s with
  | nil =>
    intro k sp cur out
    constructor
    · intro hc
      rw [fieldsLoop, collapseLoop, if_neg hc, List.append_nil]
    · intro hc _
      rw [fieldsLoop, collapseLoop, if_pos hc, List.append_nil]
  | cons b t ih =>
    intro k sp cur out
    have hne : cur ++ [b] ≠ [] := by simp
    cases k with
    | succ k =>
      cases sp with
      | true =>
        constructor
        · intro hc
          rw [fieldsLoop, collapseLoop]
          exact (ih k true cur out).1 hc
        · intro hc _
          rw [fieldsLoop, collapseLoop]
          exact (ih k true cur out).2 hc (Or.inr rfl)
      | false =>
        constructor
        · intro _
          rw [fieldsLoop, collapseLoop, (ih k false (cur ++ [b]) out).1 hne, intercalate_grow,
            List.append_assoc]
          rfl
        · intro _ h0
          rcases h0 with h0 | h0
          · cases h0
          · cases h0
    | zero =>
      cases hd : DecodeRune (b :: t) with
      | mk r n =>
        by_cases hr : IsSpace r = true
        · constructor
          · intro hc
            rw [fieldsLoop, collapseLoop, hd]
            simp only [hr, if_true, if_neg hc]
            rw [(ih (n - 1) true [] (out ++ [cur])).2 rfl (Or.inr rfl)]
            have he : (!(out ++ [cur]).isEmpty) = true := by cases out <;> rfl
            rw [he]
          · intro hc _
            rw [fieldsLoop, collapseLoop, hd]
            simp only [hr, if_true, if_pos hc]
            exact (ih (n - 1) true [] out).2 rfl (Or.inr rfl)
        · constructor
          · intro _
            rw [fieldsLoop, collapseLoop, hd]
            simp only [hr, if_false, Bool.false_eq_true]
            rw [(ih (n - 1) false (cur ++ [b]) out).1 hne, intercalate_grow, List.append_assoc]
            rfl
          · intro hc _
            subst hc
            rw [fieldsLoop, collapseLoop, hd]
            simp only [hr, if_false, Bool.false_eq_true]
            rw [(ih (n - 1) false ([] ++ [b]) out).1 (by simp), intercalate_snoc]
            cases out with
            | nil => simp
            | cons o os => simp

/-- The fields of a text, joined by single spaces, are the text with its runs
of white space collapsed and its ends trimmed. -/
theorem Fields_collapse (x : Bytes) :
    List.intercalate [0x20] (Fields x) = collapseSpace x := by
  have := (collapse_fields x 0 false [] []).2 rfl (Or.inl rfl)
  simpa [Fields, collapseSpace, List.intercalate] using this

/-- What `dropCR` returns: the data, or the data without the carriage return
that ends it. -/
theorem dropCR_cases (l : Bytes) : dropCR l = l ∨ l = dropCR l ++ [0x0D] := by
  unfold dropCR
  by_cases h : l.getLast? = some 0x0D
  · right
    rw [if_pos h]
    exact (List.dropLast_append_getLast? 0x0D h).symm
  · left
    rw [if_neg h]

/-- The result of `dropCR` is not longer than the data. -/
theorem dropCR_length (l : Bytes) : (dropCR l).length ≤ l.length := by
  rcases dropCR_cases l with h | h
  · rw [h]
  · have := congrArg List.length h
    simp only [List.length_append, List.length_singleton] at this
    omega

/-- In front of data that is not empty, a text is left alone by `dropCR`. -/
theorem dropCR_append (p q : Bytes) (hq : q ≠ []) : dropCR (p ++ q) = p ++ dropCR q := by
  unfold dropCR
  rw [List.getLast?_append_of_ne_nil _ hq]
  by_cases h : q.getLast? = some 0x0D
  · rw [if_pos h, if_pos h, List.dropLast_append_of_ne_nil _ hq]
  · rw [if_neg h, if_neg h]

/-- Data that does not end in a carriage return is left alone by `dropCR`. -/
theorem dropCR_of_getLast {l : Bytes} (h : l.getLast? ≠ some 0x0D) : dropCR l = l := by
  unfold dropCR
  rw [if_neg h]

/-- The left trim of a text followed by a carriage return. -/
theorem trimLeftLoop_CR : ∀ (y : Bytes) (k : Nat), k ≤ y.length →
    trimLeftLoop k (y ++ [0x0D])
      = if trimLeftLoop k y = [] then [] else trimLeftLoop k y ++ [0x0D] := by
  intro y
  induction y with
  | nil =>
    intro k hk
    have hk0 : k = 0 := by simpa using hk
    subst hk0
    have hd : DecodeRune [0x0D] = (0x0D, 1) := DecodeRune_ascii _ _ (by decide)
    have hs : IsSpace 0x0D = true := by decide
    simp [trimLeftLoop, hd, hs]
  | cons b t ih =>
    intro k hk
    simp only [List.length_cons] at hk
    cases k with
    | succ k =>
      rw [List.cons_append, trimLeftLoop, trimLeftLoop]
      exact ih k (by omega)
    | zero =>
      have he := DecodeRune_before_start (b :: t) [0x0D] (by simp)
        (by intro x t1 e; simp only [List.cons.injEq] at e; left; omega)
      rw [List.cons_append] at he
      rw [List.cons_append, trimLeftLoop, trimLeftLoop, he]
      cases hd : DecodeRune (b :: t) with
      | mk r n =>
        obtain ⟨h1, h2⟩ := DecodeRune_size b t r n hd
        simp only
        by_cases hr : IsSpace r = true
        · rw [if_pos hr, if_pos hr]
          exact ih _ (by omega)
        · rw [if_neg hr, if_neg hr]
          simp

/-- Trimming does not see a carriage return at the end of the text. -/
theorem TrimSpace_CR (y : Bytes) : TrimSpace (y ++ [0x0D]) = TrimSpace y := by
  unfold TrimSpace
  simp only
  rw [trimLeftLoop_CR y 0 (Nat.zero_le _)]
  by_cases h : trimLeftLoop 0 y = []
  · rw [if_pos h, h]
  · rw [if_neg h]
    have := trimRightLoop_ascii [0x0D] (trimLeftLoop 0 y) ((trimLeftLoop 0 y).length + 1)
      (by intro w hw; simp only [List.mem_singleton] at hw; subst hw; decide) (by simp)
    simp only [List.length_append, List.length_singleton, Nat.add_sub_cancel] at this ⊢
    exact this

/-- Trimming a line as it is delivered is trimming the line. -/
theorem TrimSpace_dropCR (l : Bytes) : TrimSpace (dropCR l) = TrimSpace l := by
  rcases dropCR_cases l with h | h
  · rw [h]
  · conv_rhs => rw [h]
    rw [TrimSpace_CR]

/-- A line is blank exactly when it is so as delivered. -/
theorem isBlank_dropCR (l : Bytes) : isBlank (dropCR l) = isBlank l := by
  unfold isBlank
  rw [TrimSpace_dropCR]

/-! ### What trimming is -/

/-- The bytes `DecodeRune` decodes into a rune other than `RuneError` are the
encoding of that rune. -/
theorem DecodeRune_take (p0 : Nat) (t : Bytes) (r n : Nat) (h : DecodeRune (p0 :: t) = (r, n))
    (hr : r ≠ RuneError) : EncodeRune r = (p0 :: t).take n := by
  have m6 : ∀ x, x &&& 0x3F = x % 64 := fun x => and_mask x 6
  rcases DecodeRune_cases p0 t with ⟨h1, h2⟩ | ⟨_, h2⟩ | ⟨b1, t1, e, c1, c2, c3, c4⟩ |
      ⟨b1, b2, t2, e, c1, c2, c3, c4, c5, c6⟩ | ⟨b1, b2, b3, t3, e, c1, c2, c3, c4, c5, c6, c7, c8⟩
  · rw [h2] at h
    injection h with e1 e2
    subst e1; subst e2
    have : EncodeRune p0 = [p0] := by
      have : p0 ≤ 0x7F := by omega
      simp only [EncodeRune, this, if_true]
    rw [this]
    rfl
  · rw [h2] at h
    injection h with e1 _
    exact absurd e1.symm hr
  · subst e
    rw [DecodeRune_two _ _ _ c1 c2 c3 c4] at h
    have a1 : p0 &&& 0x1F = p0 % 32 := and_mask _ 5
    rw [a1, m6, assemble_two _ _ (by omega)] at h
    injection h with e1 e2
    subst e1; subst e2
    rw [EncodeRune_two _ (by omega) (by omega)]
    simp only [List.take_succ_cons, List.take_zero]
    congr 1
    · omega
    · congr 1
      omega
  · subst e
    rw [DecodeRune_three _ _ _ _ c1 c2 c3 c4 c5 c6] at h
    have a1 : p0 &&& 0x0F = p0 % 16 := and_mask _ 4
    rw [a1, m6, m6, assemble_three _ _ _ (by omega) (by omega)] at h
    injection h with e1 e2
    subst e1; subst e2
    have c3' : p0 = 0xE0 → 0xA0 ≤ b1 := fun h0 => by rw [if_pos h0] at c3; exact c3
    have c3'' : 0x80 ≤ b1 := by split at c3 <;> omega
    have c4' : p0 = 0xED → b1 ≤ 0x9F := fun h0 => by rw [if_pos h0] at c4; exact c4
    have c4'' : b1 ≤ 0xBF := by split at c4 <;> omega
    rw [EncodeRune_three _ (by omega) (by omega) (by omega)]
    simp only [List.take_succ_cons, List.take_zero]
    congr 1
    · omega
    · congr 1
      · omega
      · congr 1
        omega
  · subst e
    rw [DecodeRune_four _ _ _ _ _ c1 c2 c3 c4 c5 c6 c7 c8] at h
    have a1 : p0 &&& 0x07 = p0 % 8 := and_mask _ 3
    rw [a1, m6, m6, m6, assemble_four _ _ _ _ (by omega) (by omega) (by omega)] at h
    injection h with e1 e2
    subst e1; subst e2
    have c3' : p0 = 0xF0 → 0x90 ≤ b1 := fun h0 => by rw [if_pos h0] at c3; exact c3
    have c3'' : 0x80 ≤ b1 := by split at c3 <;> omega
    have c4' : p0 = 0xF4 → b1 ≤ 0x8F := fun h0 => by rw [if_pos h0] at c4; exact c4
    have c4'' : b1 ≤ 0xBF := by split at c4 <;> omega
    rw [EncodeRune_four _ (by omega) (by omega)]
    simp only [List.take_succ_cons, List.take_zero]
    congr 1
    · omega
    · congr 1
      · omega
      · congr 1
        · omega
        · congr 1
          omega

/-- A white-space rune is a valid rune, and is not `RuneError`. -/
theorem space_valid {r : Nat} (h : IsSpace r = true) : ValidRune r = true ∧ r ≠ RuneError := by
  have := IsSpace_cases h
  simp only [List.mem_cons, List.mem_singleton, List.not_mem_nil, or_false] at this
  rcases this with h | h | h | h | h | h | h | h | h | h | h | h | h | h | h | h | h | h | h | h |
    h | h | h | h | h <;> subst h <;> exact ⟨by decide, by decide⟩

/-- The left trim in the middle of a white-space rune drops the rest of it. -/
theorem trimLeftLoop_skip : ∀ (k : Nat) (s : Bytes), k ≤ s.length →
    trimLeftLoop k s = trimLeftLoop 0 (s.drop k) := by
  intro k
  induction k with
  | zero => intro s _; rfl
  | succ k ih =>
    intro s hk
    cases s with
    | nil => simp at hk
    | cons b t =>
      rw [trimLeftLoop, List.drop_succ_cons]
      exact ih t (by simpa using hk)

/-- What the left trim does: the text is a run of encoded white-space runes
followed by the result, and the result does not begin with an encoded
white-space rune. -/
theorem trimLeft_spec : ∀ (m : Nat) (x : Bytes), x.length ≤ m →
    ∃ pre : List Nat, (∀ r ∈ pre, IsSpace r = true) ∧
      x = (pre.map EncodeRune).flatten ++ trimLeftLoop 0 x ∧
      ∀ r, IsSpace r = true → ¬ EncodeRune r <+: trimLeftLoop 0 x := by
  intro m
  induction m with
  | zero =>
    intro x hx
    have : x = [] := List.length_eq_zero.mp (Nat.le_zero.mp hx)
    subst this
    refine ⟨[], by simp, by simp [trimLeftLoop], fun r hr hp => ?_⟩
    have : trimLeftLoop 0 ([] : Bytes) = [] := rfl
    rw [this] at hp
    exact (space_encoding hr).1 (List.prefix_nil.mp hp)
  | succ m ih =>
    intro x hx
    cases x with
    | nil =>
      refine ⟨[], by simp, by simp [trimLeftLoop], fun r hr hp => ?_⟩
      have : trimLeftLoop 0 ([] : Bytes) = [] := rfl
      rw [this] at hp
      exact (space_encoding hr).1 (List.prefix_nil.mp hp)
    | cons b t =>
      cases hd : DecodeRune (b :: t) with
      | mk r n =>
        have hsz := DecodeRune_size b t r n hd
        by_cases hr : IsSpace r = true
        · have e1 : trimLeftLoop 0 (b :: t) = trimLeftLoop 0 ((b :: t).drop n) := by
            rw [trimLeftLoop, hd]
            simp only [hr, if_true]
            rw [trimLeftLoop_skip (n - 1) t (by omega)]
            have : n = (n - 1) + 1 := by omega
            rw [this, List.drop_succ_cons]
            simp
          have he : EncodeRune r = (b :: t).take n :=
            DecodeRune_take b t r n hd (space_valid hr).2
          have hlen : ((b :: t).drop n).length ≤ m := by
            simp only [List.length_drop, List.length_cons] at hx ⊢
            omega
          obtain ⟨pre, h1, h2, h3⟩ := ih ((b :: t).drop n) hlen
          refine ⟨r :: pre, ?_, ?_, ?_⟩
          · intro r' hr'
            rcases List.mem_cons.mp hr' with h | h
            · rw [h]; exact hr
            · exact h1 r' h
          · rw [e1, List.map_cons, List.flatten_cons, List.append_assoc, ← h2, he,
              List.take_append_drop]
          · rw [e1]; exact h3
        · have e1 : trimLeftLoop 0 (b :: t) = b :: t := by
            rw [trimLeftLoop, hd]
            simp only [hr, if_false]
            simp
          refine ⟨[], by simp, by rw [e1]; simp, fun r' hr' hp => ?_⟩
          rw [e1] at hp
          obtain ⟨rest, hrest⟩ := hp
          have := (DecodeRune_EncodeRune r' (space_valid hr').1 rest).1
          rw [hrest, hd] at this
          injection this with e2 _
          rw [e2] at hr
          exact hr hr'

/-- The last rune of a text that ends in a two-byte encoding. -/
theorem DecodeLastRune_two (y : Bytes) (a b r : Nat) (ha : RuneStart a = true)
    (hb : RuneSelf ≤ b) (hd : DecodeRune [a, b] = (r, 2)) :
    DecodeLastRune (y ++ [a, b]) = (r, 2) := by
  have hlen : (y ++ [a, b]).length = y.length + 2 := by simp
  have h1 : (y ++ [a, b]).getD (y.length + 2 - 1) 0 = b := by
    have : y.length + 2 - 1 = y.length + 1 := by omega
    rw [this, List.getD_append_right _ _ _ _ (by omega)]
    simp
  have h2 : (y ++ [a, b]).getD (y.length + 2 - 2) 0 = a := by
    have : y.length + 2 - 2 = y.length := by omega
    rw [this, List.getD_append_right _ _ _ _ (by omega)]
    simp
  have hs : lastRuneStart (y ++ [a, b]) = y.length := by
    unfold lastRuneStart
    simp only [hlen, h2, ha]
    rw [if_pos ⟨by omega, trivial⟩]
    omega
  unfold DecodeLastRune
  simp only [hlen, h1, hs]
  rw [if_neg (by omega), if_neg (by omega), List.drop_left, hd]
  simp

/-- The last rune of a text that ends in a three-byte encoding. -/
theorem DecodeLastRune_three (y : Bytes) (a b c r : Nat) (ha : RuneStart a = true)
    (hb : RuneStart b = false) (hc : RuneSelf ≤ c) (hd : DecodeRune [a, b, c] = (r, 3)) :
    DecodeLastRune (y ++ [a, b, c]) = (r, 3) := by
  have hlen : (y ++ [a, b, c]).length = y.length + 3 := by simp
  have h1 : (y ++ [a, b, c]).getD (y.length + 3 - 1) 0 = c := by
    have : y.length + 3 - 1 = y.length + 2 := by omega
    rw [this, List.getD_append_right _ _ _ _ (by omega)]
    simp
  have h2 : (y ++ [a, b, c]).getD (y.length + 3 - 2) 0 = b := by
    have : y.length + 3 - 2 = y.length + 1 := by omega
    rw [this, List.getD_append_right _ _ _ _ (by omega)]
    simp
  have h3 : (y ++ [a, b, c]).getD (y.length + 3 - 3) 0 = a := by
    have : y.length + 3 - 3 = y.length := by omega
    rw [this, List.getD_append_right _ _ _ _ (by omega)]
    simp
  have hs : lastRuneStart (y ++ [a, b, c]) = y.length := by
    unfold lastRuneStart
    simp only [hlen, h2, h3, ha, hb]
    rw [if_neg (by simp), if_pos ⟨by omega, trivial⟩]
    omega
  unfold DecodeLastRune
  simp only [hlen, h1, hs]
  rw [if_neg (by omega), if_neg (by omega), List.drop_left, hd]
  simp

/-- The last rune of a text that ends in the encoding of a white-space rune is
that rune. -/
theorem DecodeLastRune_encoding (y : Bytes) {r : Nat} (h : IsSpace r = true) :
    DecodeLastRune (y ++ EncodeRune r) = (r, (EncodeRune r).length) := by
  have := IsSpace_cases h
  simp only [List.mem_cons, List.mem_singleton, List.not_mem_nil, or_false] at this
  rcases this with h | h | h | h | h | h | h | h | h | h | h | h | h | h | h | h | h | h | h | h |
    h | h | h | h | h <;> subst h <;>
    first
    | exact DecodeLastRune_ascii y _ (by decide)
    | exact DecodeLastRune_two y _ _ _ (by decide) (by decide) (by decide)
    | exact DecodeLastRune_three y _ _ _ _ (by decide) (by decide) (by decide) (by decide)

/-- What the right trim does: the text is the result followed by a run of
encoded white-space runes, and the result does not end with an encoded
white-space rune. -/
theorem trimRight_spec : ∀ (f : Nat) (x : Bytes), x.length ≤ f →
    ∃ post : List Nat, (∀ r ∈ post, IsSpace r = true) ∧
      x = trimRightLoop f x ++ (post.map EncodeRune).flatten ∧
      ∀ r, IsSpace r = true → ¬ EncodeRune r <:+ trimRightLoop f x := by
  intro f
  induction f with
  | zero =>
    intro x hx
    have : x = [] := List.length_eq_zero.mp (Nat.le_zero.mp hx)
    subst this
    refine ⟨[], by simp, by simp [trimRightLoop], fun r hr hp => ?_⟩
    have : trimRightLoop 0 ([] : Bytes) = [] := rfl
    rw [this] at hp
    exact (space_encoding hr).1 (List.suffix_nil.mp hp)
  | succ f ih =>
    intro x hx
    by_cases hx0 : x = []
    · subst hx0
      have e : trimRightLoop (f + 1) ([] : Bytes) = [] := by simp [trimRightLoop]
      refine ⟨[], by simp, by rw [e]; simp, fun r hr hp => ?_⟩
      rw [e] at hp
      exact (space_encoding hr).1 (List.suffix_nil.mp hp)
    · cases hd : DecodeLastRune x with
      | mk r n =>
        by_cases hr : IsSpace r = true
        · have e1 : trimRightLoop (f + 1) x = trimRightLoop f (x.take (x.length - n)) := by
            rw [trimRightLoop, if_neg hx0, hd]
            simp only [hr, if_true]
          obtain ⟨h1, h2, h3⟩ := DecodeLastRune_space x r n hx0 hd hr
          have hlen : (x.drop (x.length - n)).length = n := by
            rw [List.length_drop]; omega
          have he : EncodeRune r = x.drop (x.length - n) := by
            cases hx1 : x.drop (x.length - n) with
            | nil => rw [hx1] at hlen; simp at hlen; omega
            | cons p0 t =>
              rw [hx1] at h3 hlen
              rw [DecodeRune_take p0 t r n h3 (space_valid hr).2, ← hlen, List.take_length]
          have hl2 : (x.take (x.length - n)).length ≤ f := by
            rw [List.length_take]; omega
          obtain ⟨post, p1, p2, p3⟩ := ih (x.take (x.length - n)) hl2
          refine ⟨post ++ [r], ?_, ?_, ?_⟩
          · intro r' hr'
            rcases List.mem_append.mp hr' with h | h
            · exact p1 r' h
            · rw [List.mem_singleton.mp h]; exact hr
          · rw [e1, List.map_append, List.flatten_append, ← List.append_assoc, ← p2]
            simp only [List.map_cons, List.map_nil, List.flatten_cons, List.flatten_nil,
              List.append_nil]
            rw [he, List.take_append_drop]
          · rw [e1]; exact p3
        · have e1 : trimRightLoop (f + 1) x = x := by
            rw [trimRightLoop, if_neg hx0, hd]
            simp only [hr, if_false]
            simp
          refine ⟨[], by simp, by rw [e1]; simp, fun r' hr' hp => ?_⟩
          rw [e1] at hp
          obtain ⟨init, hinit⟩ := hp
          have := DecodeLastRune_encoding init hr'
          rw [hinit, hd] at this
          injection this with e2 _
          rw [e2] at hr
          exact hr hr'

/-- What `TrimSpace` does, said with the encodings of the white-space runes
alone: the text is a run of encoded white-space runes, the result, and a run
of encoded white-space runes, and the result neither begins nor ends with an
encoded white-space rune. -/
theorem TrimSpace_spec (x : Bytes) :
    ∃ pre post : List Nat, (∀ r ∈ pre, IsSpace r = true) ∧ (∀ r ∈ post, IsSpace r = true) ∧
      x = (pre.map EncodeRune).flatten ++ TrimSpace x ++ (post.map EncodeRune).flatten ∧
      (∀ r, IsSpace r = true → ¬ EncodeRune r <+: TrimSpace x) ∧
      (∀ r, IsSpace r = true → ¬ EncodeRune r <:+ TrimSpace x) := by
  obtain ⟨pre, a1, a2, a3⟩ := trimLeft_spec x.length x (le_refl _)
  obtain ⟨post, b1, b2, b3⟩ := trimRight_spec (trimLeftLoop 0 x).length (trimLeftLoop 0 x)
    (le_refl _)
  have hT : TrimSpace x = trimRightLoop (trimLeftLoop 0 x).length (trimLeftLoop 0 x) := rfl
  refine ⟨pre, post, a1, b1, ?_, ?_, ?_⟩
  · rw [hT, List.append_assoc, ← b2]
    exact a2
  · intro r hr hp
    apply a3 r hr
    rw [b2]
    exact hp.trans (List.prefix_append _ _)
  · rw [hT]; exact b3

/-! ### The decimal notation -/

theorem digitChar_toNat (k : Nat) (h : k < 10) : (Nat.digitChar k).toNat = 0x30 + k := by
  interval_cases k <;> rfl

theorem decimalValue_append (a : Bytes) (d : Nat) :
    decimalValue (a ++ [d]) = 10 * decimalValue a + (d - 0x30) := by
  simp [decimalValue, List.foldl_append]

/-- The digits `Nat.toDigitsCore` puts in front of the digits it was given:
they denote the number, are digits, and begin with a zero only for the number
zero. -/
theorem toDigitsCore_spec : ∀ (fuel n : Nat) (ds : List Char), n < fuel →
    ∃ pre : List Char, Nat.toDigitsCore 10 fuel n ds = pre ++ ds ∧ pre ≠ [] ∧
      (∀ c ∈ pre, 0x30 ≤ c.toNat ∧ c.toNat ≤ 0x39) ∧
      decimalValue (pre.map Char.toNat) = n ∧
      ((pre.map Char.toNat).head? = some 0x30 → pre.length = 1) := by
  intro fuel
  induction fuel with
  | zero => intro n ds h; omega
  | succ fuel ih =>
    intro n ds h
    have hd : (Nat.digitChar (n % 10)).toNat = 0x30 + n % 10 :=
      digitChar_toNat _ (Nat.mod_lt _ (by decide))
    by_cases h0 : n / 10 = 0
    · refine ⟨[Nat.digitChar (n % 10)], ?_, by simp, ?_, ?_, ?_⟩
      · simp only [Nat.toDigitsCore, h0, if_true, List.singleton_append]
      · intro c hc
        rw [List.mem_singleton.mp hc, hd]
        omega
      · simp only [List.map_cons, List.map_nil, hd, decimalValue, List.foldl_cons,
          List.foldl_nil]
        omega
      · intro _; rfl
    · have hlt : n / 10 < fuel := by omega
      obtain ⟨pre, p1, p2, p3, p4, p5⟩ := ih (n / 10) (Nat.digitChar (n % 10) :: ds) hlt
      refine ⟨pre ++ [Nat.digitChar (n % 10)], ?_, by simp, ?_, ?_, ?_⟩
      · simp only [Nat.toDigitsCore, h0, if_false, p1, List.append_assoc, List.singleton_append]
      · intro c hc
        rcases List.mem_append.mp hc with hc | hc
        · exact p3 c hc
        · rw [List.mem_singleton.mp hc, hd]
          omega
      · rw [List.map_append, List.map_cons, List.map_nil, decimalValue_append, p4, hd]
        omega
      · intro hh
        exfalso
        cases pre with
        | nil => exact p2 rfl
        | cons c t =>
          have hc : (List.map Char.toNat (c :: t)).head? = some 0x30 := by
            simpa using hh
          have hl := p5 hc
          have ht : t = [] := by
            cases t with
            | nil => rfl
            | cons _ _ => simp at hl
          subst ht
          have hv : c.toNat = 0x30 := by simpa using hc
          simp only [List.map_cons, List.map_nil, decimalValue, List.foldl_cons, List.foldl_nil,
            hv] at p4
          omega

/-- What `Itoa` gives is the decimal notation of the number. -/
theorem Itoa_spec (n : Nat) : isDecimal (Itoa n) = true ∧ decimalValue (Itoa n) = n := by
  obtain ⟨pre, p1, p2, p3, p4, p5⟩ := toDigitsCore_spec (n + 1) n [] (Nat.lt_succ_self n)
  have e : Itoa n = pre.map Char.toNat := by
    simp only [Itoa, Nat.toDigits, p1, List.append_nil]
  rw [e]
  refine ⟨?_, p4⟩
  simp only [isDecimal, Bool.and_eq_true, Bool.or_eq_true, Bool.not_eq_true', List.isEmpty_eq_false,
    List.all_eq_true, decide_eq_true_eq, bne_iff_ne, beq_iff_eq, List.length_map]
  refine ⟨⟨?_, ?_⟩, ?_⟩
  · simpa using p2
  · intro d hd
    obtain ⟨c, hc, rfl⟩ := List.mem_map.mp hd
    exact p3 c hc
  · by_cases hh : (pre.map Char.toNat).head? = some 0x30
    · exact Or.inr (p5 hh)
    · exact Or.inl hh

/-! ### The escapes of a double-quoted literal -/

/-- Shifting a number to the left and or-ing a small number in is a
multiplication and an addition. -/
theorem shl_or (v x k : Nat) (hx : x < 2 ^ k) : (v <<< k) ||| x = 2 ^ k * v + x := by
  rw [Nat.shiftLeft_eq, or_const (v * 2 ^ k) k x hx (Nat.mul_mod_left _ _), Nat.mul_comm]

/-- A hexadecimal digit is one of the bytes of `0123456789abcdefABCDEF`, and
`unhex` gives its value. -/
theorem unhex_digit (b : Nat) (h : isHexDigit b = true) :
    unhex b = some (digitOf b) ∧ digitOf b < 16 := by
  have hd : digitOf b < 16 := by simpa [isHexDigit] using h
  have hmem : b ∈ lit "0123456789abcdef" ∨ b ∈ lit "0123456789ABCDEF" := by
    unfold digitOf at hd
    have l1 : (lit "0123456789abcdef").length = 16 := by decide
    have l2 : (lit "0123456789ABCDEF").length = 16 := by decide
    rcases Nat.lt_or_ge ((lit "0123456789abcdef").indexOf b) 16 with h1 | h1
    · exact Or.inl (List.indexOf_lt_length.mp (by rw [l1]; exact h1))
    · rcases Nat.lt_or_ge ((lit "0123456789ABCDEF").indexOf b) 16 with h2 | h2
      · exact Or.inr (List.indexOf_lt_length.mp (by rw [l2]; exact h2))
      · have := Nat.le_min.mpr ⟨h1, h2⟩
        omega
  have e1 : lit "0123456789abcdef"
      = [48, 49, 50, 51, 52, 53, 54, 55, 56, 57, 97, 98, 99, 100, 101, 102] := by decide
  have e2 : lit "0123456789ABCDEF"
      = [48, 49, 50, 51, 52, 53, 54, 55, 56, 57, 65, 66, 67, 68, 69, 70] := by decide
  rw [e1, e2] at hmem
  simp only [List.mem_cons, List.mem_singleton, List.not_mem_nil, or_false] at hmem
  refine ⟨?_, hd⟩
  rcases hmem with (h | h | h | h | h | h | h | h | h | h | h | h | h | h | h | h) |
    (h | h | h | h | h | h | h | h | h | h | h | h | h | h | h | h) <;> subst h <;> decide

/-- The digit loop of `UnquoteChar` on hexadecimal digits gives the number
they denote. -/
theorem hexValue_digits : ∀ (ds : Bytes) (v : Nat), (∀ d ∈ ds, isHexDigit d = true) →
    hexValue ds v = some (ds.foldl (fun a d => 16 * a + digitOf d) v) := by
  intro ds
  induction ds with
  | nil => intro v _; rfl
  | cons d t ih =>
    intro v h
    obtain ⟨h1, h2⟩ := unhex_digit d (h d (by simp))
    rw [hexValue, h1]
    simp only
    rw [shl_or v (digitOf d) 4 (by simpa using h2), ih _ (fun x hx => h x (by simp [hx]))]
    rfl

/-- The digit loop of `UnquoteChar` on octal digits gives the number they
denote. -/
theorem octValue_digits : ∀ (ds : Bytes) (v : Nat), (∀ d ∈ ds, isOctDigit d = true) →
    octValue ds v = some (ds.foldl (fun a d => 8 * a + (d - 0x30)) v) := by
  intro ds
  induction ds with
  | nil => intro v _; rfl
  | cons d t ih =>
    intro v h
    have hd : 0x30 ≤ d ∧ d ≤ 0x37 := by simpa [isOctDigit] using h d (by simp)
    have hc : ¬ (d < 0x30 ∨ 0x37 < d) := by omega
    rw [octValue, if_neg hc, shl_or v (d - 0x30) 3 (by simp; omega),
      ih _ (fun x hx => h x (by simp [hx]))]
    rfl

/-- The bytes of a character that stands for itself: none of them is a
backslash, a double quote or a line feed, and decoding gives the character
back. -/
theorem char_bytes (r : Nat) (hp : (Item.char r).plain = true) (rest : Bytes) :
    (∀ b ∈ EncodeRune r, b ≠ 0x5C ∧ b ≠ 0x22 ∧ b ≠ 0x0A) ∧
      (r < 0x80 → EncodeRune r = [r]) ∧
      DecodeRune (EncodeRune r ++ rest) = (r, (EncodeRune r).length) ∧
      (0x80 ≤ r → ∀ b ∈ EncodeRune r, 0x80 ≤ b) ∧ EncodeRune r ≠ [] := by
  simp only [Item.plain, Bool.and_eq_true, bne_iff_ne, ne_eq] at hp
  obtain ⟨hv, h1, h2, h3⟩ := hp
  obtain ⟨hd, hne, hh⟩ := DecodeRune_EncodeRune r hv rest
  have hlow : r < 0x80 → EncodeRune r = [r] := by
    intro h
    have : r ≤ 127 := by omega
    simp only [EncodeRune, this, if_true]
  refine ⟨fun b hb => ?_, hlow, hd, hh, hne⟩
  by_cases h : r < 0x80
  · rw [hlow h] at hb
    simp only [List.mem_singleton] at hb
    subst hb
    exact ⟨h1, h2, h3⟩
  · have := hh (by omega) b hb
    omega

/-- A single-character escape is one of nine. -/
theorem simple_cases {c : Nat} (h : (Item.simple c).plain = true) :
    c = 0x61 ∨ c = 0x62 ∨ c = 0x66 ∨ c = 0x6E ∨ c = 0x72 ∨ c = 0x74 ∨ c = 0x76 ∨ c = 0x5C ∨
      c = 0x22 := by
  by_contra hc
  simp only [not_or] at hc
  obtain ⟨h1, h2, h3, h4, h5, h6, h7, h8, h9⟩ := hc
  simp only [Item.plain, simpleEscapes, List.lookup, beq_false_of_ne h1, beq_false_of_ne h2,
    beq_false_of_ne h3, beq_false_of_ne h4, beq_false_of_ne h5, beq_false_of_ne h6,
    beq_false_of_ne h7, beq_false_of_ne h8, beq_false_of_ne h9, Option.isSome_none,
    Bool.false_eq_true] at h

/-- The encoding of a rune below `RuneSelf` is the rune. -/
theorem EncodeRune_ascii (v : Nat) (h : v < RuneSelf) : EncodeRune v = [v] := by
  have : v ≤ 0x7F := by unfold RuneSelf at h; omega
  simp only [EncodeRune, this, if_true]

/-- One step of the decoding loop on a constituent of the text. -/
theorem UnquoteChar_item (i : Item) (hp : i.plain = true) (rest : Bytes) :
    ∃ c t r m, i.written ++ rest = c :: t ∧ c ≠ 0x22 ∧ c ≠ 0x0A ∧
      UnquoteChar (i.written ++ rest) 0x22 = some (r, m, rest) ∧
      (if r < RuneSelf ∨ (!m) = true then [r] else EncodeRune r) = i.meaning := by
  cases i with
  | simple c =>
    rcases simple_cases hp with h | h | h | h | h | h | h | h | h <;> subst h
    · exact ⟨0x5C, 0x61 :: rest, 0x07, false, rfl, by decide, by decide, rfl, rfl⟩
    · exact ⟨0x5C, 0x62 :: rest, 0x08, false, rfl, by decide, by decide, rfl, rfl⟩
    · exact ⟨0x5C, 0x66 :: rest, 0x0C, false, rfl, by decide, by decide, rfl, rfl⟩
    · exact ⟨0x5C, 0x6E :: rest, 0x0A, false, rfl, by decide, by decide, rfl, rfl⟩
    · exact ⟨0x5C, 0x72 :: rest, 0x0D, false, rfl, by decide, by decide, rfl, rfl⟩
    · exact ⟨0x5C, 0x74 :: rest, 0x09, false, rfl, by decide, by decide, rfl, rfl⟩
    · exact ⟨0x5C, 0x76 :: rest, 0x0B, false, rfl, by decide, by decide, rfl, rfl⟩
    · exact ⟨0x5C, 0x5C :: rest, 0x5C, false, rfl, by decide, by decide, rfl, rfl⟩
    · exact ⟨0x5C, 0x22 :: rest, 0x22, false, rfl, by decide, by decide, rfl, rfl⟩
  | hex d1 d2 =>
    simp only [Item.plain, Bool.and_eq_true] at hp
    have hv : hexValue [d1, d2] 0 = some (hexNumber [d1, d2]) :=
      hexValue_digits [d1, d2] 0 (by
        intro d hd
        simp only [List.mem_cons, List.mem_singleton, List.not_mem_nil, or_false] at hd
        rcases hd with h | h <;> rw [h]
        · exact hp.1
        · exact hp.2)
    refine ⟨0x5C, 0x78 :: d1 :: d2 :: rest, hexNumber [d1, d2], false, rfl, by decide,
      by decide, ?_, by simp [Item.meaning]⟩
    show UnquoteChar (0x5C :: 0x78 :: d1 :: d2 :: rest) 0x22 = _
    have hl : ¬ (d1 :: d2 :: rest).length < 2 := by simp
    have ht : (d1 :: d2 :: rest).take 2 = [d1, d2] := rfl
    have hdr : (d1 :: d2 :: rest).drop 2 = rest := rfl
    simp only [UnquoteChar, RuneSelf]
    norm_num [hl, ht, hdr, hv]
  | oct d1 d2 d3 =>
    simp only [Item.plain, Bool.and_eq_true, decide_eq_true_eq] at hp
    obtain ⟨⟨⟨h1, h2⟩, h3⟩, h4⟩ := hp
    have hd1 : 0x30 ≤ d1 ∧ d1 ≤ 0x37 := by simpa [isOctDigit] using h1
    have hv : octValue [d2, d3] (d1 - 0x30) = some (octNumber [d1, d2, d3]) := by
      rw [octValue_digits [d2, d3] (d1 - 0x30) (by
        intro d hd
        simp only [List.mem_cons, List.mem_singleton, List.not_mem_nil, or_false] at hd
        rcases hd with h | h <;> rw [h]
        · exact h2
        · exact h3)]
      simp [octNumber]
    refine ⟨0x5C, d1 :: d2 :: d3 :: rest, octNumber [d1, d2, d3], false, rfl, by decide,
      by decide, ?_, by simp [Item.meaning]⟩
    show UnquoteChar (0x5C :: d1 :: d2 :: d3 :: rest) 0x22 = _
    have hl : ¬ (d2 :: d3 :: rest).length < 2 := by simp
    have ht : (d2 :: d3 :: rest).take 2 = [d2, d3] := rfl
    have hdr : (d2 :: d3 :: rest).drop 2 = rest := rfl
    have c1 : ¬ d1 = 0x61 := by omega
    have c2 : ¬ d1 = 0x62 := by omega
    have c3 : ¬ d1 = 0x66 := by omega
    have c4 : ¬ d1 = 0x6E := by omega
    have c5 : ¬ d1 = 0x72 := by omega
    have c6 : ¬ d1 = 0x74 := by omega
    have c7 : ¬ d1 = 0x76 := by omega
    have c8 : ¬ (d1 = 0x78 ∨ d1 = 0x75 ∨ d1 = 0x55) := by omega
    have c9 : ¬ octNumber [d1, d2, d3] > 255 := by omega
    simp only [UnquoteChar, RuneSelf]
    norm_num [hl, ht, hdr, hv, c1, c2, c3, c4, c5, c6, c7, c8, c9, hd1.1, hd1.2]
  | small ds =>
    simp only [Item.plain, Bool.and_eq_true, decide_eq_true_eq, List.all_eq_true] at hp
    obtain ⟨⟨h1, h2⟩, h3⟩ := hp
    have hv : hexValue ds 0 = some (hexNumber ds) := hexValue_digits ds 0 h2
    have hm : (if hexNumber ds < RuneSelf ∨ (!true) = true then [hexNumber ds]
        else EncodeRune (hexNumber ds)) = EncodeRune (hexNumber ds) := by
      by_cases h : hexNumber ds < RuneSelf
      · rw [if_pos (Or.inl h), EncodeRune_ascii _ h]
      · rw [if_neg (by simp [h])]
    refine ⟨0x5C, 0x75 :: (ds ++ rest), hexNumber ds, true, rfl, by decide, by decide, ?_, hm⟩
    show UnquoteChar (0x5C :: 0x75 :: (ds ++ rest)) 0x22 = _
    have hl : ¬ (ds ++ rest).length < 4 := by simp [h1]
    have ht : (ds ++ rest).take 4 = ds := by rw [← h1, List.take_left]
    have hdr : (ds ++ rest).drop 4 = rest := by rw [← h1, List.drop_left]
    simp only [UnquoteChar, RuneSelf]
    norm_num [hl, ht, hdr, hv, h3, h1]
  | big ds =>
    simp only [Item.plain, Bool.and_eq_true, decide_eq_true_eq, List.all_eq_true] at hp
    obtain ⟨⟨h1, h2⟩, h3⟩ := hp
    have hv : hexValue ds 0 = some (hexNumber ds) := hexValue_digits ds 0 h2
    have hm : (if hexNumber ds < RuneSelf ∨ (!true) = true then [hexNumber ds]
        else EncodeRune (hexNumber ds)) = EncodeRune (hexNumber ds) := by
      by_cases h : hexNumber ds < RuneSelf
      · rw [if_pos (Or.inl h), EncodeRune_ascii _ h]
      · rw [if_neg (by simp [h])]
    refine ⟨0x5C, 0x55 :: (ds ++ rest), hexNumber ds, true, rfl, by decide, by decide, ?_, hm⟩
    show UnquoteChar (0x5C :: 0x55 :: (ds ++ rest)) 0x22 = _
    have hl : ¬ (ds ++ rest).length < 8 := by simp [h1]
    have ht : (ds ++ rest).take 8 = ds := by rw [← h1, List.take_left]
    have hdr : (ds ++ rest).drop 8 = rest := by rw [← h1, List.drop_left]
    simp only [UnquoteChar, RuneSelf]
    norm_num [hl, ht, hdr, hv, h3, h1]
  | char r =>
    obtain ⟨hb, hlow, hd, hh, hne⟩ := char_bytes r hp rest
    simp only [Item.written, Item.meaning]
    by_cases h : r < 0x80
    · have hr := hb r (by rw [hlow h]; simp)
      refine ⟨r, rest, r, false, by rw [hlow h]; rfl, hr.2.1, hr.2.2, ?_, ?_⟩
      · rw [hlow h]
        have c1 : ¬ r = 34 := hr.2.1
        have c2 : ¬ r ≥ 128 := by omega
        have c3 : r ≠ 92 := hr.1
        simp only [UnquoteChar, List.cons_append, List.nil_append, RuneSelf, c1, c2, c3, ne_eq,
          not_false_eq_true, if_true, if_false, false_and]
      · simp [RuneSelf, hlow h]
    · obtain ⟨c, t, e⟩ := List.exists_cons_of_ne_nil hne
      have hc := hh (by omega) c (by rw [e]; simp)
      refine ⟨c, t ++ rest, r, true, by rw [e]; rfl, by omega, by omega, ?_, ?_⟩
      · have hdr : (c :: (t ++ rest)).drop (t.length + 1) = rest := by
          simp
        rw [e] at hd
        rw [e]
        have c1 : ¬ c = 34 := by omega
        have c2 : c ≥ 128 := hc
        rw [List.cons_append] at hd
        simp only [List.length_cons] at hd
        simp only [UnquoteChar, List.cons_append, RuneSelf, c1, c2, if_true, if_false, hd, hdr,
          false_and]
      · have c2 : ¬ r < 128 := h
        simp [RuneSelf, c2]

/-- A well-formed constituent is written with one byte at least. -/
theorem written_pos (i : Item) (hp : i.plain = true) : 1 ≤ i.written.length := by
  cases i with
  | char r =>
    have := (char_bytes r hp []).2.2.2.2
    cases h : EncodeRune r with
    | nil => exact absurd h this
    | cons a b => simp [Item.written, h]
  | simple c => simp [Item.written]
  | hex d1 d2 => simp [Item.written]
  | oct d1 d2 d3 => simp [Item.written]
  | small ds => simp [Item.written]
  | big ds => simp [Item.written]

/-- One round of the decoding loop of a double-quoted literal. -/
theorem unquoteLoop_step (f : Nat) (inp buf rem : Bytes) (c : Nat) (t : Bytes) (r : Nat) (m : Bool)
    (e : inp = c :: t) (hc : c ≠ 0x22) (hn : c ≠ 0x0A)
    (hu : UnquoteChar inp 0x22 = some (r, m, rem)) :
    unquoteLoop 0x22 (f + 1) inp buf
      = unquoteLoop 0x22 f rem (buf ++ if r < RuneSelf ∨ (!m) = true then [r] else EncodeRune r) := by
  subst e
  have c1 : ¬ c = 34 := hc
  have c2 : ¬ c = 10 := hn
  have c3 : ¬ ((34 : Nat) = 39) := by decide
  rw [unquoteLoop]
  simp only [c1, c2, c3, hu, if_false]
  congr 1
  split <;> rfl

/-- The decoding loop over the constituents of a text stops at the closing
quote with what the constituents stand for. -/
theorem unquoteLoop_items : ∀ (items : List Item), (∀ i ∈ items, i.plain = true) →
    ∀ (f : Nat) (buf r1 : Bytes), (written items).length ≤ f →
      unquoteLoop 0x22 f (written items ++ 0x22 :: r1) buf
        = some (buf ++ meaning items, 0x22 :: r1) := by
  intro items
  induction items with
  | nil =>
    intro _ f buf r1 _
    cases f with
    | zero => simp [written, meaning, unquoteLoop]
    | succ f => simp [written, meaning, unquoteLoop]
  | cons i its ih =>
    intro hp f buf r1 hf
    have hpi := hp i (List.mem_cons_self _ _)
    obtain ⟨c, t, r, m, e, hc, hn, hu, hv⟩ := UnquoteChar_item i hpi (written its ++ 0x22 :: r1)
    have hw : written (i :: its) = i.written ++ written its := by simp [written]
    have hm : meaning (i :: its) = i.meaning ++ meaning its := by simp [meaning]
    have hpos : 1 ≤ i.written.length := written_pos i hpi
    rw [hw, List.length_append] at hf
    obtain ⟨g, rfl⟩ : ∃ g, f = g + 1 := ⟨f - 1, by omega⟩
    rw [hw, List.append_assoc, unquoteLoop_step g _ buf _ c t r m e hc hn hu, hv,
      ih (fun j hj => hp j (List.mem_cons_of_mem _ hj)) g _ r1 (by omega), hm,
      List.append_assoc]

/-- When no backslash stands at or before the first double quote behind the
constituents of a text, that quote is the closing one and every constituent
is a character that stands for itself. -/
theorem first_quote_items : ∀ (items : List Item), (∀ i ∈ items, i.plain = true) →
    0x5C ∉ (written items ++ [0x22]).take ((written items ++ [0x22]).indexOf 0x22 + 1) →
    (written items ++ [0x22]).indexOf 0x22 = (written items).length ∧
      meaning items = written items := by
  intro items
  induction items with
  | nil => intro _ _; simp [written, meaning]
  | cons i its ih =>
    intro hp hno
    have hpi := hp i (List.mem_cons_self _ _)
    have hw : written (i :: its) = i.written ++ written its := by simp [written]
    have hm : meaning (i :: its) = i.meaning ++ meaning its := by simp [meaning]
    cases i with
    | char r =>
      have hb := (char_bytes r hpi []).1
      have hq : 0x22 ∉ EncodeRune r := fun hmem => (hb _ hmem).2.1 rfl
      simp only [Item.written, Item.meaning] at hw hm
      rw [hw, List.append_assoc, List.indexOf_append_of_not_mem hq] at hno ⊢
      rw [Nat.add_assoc, List.take_append] at hno
      have hno1 : 0x5C ∉ (written its ++ [0x22]).take ((written its ++ [0x22]).indexOf 0x22 + 1) :=
        fun hmem => hno (List.mem_append_right _ hmem)
      obtain ⟨h1, h2⟩ := ih (fun j hj => hp j (List.mem_cons_of_mem _ hj)) hno1
      rw [h1, hm, h2, List.length_append]
      exact ⟨rfl, rfl⟩
    | simple c => exact absurd (by simp [hw, Item.written]) hno
    | hex d1 d2 => exact absurd (by simp [hw, Item.written]) hno
    | oct d1 d2 d3 => exact absurd (by simp [hw, Item.written]) hno
    | small ds => exact absurd (by simp [hw, Item.written]) hno
    | big ds => exact absurd (by simp [hw, Item.written]) hno

/-- The function `strconv.Unquote` on a double-quoted literal whose text is
made of characters that stand for themselves and of escapes: the text the
constituents stand for, and no error. -/
theorem Unquote_items (items : List Item) (hp : ∀ i ∈ items, i.plain = true) :
    Unquote (0x22 :: (written items ++ [0x22])) = (meaning items, none) := by
  have hlit : unquoteLit (0x22 :: (written items ++ [0x22])) = some (meaning items, []) := by
    unfold unquoteLit
    have hlen : ¬ (0x22 :: (written items ++ [0x22])).length < 2 := by simp
    rw [if_neg hlen]
    simp only
    have hc : ¬ ((!(written items ++ [0x22]).contains 0x22) = true) := by simp
    rw [if_neg hc, if_neg (by decide : ¬ ((0x22 : Nat) = 0x60)), if_pos (Or.inl trivial)]
    apply ite_eq_of
    · intro hfast
      by_cases hA : (!(List.take ((written items ++ [0x22]).indexOf 0x22 + 2)
          (0x22 :: (written items ++ [0x22]))).contains 0x5C &&
          !(List.take ((written items ++ [0x22]).indexOf 0x22 + 2)
            (0x22 :: (written items ++ [0x22]))).contains 0x0A) = true
      · have hno : 0x5C ∉ (written items ++ [0x22]).take
            ((written items ++ [0x22]).indexOf 0x22 + 1) := by
          simp only [Bool.and_eq_true, Bool.not_eq_true', List.take_succ_cons] at hA
          have h1 := hA.1
          intro hmem
          have : (34 :: List.take ((written items ++ [0x22]).indexOf 0x22 + 1)
              (written items ++ [0x22])).contains 92 = true := by
            simp only [List.contains_eq_any_beq, List.any_eq_true, beq_iff_eq]
            exact ⟨92, List.mem_cons_of_mem _ hmem, rfl⟩
          rw [this] at h1
          cases h1
        obtain ⟨h1, h2⟩ := first_quote_items items hp hno
        rw [h1, h2]
        simp
      · rw [if_neg hA] at hfast
        cases hfast
    · rw [unquoteLoop_items items hp _ [] [] (by simp)]
      simp
  unfold Unquote
  rw [hlit]
  simp

/-! ### Literals that are rejected -/

/-- A backslash followed by a byte that starts no escape is rejected by
`UnquoteChar`. -/
theorem UnquoteChar_invalid (c : Nat) (tail : Bytes) (h : isEscapeStart c = false) :
    UnquoteChar (0x5C :: c :: tail) 0x22 = none := by
  have e : lit "abfnrtvxuU01234567\\\""
      = [97, 98, 102, 110, 114, 116, 118, 120, 117, 85, 48, 49, 50, 51, 52, 53, 54, 55, 92, 34] := by
    decide
  simp only [isEscapeStart, e, List.contains_eq_any_beq, List.any_cons, List.any_nil,
    Bool.or_false, Bool.or_eq_false_iff, beq_eq_false_iff_ne, ne_eq] at h
  obtain ⟨h1, h2, h3, h4, h5, h6, h7, h8, h9, h10, h11, h12, h13, h14, h15, h16, h17, h18, h19,
    h20⟩ := h
  have ho : ¬ (0x30 ≤ c ∧ c ≤ 0x37) := by omega
  have hx : ¬ (c = 0x78 ∨ c = 0x75 ∨ c = 0x55) := by omega
  by_cases hq : c = 0x27
  · subst hq
    rfl
  · have hq2 : ¬ (c = 0x27 ∨ c = 0x22) := by omega
    simp only [UnquoteChar, RuneSelf]
    norm_num [h1, h2, h3, h4, h5, h6, h7, hx, ho, h19, hq2]

/-- The decoding loop over well-formed constituents followed by a backslash and
a byte that starts no escape fails. -/
theorem unquoteLoop_invalid : ∀ (items : List Item), (∀ i ∈ items, i.plain = true) →
    ∀ (c : Nat) (tail : Bytes) (f : Nat) (buf : Bytes), isEscapeStart c = false →
      (written items).length < f →
      unquoteLoop 0x22 f (written items ++ 0x5C :: c :: tail) buf = none := by
  intro items
  induction items with
  | nil =>
    intro _ c tail f buf hc hf
    obtain ⟨g, rfl⟩ : ∃ g, f = g + 1 := ⟨f - 1, by omega⟩
    have hu := UnquoteChar_invalid c tail hc
    simp only [written, List.flatMap_nil, List.nil_append]
    rw [unquoteLoop]
    simp only [hu]
    norm_num
  | cons i its ih =>
    intro hp c tail f buf hc hf
    have hpi := hp i (List.mem_cons_self _ _)
    obtain ⟨c0, t, r, m, e, h1, h2, hu, hv⟩ :=
      UnquoteChar_item i hpi (written its ++ 0x5C :: c :: tail)
    have hw : written (i :: its) = i.written ++ written its := by simp [written]
    have hpos : 1 ≤ i.written.length := written_pos i hpi
    rw [hw, List.length_append] at hf
    obtain ⟨g, rfl⟩ : ∃ g, f = g + 1 := ⟨f - 1, by omega⟩
    rw [hw, List.append_assoc, unquoteLoop_step g _ buf _ c0 t r m e h1 h2 hu]
    exact ih (fun j hj => hp j (List.mem_cons_of_mem _ hj)) c tail g _ hc (by omega)

/-- In front of the first double quote behind well-formed constituents that are
followed by a backslash there is a backslash. -/
theorem backslash_before_quote : ∀ (items : List Item), (∀ i ∈ items, i.plain = true) →
    ∀ (rest : Bytes),
      0x5C ∈ (written items ++ 0x5C :: rest).take
        ((written items ++ 0x5C :: rest).indexOf 0x22 + 1) := by
  intro items
  induction items with
  | nil => intro _ rest; simp [written]
  | cons i its ih =>
    intro hp rest
    have hpi := hp i (List.mem_cons_self _ _)
    have hw : written (i :: its) = i.written ++ written its := by simp [written]
    cases i with
    | char r =>
      have hb := (char_bytes r hpi []).1
      have hq : 0x22 ∉ EncodeRune r := fun hmem => (hb _ hmem).2.1 rfl
      simp only [Item.written] at hw
      rw [hw, List.append_assoc, List.indexOf_append_of_not_mem hq, Nat.add_assoc,
        List.take_append]
      exact List.mem_append_right _ (ih (fun j hj => hp j (List.mem_cons_of_mem _ hj)) rest)
    | simple c => simp [hw, Item.written]
    | hex d1 d2 => simp [hw, Item.written]
    | oct d1 d2 d3 => simp [hw, Item.written]
    | small ds => simp [hw, Item.written]
    | big ds => simp [hw, Item.written]

/-- A double-quoted text in which well-formed constituents are followed by a
backslash and a byte that starts no escape is rejected by `strconv.Unquote`,
whatever follows. -/
theorem Unquote_invalid (items : List Item) (hp : ∀ i ∈ items, i.plain = true) (c : Nat)
    (tail : Bytes) (hc : isEscapeStart c = false) :
    Unquote (0x22 :: (written items ++ 0x5C :: c :: tail)) = ([], some GoError.ErrSyntax) := by
  have hlit : unquoteLit (0x22 :: (written items ++ 0x5C :: c :: tail)) = none := by
    unfold unquoteLit
    have hlen : ¬ (0x22 :: (written items ++ 0x5C :: c :: tail)).length < 2 := by
      simp only [List.length_cons, List.length_append]
      omega
    rw [if_neg hlen]
    simp only
    by_cases hcq : (!(written items ++ 0x5C :: c :: tail).contains 0x22) = true
    · rw [if_pos hcq]
    · rw [if_neg hcq, if_neg (by decide : ¬ ((0x22 : Nat) = 0x60)), if_pos (Or.inl trivial)]
      have hbs : (List.take ((written items ++ 0x5C :: c :: tail).indexOf 0x22 + 2)
          (0x22 :: (written items ++ 0x5C :: c :: tail))).contains 0x5C = true := by
        simp only [List.take_succ_cons, List.contains_eq_any_beq, List.any_eq_true, beq_iff_eq]
        exact ⟨0x5C, List.mem_cons_of_mem _ (backslash_before_quote items hp (c :: tail)), rfl⟩
      rw [hbs]
      simp only [Bool.not_true, Bool.false_and, Bool.false_eq_true, if_false]
      rw [unquoteLoop_invalid items hp c tail _ [] hc (by simp)]
  unfold Unquote
  rw [hlit]

/-! ## Lemmas on the reading of lines -/

theorem unquote_eq (s : scanner) (x : Bytes) :
    s.unquote x = (decoded x, { s with err := stickyAfter s.err [x] }) := by
  unfold scanner.unquote
  rw [← Unquote_fst]
  by_cases he : (Unquote x).2 = none <;> simp [he, stickyAfter]

theorem hasPrefix_length {s : scanner} {pfx : Bytes} (h : s.hasPrefix pfx = true) :
    pfx.length ≤ s.token.length := by
  unfold scanner.hasPrefix HasPrefix at h
  exact (List.isPrefixOf_iff_prefix.mp h).length_le

theorem txt_eq {s : scanner} {pfx : Bytes} (h : s.hasPrefix pfx = true) :
    s.txt pfx = .ok (TrimSpace (s.token.drop pfx.length)) := by
  simp [scanner.txt, hasPrefix_length h]

/-- A list splits into its leading run of elements with `p` and the rest,
which is empty or begins with an element without `p`. -/
theorem run_split (p : Bytes → Bool) (ls : List Bytes) :
    (∃ run l rest, ls = run ++ l :: rest ∧ (∀ x ∈ run, p x = true) ∧ p l = false ∧
        ls.takeWhile p = run ∧ ls.dropWhile p = l :: rest) ∨
      ((∀ x ∈ ls, p x = true) ∧ ls.takeWhile p = ls ∧ ls.dropWhile p = []) := by
  induction ls with
  | nil => right; simp
  | cons a t ih =>
    by_cases ha : p a = true
    · rcases ih with ⟨run, l, rest, h1, h2, h3, h4, h5⟩ | ⟨h1, h2, h3⟩
      · left
        refine ⟨a :: run, l, rest, by simp [h1], ?_, h3, by simp [ha, h4], by simp [ha, h5]⟩
        intro x hx
        rcases List.mem_cons.mp hx with rfl | hx
        · exact ha
        · exact h2 x hx
      · right
        refine ⟨?_, by simp [ha, h2], by simp [ha, h3]⟩
        intro x hx
        rcases List.mem_cons.mp hx with rfl | hx
        · exact ha
        · exact h1 x hx
    · left
      simp only [Bool.not_eq_true] at ha
      exact ⟨[], a, t, rfl, by simp, ha, by simp [ha], by simp [ha]⟩

theorem dropWhile_run (p : Bytes → Bool) (run : List Bytes) (l : Bytes) (rest : List Bytes)
    (h1 : ∀ x ∈ run, p x = true) (h2 : p l = false) :
    (run ++ l :: rest).dropWhile p = l :: rest := by
  induction run with
  | nil => simp [h2]
  | cons a t ih =>
    have ha : p a = true := h1 a (by simp)
    simp only [List.cons_append, List.dropWhile_cons, ha, if_true]
    exact ih (fun x hx => h1 x (by simp [hx]))

theorem takeWhile_run (p : Bytes → Bool) (run : List Bytes) (l : Bytes) (rest : List Bytes)
    (h1 : ∀ x ∈ run, p x = true) (h2 : p l = false) :
    (run ++ l :: rest).takeWhile p = run := by
  induction run with
  | nil => simp [h2]
  | cons a t ih =>
    have ha : p a = true := h1 a (by simp)
    simp only [List.cons_append, List.takeWhile_cons, ha, if_true]
    rw [ih (fun x hx => h1 x (by simp [hx]))]

/-- At the end of the input `Scan` clears the token and reports `false`. -/
theorem Scan_nil {s : scanner} (h : s.lines = []) : s.Scan = (false, { s with token := [] }) := by
  simp [scanner.Scan, h]

/-- A line that fits is delivered without its terminal carriage return. -/
theorem Scan_fits {s : scanner} {l : Bytes} {ls : List Bytes} (h : s.lines = l :: ls)
    (hf : fits s.readErr l = true) :
    s.Scan = (true, { s with token := dropCR l, lines := ls }) := by
  have hc : ¬ (s.readErr = none ∧ MaxScanTokenSize ≤ l.length) := by
    rintro ⟨h1, h2⟩
    simp only [fits, h1, Option.isSome_none, Bool.false_or, decide_eq_true_eq] at hf
    omega
  simp only [scanner.Scan, h, hc, if_false]

/-- A line that does not fit stops the scanner: the token is cleared,
`ErrTooLong` is recorded and the buffer keeps the beginning of the line. -/
theorem Scan_long {s : scanner} {l : Bytes} {ls : List Bytes} (h : s.lines = l :: ls)
    (hf : fits s.readErr l = false) :
    s.Scan = (false, { s with token := [], lines := [l.take MaxScanTokenSize],
                              readErr := some GoError.ErrTooLong }) := by
  have hc : s.readErr = none ∧ MaxScanTokenSize ≤ l.length := by
    simp only [fits, Bool.or_eq_false_iff, decide_eq_false_iff_not, Nat.not_lt] at hf
    refine ⟨?_, hf.2⟩
    cases hr : s.readErr with
    | none => rfl
    | some e => rw [hr] at hf; simp at hf
  simp only [scanner.Scan, h, hc, and_self, if_true]

/-- A line shorter than `MaxScanTokenSize` fits. -/
theorem fits_of_short (re : Option GoError) {l : Bytes} (h : l.length < MaxScanTokenSize) :
    fits re l = true := by
  simp [fits, h]

/-- The lines of a list of short lines fit. -/
theorem fits_of_shortLines (re : Option GoError) {ls : List Bytes} (h : shortLines ls = true)
    {l : Bytes} (hl : l ∈ ls) : fits re l = true := by
  simp only [shortLines, List.all_eq_true, decide_eq_true_eq] at h
  exact fits_of_short re (h l hl)

/-- What `Scan` does is independent of the token held. -/
theorem Scan_any_token (t t1 : Bytes) (ls : List Bytes) (re : Option GoError) (hn : Bool)
    (e : Option GoError) :
    ({ token := t, lines := ls, readErr := re, hasNext := hn, err := e } : scanner).Scan
      = ({ token := t1, lines := ls, readErr := re, hasNext := hn, err := e } : scanner).Scan := by
  unfold scanner.Scan
  cases ls with
  | nil => rfl
  | cons a b => rfl

theorem Scan_err (s : scanner) : s.Scan.2.err = s.err := by
  unfold scanner.Scan
  split
  · rfl
  · split <;> rfl

theorem Scan_hasNext (s : scanner) : s.Scan.2.hasNext = s.hasNext := by
  unfold scanner.Scan
  split
  · rfl
  · split <;> rfl

theorem afterRun_err (p : Bytes → Bool) (s : scanner) (ls : List Bytes) (e : Option GoError) :
    (afterRun p s ls e).err = e := by
  unfold afterRun
  rw [Scan_err]

theorem afterRun_nil {p : Bytes → Bool} {s : scanner} {ls : List Bytes} {e : Option GoError}
    (h : ls.dropWhile p = []) :
    afterRun p s ls e = { s with token := [], lines := [], err := e } := by
  unfold afterRun
  rw [Scan_nil (by simpa using h)]
  simp [h]

theorem afterRun_cons {p : Bytes → Bool} {s : scanner} {ls : List Bytes} {e : Option GoError}
    {l : Bytes} {rest : List Bytes} (h : ls.dropWhile p = l :: rest)
    (hf : fits s.readErr l = true) :
    afterRun p s ls e = { s with token := dropCR l, lines := rest, err := e } := by
  unfold afterRun
  rw [@Scan_fits _ l rest (by simpa using h) (by simpa using hf)]

theorem afterRun_long {p : Bytes → Bool} {s : scanner} {ls : List Bytes} {e : Option GoError}
    {l : Bytes} {rest : List Bytes} (h : ls.dropWhile p = l :: rest)
    (hf : fits s.readErr l = false) :
    afterRun p s ls e = { s with token := [], lines := [l.take MaxScanTokenSize],
                                 readErr := some GoError.ErrTooLong, err := e } := by
  unfold afterRun
  rw [@Scan_long _ l rest (by simpa using h) (by simpa using hf)]

/-- The state `afterRun` starts from does not depend on the token. -/
theorem afterRun_token (p : Bytes → Bool) (s : scanner) (ls : List Bytes) (e : Option GoError)
    (t : Bytes) (ls1 : List Bytes) (e1 : Option GoError) :
    afterRun p { s with token := t, lines := ls1, err := e1 } ls e = afterRun p s ls e := by
  rfl

/-- Two predicates that agree on the elements of a list have the same leading
run in it. -/
theorem takeWhile_agree {p q : Bytes → Bool} : ∀ {ls : List Bytes},
    (∀ x ∈ ls, p x = q x) → ls.takeWhile p = ls.takeWhile q ∧ ls.dropWhile p = ls.dropWhile q := by
  intro ls
  induction ls with
  | nil => intro _; simp
  | cons a t ih =>
    intro h
    have ha := h a (by simp)
    obtain ⟨i1, i2⟩ := ih (fun x hx => h x (by simp [hx]))
    simp only [List.takeWhile_cons, List.dropWhile_cons, ha, i1, i2, and_self]

/-- A line begins with a double quote exactly when it does so as delivered. -/
theorem isQuoted_dropCR (l : Bytes) : isQuoted (dropCR l) = isQuoted l := by
  unfold dropCR
  split
  · cases l with
    | nil => rfl
    | cons a t =>
      cases t with
      | nil => rename_i h; simp at h; subst h; rfl
      | cons b t => simp [isQuoted]
  · rfl

/-- The inner loop of `quo`, run with more fuel than there are lines left,
appends the values of the leading run of the quoted lines that fit and stops
with the `Scan` behind that run. -/
theorem quoLoop_eq (ls : List Bytes) : ∀ (fuel : Nat) (s : scanner) (r : Bytes),
    s.lines = ls → ls.length < fuel →
    scanner.quoLoop fuel s r =
      .ok (r ++ (((ls.takeWhile (taken s.readErr isQuoted)).map dropCR).map decoded).flatten,
        afterRun (taken s.readErr isQuoted) s ls
          (stickyAfter s.err ((ls.takeWhile (taken s.readErr isQuoted)).map dropCR))) := by
  induction ls with
  | nil =>
    intro fuel s r hl hf
    cases fuel with
    | zero => omega
    | succ f =>
      rw [afterRun_nil (by simp)]
      simp [scanner.quoLoop, Scan_nil hl, stickyAfter, hl]
  | cons l ls ih =>
    intro fuel s r hl hf
    cases fuel with
    | zero => omega
    | succ f =>
      have hself : ({ s with lines := l :: ls, err := s.err } : scanner) = s := by
        cases s
        simp only at hl
        subst hl
        rfl
      by_cases hfit : fits s.readErr l = true
      · by_cases hq : isQuoted (dropCR l) = true
        · have ht : taken s.readErr isQuoted l = true := by simp [taken, hfit, hq]
          have h1 : (dropCR l).length > 0 ∧ (dropCR l).head? = some 0x22 := by
            cases hd : dropCR l with
            | nil => rw [hd] at hq; simp [isQuoted] at hq
            | cons a t => rw [hd] at hq; simpa [isQuoted] using hq
          simp only [scanner.quoLoop, Scan_fits hl hfit, Bool.not_true, Bool.false_eq_true,
            if_false, h1, and_self, if_true, unquote_eq]
          rw [ih f _ _ rfl (by simpa using hf)]
          simp only [List.takeWhile_cons, ht, if_true, List.map_cons, List.flatten_cons,
            List.append_assoc, afterRun, List.dropWhile_cons,
            stickyAfter_cons s.err (dropCR l)
              ((ls.takeWhile (taken s.readErr isQuoted)).map dropCR)]
          rw [Scan_any_token (dropCR l) s.token]
        · have ht : taken s.readErr isQuoted l = false := by simp [taken, hq]
          have h1 : ¬ ((dropCR l).length > 0 ∧ (dropCR l).head? = some 0x22) := by
            intro h
            apply hq
            simpa [isQuoted] using h.2
          simp only [scanner.quoLoop, Scan_fits hl hfit, Bool.not_true, Bool.false_eq_true,
            if_false, h1, List.takeWhile_cons, ht, List.map_nil, List.flatten_nil,
            List.append_nil, afterRun, List.dropWhile_cons, stickyAfter, List.foldl_nil]
          rw [hself, Scan_fits hl hfit]
      · simp only [Bool.not_eq_true] at hfit
        have ht : taken s.readErr isQuoted l = false := by simp [taken, hfit]
        simp only [scanner.quoLoop, Scan_long hl hfit, Bool.not_false, if_true,
          List.takeWhile_cons, ht, Bool.false_eq_true, if_false, List.map_nil, List.flatten_nil,
          List.append_nil, afterRun, List.dropWhile_cons, stickyAfter, List.foldl_nil]
        rw [hself, Scan_long hl hfit]

theorem quoLoop_eq_lines (fuel : Nat) (s : scanner) (r : Bytes) (hf : s.lines.length < fuel) :
    scanner.quoLoop fuel s r =
      .ok (r ++ (((s.lines.takeWhile (taken s.readErr isQuoted)).map dropCR).map
              decoded).flatten,
        afterRun (taken s.readErr isQuoted) s s.lines
          (stickyAfter s.err ((s.lines.takeWhile (taken s.readErr isQuoted)).map dropCR))) :=
  quoLoop_eq s.lines fuel s r rfl hf

/-- The whole of `quo` on a line that has the prefix. -/
theorem quo_eq (s : scanner) (pfx : Bytes) (h : s.hasPrefix pfx = true) :
    s.quo pfx =
      .ok (decoded (TrimSpace (s.token.drop pfx.length)) ++
            (((s.lines.takeWhile (taken s.readErr isQuoted)).map dropCR).map decoded).flatten,
          afterRun (taken s.readErr isQuoted) s s.lines
            (stickyAfter s.err
              (TrimSpace (s.token.drop pfx.length) ::
                (s.lines.takeWhile (taken s.readErr isQuoted)).map dropCR))) := by
  unfold scanner.quo
  simp only [h, if_true, txt_eq h, unquote_eq]
  rw [quoLoop_eq_lines _ _ _ (by simp)]
  rw [stickyAfter_cons s.err _ ((s.lines.takeWhile (taken s.readErr isQuoted)).map dropCR)]
  simp only [afterRun]

/-- The loop of `nextmsg`, run with more fuel than there are lines left and
without a sticky error, passes the leading run of the blank lines that fit and
returns what the `Scan` behind that run returns. -/
theorem nextmsgLoop_eq (ls : List Bytes) : ∀ (fuel : Nat) (s : scanner),
    s.lines = ls → s.err = none → ls.length < fuel →
    scanner.nextmsgLoop fuel s =
      .ok (({ s with lines := ls.dropWhile (taken s.readErr isBlank) } : scanner).Scan) := by
  induction ls with
  | nil =>
    intro fuel s hl he hf
    cases fuel with
    | zero => omega
    | succ f =>
      have hself : ({ s with lines := [] } : scanner) = s := by
        cases s
        simp only at hl
        subst hl
        rfl
      simp only [List.dropWhile_nil, hself]
      simp [scanner.nextmsgLoop, Scan_nil hl, he]
  | cons l ls ih =>
    intro fuel s hl he hf
    cases fuel with
    | zero => omega
    | succ f =>
      have hself : ({ s with lines := l :: ls } : scanner) = s := by
        cases s
        simp only at hl
        subst hl
        rfl
      have hne : ¬ (s.err ≠ none) := by simp [he]
      by_cases hfit : fits s.readErr l = true
      · by_cases hb : isBlank (dropCR l) = true
        · have ht : taken s.readErr isBlank l = true := by simp [taken, hfit, hb]
          have h1 : ¬ (TrimSpace (dropCR l)).length > 1 := by
            simp only [isBlank, decide_eq_true_eq] at hb
            omega
          simp only [scanner.nextmsgLoop, hne, if_false,
            Scan_fits hl hfit, Bool.not_true, Bool.false_eq_true, h1]
          rw [ih f { s with token := dropCR l, lines := ls } rfl he (by simpa using hf)]
          simp only [List.dropWhile_cons, ht, if_true]
          rw [Scan_any_token (dropCR l) s.token]
        · have ht : taken s.readErr isBlank l = false := by simp [taken, hb]
          have h1 : (TrimSpace (dropCR l)).length > 1 := by
            simp only [isBlank, decide_eq_true_eq] at hb
            omega
          simp only [scanner.nextmsgLoop, hne, if_false,
            Scan_fits hl hfit, Bool.not_true, Bool.false_eq_true, h1, if_true,
            List.dropWhile_cons, ht, hself]
      · simp only [Bool.not_eq_true] at hfit
        have ht : taken s.readErr isBlank l = false := by simp [taken, hfit]
        simp only [scanner.nextmsgLoop, hne, if_false,
          Scan_long hl hfit, Bool.not_false, if_true, List.dropWhile_cons, ht,
          Bool.false_eq_true, hself]

/-- The whole of `nextmsg` without a sticky error. -/
theorem nextmsg_eq (s : scanner) (he : s.err = none) :
    s.nextmsg
      = .ok (({ s with lines := s.lines.dropWhile (taken s.readErr isBlank) } : scanner).Scan) :=
  nextmsgLoop_eq s.lines _ s rfl he (by simp)

/-- With a sticky error `nextmsg` returns `false` at once. -/
theorem nextmsg_err (s : scanner) (he : s.err ≠ none) : s.nextmsg = .ok (false, s) := by
  simp [scanner.nextmsg, scanner.nextmsgLoop, he]

/-- The loop of `mul`, run with more fuel than there are lines left: on a line
with the prefix it collects the text of that line and of the leading run of
the following lines that fit and have the prefix, and stops with the `Scan`
behind that run. -/
theorem mulLoop_eq (pfx : Bytes) (ls : List Bytes) : ∀ (fuel : Nat) (s : scanner)
    (r : List Bytes), s.lines = ls → ls.length < fuel →
    scanner.mulLoop pfx fuel s r =
      if s.hasPrefix pfx then
        .ok (r ++ TrimSpace (s.token.drop pfx.length) ::
              (ls.takeWhile (taken s.readErr (HasPrefix · pfx))).map
                (fun l => TrimSpace ((dropCR l).drop pfx.length)),
          afterRun (taken s.readErr (HasPrefix · pfx)) s ls s.err)
      else .ok (r, s) := by
  induction ls with
  | nil =>
    intro fuel s r hl hf
    cases fuel with
    | zero => omega
    | succ f =>
      by_cases hp : s.hasPrefix pfx = true
      · rw [afterRun_nil (by simp)]
        simp [scanner.mulLoop, hp, txt_eq hp, Scan_nil hl, hl]
      · simp only [Bool.not_eq_true] at hp
        simp [scanner.mulLoop, hp]
  | cons l ls ih =>
    intro fuel s r hl hf
    cases fuel with
    | zero => omega
    | succ f =>
      have hself : ({ s with lines := l :: ls, err := s.err } : scanner) = s := by
        cases s
        simp only at hl
        subst hl
        rfl
      by_cases hp : s.hasPrefix pfx = true
      · by_cases hfit : fits s.readErr l = true
        · simp only [scanner.mulLoop, hp, if_true, txt_eq hp, Scan_fits hl hfit, Bool.not_true,
            Bool.false_eq_true, if_false]
          rw [ih f _ _ rfl (by simpa using hf)]
          by_cases hq : HasPrefix (dropCR l) pfx = true
          · have ht : taken s.readErr (HasPrefix · pfx) l = true := by simp [taken, hfit, hq]
            have hq1 : scanner.hasPrefix { s with token := dropCR l, lines := ls } pfx = true := hq
            simp only [hq1, if_true, List.takeWhile_cons, ht, List.map_cons, List.append_assoc,
              List.singleton_append, afterRun, List.dropWhile_cons]
            rw [Scan_any_token (dropCR l) s.token]
          · simp only [Bool.not_eq_true] at hq
            have ht : taken s.readErr (HasPrefix · pfx) l = false := by simp [taken, hq]
            have hq1 : scanner.hasPrefix { s with token := dropCR l, lines := ls } pfx = false :=
              hq
            simp only [hq1, Bool.false_eq_true, if_false, List.takeWhile_cons, ht, List.map_nil,
              afterRun, List.dropWhile_cons, hself, Scan_fits hl hfit]
        · simp only [Bool.not_eq_true] at hfit
          have ht : taken s.readErr (HasPrefix · pfx) l = false := by simp [taken, hfit]
          simp only [scanner.mulLoop, hp, if_true, txt_eq hp, Scan_long hl hfit, Bool.not_false,
            List.takeWhile_cons, ht, Bool.false_eq_true, if_false, List.map_nil, afterRun,
            List.dropWhile_cons, hself]
      · simp only [Bool.not_eq_true] at hp
        simp [scanner.mulLoop, hp]

/-- The whole of `mul`. -/
theorem mul_eq (s : scanner) (pfx : Bytes) :
    s.mul pfx =
      if s.hasPrefix pfx then
        .ok (TrimSpace (s.token.drop pfx.length) ::
              (s.lines.takeWhile (taken s.readErr (HasPrefix · pfx))).map
                (fun l => TrimSpace ((dropCR l).drop pfx.length)),
          afterRun (taken s.readErr (HasPrefix · pfx)) s s.lines s.err)
      else .ok ([], s) := by
  unfold scanner.mul
  rw [mulLoop_eq pfx s.lines _ s [] rfl (by simp)]
  simp

theorem msgstrPrefix_ne_nil (n : Nat) : msgstrPrefix n ≠ [] := by
  have : lit "msgstr[" = [109, 115, 103, 115, 116, 114, 91] := by decide
  simp [msgstrPrefix, this]

theorem token_ne_nil_of_hasPrefix {s : scanner} {pfx : Bytes} (h : s.hasPrefix pfx = true)
    (hp : pfx ≠ []) : s.token ≠ [] := by
  intro ht
  have := hasPrefix_length h
  rw [ht] at this
  exact hp (List.length_eq_zero.mp (Nat.le_zero.mp this))

/-- The `Scan` behind a run leaves fewer lines than a scanner held that was at
a line. -/
theorem remaining_afterRun_lt (p : Bytes → Bool) (s : scanner) (e : Option GoError)
    (ht : s.token ≠ []) : remaining (afterRun p s s.lines e) < remaining s := by
  have hlen : (s.lines.dropWhile p).length ≤ s.lines.length :=
    (List.dropWhile_suffix p).length_le
  cases hd : s.lines.dropWhile p with
  | nil => simp [afterRun_nil hd, remaining, ht]
  | cons l r =>
    rw [hd] at hlen
    by_cases hfit : fits s.readErr l = true
    · rw [afterRun_cons hd hfit]
      simp only [remaining, ht, if_false, List.length_cons] at *
      split <;> omega
    · simp only [Bool.not_eq_true] at hfit
      rw [afterRun_long hd hfit]
      simp only [remaining, ht, if_false, List.length_cons, List.length_nil, if_true] at *
      omega

theorem quo_remaining (s : scanner) (pfx : Bytes) (h : s.hasPrefix pfx = true) (hp : pfx ≠ []) :
    ∃ v s1, s.quo pfx = .ok (v, s1) ∧ remaining s1 < remaining s :=
  ⟨_, _, quo_eq s pfx h, remaining_afterRun_lt _ _ _ (token_ne_nil_of_hasPrefix h hp)⟩

/-- The loop of `msgstr` follows any chain of `quo` calls on the successive
plural prefixes up to the first prefix that does not match. -/
theorem msgstrLoop_chain (k : Nat) : ∀ (st : Nat → scanner) (v : Nat → Bytes) (r : List Bytes)
    (f : Nat), remaining (st 0) < f →
    (∀ i, i < k → (st i).hasPrefix (msgstrPrefix (r.length + i)) = true ∧
      (st i).quo (msgstrPrefix (r.length + i)) = .ok (v i, st (i + 1))) →
    (st k).hasPrefix (msgstrPrefix (r.length + k)) = false →
    scanner.msgstrLoop f (st 0) r = .ok (r ++ (List.range k).map v, st k) := by
  induction k with
  | zero =>
    intro st v r f hf _ hstop
    cases f with
    | zero => omega
    | succ f => simp at hstop; simp [scanner.msgstrLoop, hstop]
  | succ k ih =>
    intro st v r f hf hstep hstop
    cases f with
    | zero => omega
    | succ f =>
      obtain ⟨h0, hq⟩ := hstep 0 (by omega)
      simp only [Nat.add_zero] at h0 hq
      obtain ⟨v1, s1, hq1, hlt⟩ := quo_remaining _ _ h0 (msgstrPrefix_ne_nil _)
      rw [hq] at hq1
      simp only [Except.ok.injEq, Prod.mk.injEq] at hq1
      obtain ⟨_, rfl⟩ := hq1
      simp only [scanner.msgstrLoop, h0, Bool.not_true, Bool.false_eq_true, if_false, hq]
      rw [ih (fun i => st (i + 1)) (fun i => v (i + 1)) (r ++ [v 0]) f (by simp only; omega)]
      · simp [List.range_succ_eq_map, List.map_map, Function.comp_def]
      · intro i hi
        have := hstep (i + 1) (by omega)
        simpa [Nat.add_assoc, Nat.add_comm 1 i] using this
      · simpa [Nat.add_assoc, Nat.add_comm 1 k] using hstop

/-- Such a chain of `quo` calls exists from every scanner: each call takes at
least one line away. -/
theorem chain_exists : ∀ (m : Nat) (s : scanner) (n : Nat), remaining s ≤ m →
    ∃ (k : Nat) (st : Nat → scanner) (v : Nat → Bytes), st 0 = s ∧
      (∀ i, i < k → (st i).hasPrefix (msgstrPrefix (n + i)) = true ∧
        (st i).quo (msgstrPrefix (n + i)) = .ok (v i, st (i + 1))) ∧
      (st k).hasPrefix (msgstrPrefix (n + k)) = false := by
  intro m
  induction m with
  | zero =>
    intro s n hm
    refine ⟨0, fun _ => s, fun _ => [], rfl, by intro i hi; omega, ?_⟩
    simp only [Nat.add_zero]
    by_contra hc
    simp only [Bool.not_eq_false] at hc
    have := token_ne_nil_of_hasPrefix hc (msgstrPrefix_ne_nil _)
    simp [remaining, this] at hm
  | succ m ih =>
    intro s n hm
    by_cases hp : s.hasPrefix (msgstrPrefix n) = true
    · obtain ⟨v1, s1, hq, hlt⟩ := quo_remaining s _ hp (msgstrPrefix_ne_nil _)
      obtain ⟨k, st, v, h0, hstep, hstop⟩ := ih s1 (n + 1) (by omega)
      refine ⟨k + 1, fun i => Nat.casesOn i s (fun j => st j),
        fun i => Nat.casesOn i v1 (fun j => v j), rfl, ?_, ?_⟩
      · intro i hi
        cases i with
        | zero => simpa [h0] using And.intro hp hq
        | succ j =>
          have := hstep j (by omega)
          simpa [Nat.add_assoc, Nat.add_comm 1 j] using this
      · simpa [Nat.add_assoc, Nat.add_comm 1 k] using hstop
    · exact ⟨0, fun _ => s, fun _ => [], rfl, by intro i hi; omega, by simpa using hp⟩

/-- On short lines a line is taken exactly when, as delivered, it satisfies the
test. -/
theorem taken_short (re : Option GoError) (p : Bytes → Bool) {ls : List Bytes}
    (h : shortLines ls = true) : ∀ x ∈ ls, taken re p x = p (dropCR x) := by
  intro x hx
  simp [taken, fits_of_shortLines re h hx]

/-- A part of a list of short lines is a list of short lines. -/
theorem shortLines_append {a b : List Bytes} :
    shortLines (a ++ b) = true ↔ shortLines a = true ∧ shortLines b = true := by
  simp [shortLines, List.all_append]

theorem shortLines_cons {a : Bytes} {b : List Bytes} :
    shortLines (a :: b) = true ↔ a.length < MaxScanTokenSize ∧ shortLines b = true := by
  simp [shortLines]

/-- The operation `quo` returns and keeps a sticky error that is set. -/
theorem quo_keeps_err (s : scanner) (pfx : Bytes) (he : s.err ≠ none) :
    ∃ v s1, s.quo pfx = .ok (v, s1) ∧ s1.err ≠ none := by
  by_cases h : s.hasPrefix pfx = true
  · refine ⟨_, _, quo_eq s pfx h, ?_⟩
    rw [afterRun_err]
    exact (stickyAfter_ne_none_iff _ _).mpr (Or.inl he)
  · simp only [Bool.not_eq_true] at h
    exact ⟨[], s, by simp [scanner.quo, h], he⟩

/-- The operation `msgstr` returns and keeps a sticky error that is set. -/
theorem msgstr_keeps_err (s : scanner) (he : s.err ≠ none) :
    ∃ v s1, s.msgstr = .ok (v, s1) ∧ s1.err ≠ none := by
  by_cases h : s.hasPrefix (lit "msgstr ") = true
  · obtain ⟨v, s1, hq, h1⟩ := quo_keeps_err s (lit "msgstr ") he
    exact ⟨[v], s1, by simp [scanner.msgstr, h, hq], h1⟩
  · simp only [Bool.not_eq_true] at h
    obtain ⟨k, st, v, h0, hstep, hstop⟩ := chain_exists (remaining s) s 0 (Nat.le_refl _)
    simp only [Nat.zero_add] at hstep hstop
    have hA := msgstrLoop_chain k st v [] (s.lines.length + 2)
      (by rw [h0]; unfold remaining; split <;> omega)
      (by simpa using hstep) (by simpa using hstop)
    rw [h0] at hA
    refine ⟨_, st k, by simp only [scanner.msgstr, h, Bool.false_eq_true, if_false]; exact hA, ?_⟩
    have hall : ∀ i, i ≤ k → (st i).err ≠ none := by
      intro i
      induction i with
      | zero => intro _; rw [h0]; exact he
      | succ j ih =>
        intro hj
        obtain ⟨_, hq⟩ := hstep j (by omega)
        obtain ⟨v1, s1, hq1, h1⟩ := quo_keeps_err (st j) (msgstrPrefix j) (ih (by omega))
        rw [hq] at hq1
        simp only [Except.ok.injEq, Prod.mk.injEq] at hq1
        rw [hq1.2]
        exact h1
    exact hall k (Nat.le_refl _)

/-- The operation `mul` returns, keeps the sticky error as it is, and returns
no more values than the scanner holds lines when the prefix is not empty. -/
theorem mul_total (s : scanner) (pfx : Bytes) :
    ∃ vs s1, s.mul pfx = .ok (vs, s1) ∧ s1.err = s.err ∧
      (pfx ≠ [] → vs.length ≤ remaining s) := by
  by_cases h : s.hasPrefix pfx = true
  · refine ⟨_, _, by rw [mul_eq, if_pos h], afterRun_err _ _ _ _, ?_⟩
    intro hp
    have ht := token_ne_nil_of_hasPrefix h hp
    have := (List.takeWhile_prefix (taken s.readErr (HasPrefix · pfx)) (l := s.lines)).length_le
    simp only [List.length_cons, List.length_map, remaining, ht, if_false]
    omega
  · simp only [Bool.not_eq_true] at h
    exact ⟨[], s, by rw [mul_eq]; simp [h], rfl, fun _ => by simp⟩

/-- The operation `nextmsg` returns. -/
theorem nextmsg_total (s : scanner) : ∃ b s1, s.nextmsg = .ok (b, s1) := by
  by_cases he : s.err = none
  · exact ⟨_, _, nextmsg_eq s he⟩
  · exact ⟨false, s, nextmsg_err s he⟩

/-- The operation `spc` returns. -/
theorem spc_total (s : scanner) (pfx : Bytes) : ∃ r s1, s.spc pfx = .ok (r, s1) := by
  by_cases h : s.hasPrefix pfx = true
  · exact ⟨_, _, by (simp only [scanner.spc, h, if_true, txt_eq h]; rfl)⟩
  · exact ⟨_, _, by (simp only [scanner.spc, h, Bool.false_eq_true, if_false]; rfl)⟩

/-- The operation `one` returns. -/
theorem one_total (s : scanner) (pfx : Bytes) : ∃ r s1, s.one pfx = .ok (r, s1) := by
  by_cases h : s.hasPrefix pfx = true
  · exact ⟨_, _, by (simp only [scanner.one, h, if_true, txt_eq h]; rfl)⟩
  · exact ⟨_, _, by (simp only [scanner.one, h, Bool.false_eq_true, if_false]; rfl)⟩

/-- The operation `quo` returns. -/
theorem quo_total (s : scanner) (pfx : Bytes) : ∃ r s1, s.quo pfx = .ok (r, s1) := by
  by_cases h : s.hasPrefix pfx = true
  · exact ⟨_, _, quo_eq s pfx h⟩
  · exact ⟨_, _, by (simp only [scanner.quo, h, Bool.false_eq_true, if_false]; rfl)⟩

/-- The operation `msgstr` returns, with at most as many values as the scanner
still holds lines. -/
theorem msgstr_total (s : scanner) :
    ∃ vs s1, s.msgstr = .ok (vs, s1) ∧ vs.length ≤ remaining s := by
  by_cases h : s.hasPrefix (lit "msgstr ") = true
  · refine ⟨_, _, by (simp only [scanner.msgstr, h, if_true, quo_eq s _ h]; rfl), ?_⟩
    have := token_ne_nil_of_hasPrefix h (by decide)
    simp [remaining, this]
  · simp only [Bool.not_eq_true] at h
    obtain ⟨k, st, v, h0, hstep, hstop⟩ := chain_exists (remaining s) s 0 (Nat.le_refl _)
    simp only [Nat.zero_add] at hstep hstop
    have hA := msgstrLoop_chain k st v [] (s.lines.length + 2)
      (by rw [h0]; unfold remaining; split <;> omega)
      (by simpa using hstep) (by simpa using hstop)
    rw [h0] at hA
    refine ⟨_, st k, by simp only [scanner.msgstr, h, Bool.false_eq_true, if_false]; exact hA, ?_⟩
    have hall : ∀ i, i ≤ k → remaining (st i) + i ≤ remaining s := by
      intro i
      induction i with
      | zero => intro _; rw [h0]; omega
      | succ j ih =>
        intro hj
        obtain ⟨hp, hq⟩ := hstep j (by omega)
        obtain ⟨v1, s1, hq1, h1⟩ := quo_remaining (st j) (msgstrPrefix j) hp
          (msgstrPrefix_ne_nil j)
        rw [hq] at hq1
        simp only [Except.ok.injEq, Prod.mk.injEq] at hq1
        rw [hq1.2]
        have := ih (by omega)
        omega
    have := hall k (Nat.le_refl _)
    simp only [List.nil_append, List.length_map, List.length_range]
    omega

/-- Every operation returns. -/
theorem exec_total (op : Op) (s : scanner) : ∃ r s1, op.exec s = .ok (r, s1) := by
  cases op with
  | nextmsg =>
    obtain ⟨b, s1, h⟩ := nextmsg_total s
    exact ⟨_, _, by (simp only [Op.exec, h, Except.map]; rfl)⟩
  | mul pfx =>
    obtain ⟨b, s1, h, _⟩ := mul_total s pfx
    exact ⟨_, _, by (simp only [Op.exec, h, Except.map]; rfl)⟩
  | spc pfx =>
    obtain ⟨b, s1, h⟩ := spc_total s pfx
    exact ⟨_, _, by (simp only [Op.exec, h, Except.map]; rfl)⟩
  | one pfx =>
    obtain ⟨b, s1, h⟩ := one_total s pfx
    exact ⟨_, _, by (simp only [Op.exec, h, Except.map]; rfl)⟩
  | quo pfx =>
    obtain ⟨b, s1, h⟩ := quo_total s pfx
    exact ⟨_, _, by (simp only [Op.exec, h, Except.map]; rfl)⟩
  | msgstr =>
    obtain ⟨b, s1, h, _⟩ := msgstr_total s
    exact ⟨_, _, by (simp only [Op.exec, h, Except.map]; rfl)⟩

/-- Every operation returns and keeps a sticky error that is set, and
`nextmsg` then returns `false`. -/
theorem exec_keeps_err (op : Op) (s : scanner) (he : s.err ≠ none) :
    ∃ r s1, op.exec s = .ok (r, s1) ∧ s1.err ≠ none ∧ (op = Op.nextmsg → r = Ret.flag false) := by
  cases op with
  | nextmsg =>
    exact ⟨Ret.flag false, s, by simp [Op.exec, nextmsg_err s he, Except.map], he, fun _ => rfl⟩
  | mul pfx =>
    obtain ⟨vs, s1, h, h1, _⟩ := mul_total s pfx
    exact ⟨_, _, by (simp only [Op.exec, h, Except.map]; rfl), by rw [h1]; exact he, by simp⟩
  | spc pfx =>
    by_cases h : s.hasPrefix pfx = true
    · refine ⟨_, _, by (simp only [Op.exec, scanner.spc, h, if_true, txt_eq h, Except.map]; rfl), ?_, by simp⟩
      rw [Scan_err]
      exact he
    · simp only [Bool.not_eq_true] at h
      exact ⟨_, _, by (simp only [Op.exec, scanner.spc, h, Bool.false_eq_true, if_false, Except.map]; rfl), he, by simp⟩
  | one pfx =>
    by_cases h : s.hasPrefix pfx = true
    · refine ⟨_, _, by (simp only [Op.exec, scanner.one, h, if_true, txt_eq h, Except.map]; rfl), ?_, by simp⟩
      rw [Scan_err]
      exact he
    · simp only [Bool.not_eq_true] at h
      exact ⟨_, _, by (simp only [Op.exec, scanner.one, h, Bool.false_eq_true, if_false, Except.map]; rfl), he, by simp⟩
  | quo pfx =>
    obtain ⟨v, s1, hq, h1⟩ := quo_keeps_err s pfx he
    exact ⟨_, _, by (simp only [Op.exec, hq, Except.map]; rfl), h1, by simp⟩
  | msgstr =>
    obtain ⟨v, s1, hq, h1⟩ := msgstr_keeps_err s he
    exact ⟨_, _, by (simp only [Op.exec, hq, Except.map]; rfl), h1, by simp⟩

theorem MaxScanTokenSize_pos : 0 < MaxScanTokenSize := by decide

theorem length_cons_replicate (n a b : Nat) : (a :: List.replicate n b).length = n + 1 := by
  simp only [List.length_cons, List.length_replicate]

theorem longQuoted_eq : longQuoted = 0x22 :: List.replicate (MaxScanTokenSize - 1) 0x62 := rfl

theorem longQuoted_length : longQuoted.length = MaxScanTokenSize := by
  rw [longQuoted_eq, length_cons_replicate]
  exact Nat.sub_add_cancel MaxScanTokenSize_pos

theorem longLine_length : longLine.length = MaxScanTokenSize :=
  List.length_replicate _ _

/-- A line of `MaxScanTokenSize` bytes or more does not fit while no error is
recorded. -/
theorem not_fits_of_length {l : Bytes} (h : MaxScanTokenSize ≤ l.length) : fits none l = false := by
  simp only [fits, Option.isSome_none, Bool.false_or, decide_eq_false_iff_not, not_lt]
  exact h

theorem isQuoted_cons (t : Bytes) : isQuoted (0x22 :: t) = true := by
  simp [isQuoted]

theorem isQuoted_longQuoted : isQuoted longQuoted = true := by
  rw [longQuoted_eq]
  exact isQuoted_cons _

theorem take_of_length {l : Bytes} (h : l.length = MaxScanTokenSize) :
    l.take MaxScanTokenSize = l := by
  rw [← h, List.take_length]

/-- With no error recorded by the reader, a line of `MaxScanTokenSize` bytes or
more is never taken into a run. -/
theorem taken_long (p : Bytes → Bool) {l : Bytes} (h : MaxScanTokenSize ≤ l.length) :
    taken none p l = false := by
  simp only [taken, not_fits_of_length h, Bool.false_and]

/-- What `quo` does when the line that follows the current one does not fit the
buffer: the value is that of the current line alone, the scanner is left with
an empty token, the chunk of the long line and the error `ErrTooLong`. -/
theorem quo_long (s : scanner) (pfx : Bytes) (l : Bytes) (rest : List Bytes)
    (h : s.hasPrefix pfx = true) (hl : s.lines = l :: rest) (hre : s.readErr = none)
    (hlen : MaxScanTokenSize ≤ l.length) :
    s.quo pfx =
      .ok (decoded (TrimSpace (s.token.drop pfx.length)),
        { s with token := [], lines := [l.take MaxScanTokenSize],
                 readErr := some GoError.ErrTooLong,
                 err := stickyAfter s.err [TrimSpace (s.token.drop pfx.length)] }) := by
  have ht : taken none isQuoted l = false := taken_long isQuoted hlen
  have hf : fits s.readErr l = false := by rw [hre]; exact not_fits_of_length hlen
  have hd : s.lines.dropWhile (taken s.readErr isQuoted) = l :: rest := by
    rw [hl, hre, List.dropWhile_cons, ht]
    rfl
  have htw : s.lines.takeWhile (taken s.readErr isQuoted) = [] := by
    rw [hl, hre, List.takeWhile_cons, ht]
    rfl
  rw [quo_eq s pfx h, htw, @afterRun_long _ s _ _ l rest hd hf]
  simp only [List.map_nil, List.flatten_nil, List.append_nil]

/-- What `nextmsg` does when the first line still to be read does not fit the
buffer: it returns false, with an empty token, the chunk of the long line
and the error `ErrTooLong`. -/
theorem nextmsg_long (s : scanner) (l : Bytes) (rest : List Bytes)
    (he : s.err = none) (hl : s.lines = l :: rest) (hre : s.readErr = none)
    (hlen : MaxScanTokenSize ≤ l.length) :
    s.nextmsg =
      .ok (false, { s with token := [], lines := [l.take MaxScanTokenSize],
                           readErr := some GoError.ErrTooLong }) := by
  have ht : taken none isBlank l = false := taken_long isBlank hlen
  have hf : fits s.readErr l = false := by rw [hre]; exact not_fits_of_length hlen
  have hd : s.lines.dropWhile (taken s.readErr isBlank) = l :: rest := by
    rw [hl, hre, List.dropWhile_cons, ht]
    rfl
  rw [nextmsg_eq s he, hd]
  rw [@Scan_long { s with lines := l :: rest } l rest rfl hf]

/-- What `mul` does when the line that follows the current one does not fit
the buffer. -/
theorem mul_long (s : scanner) (pfx : Bytes) (l : Bytes) (rest : List Bytes)
    (h : s.hasPrefix pfx = true) (hl : s.lines = l :: rest) (hre : s.readErr = none)
    (hlen : MaxScanTokenSize ≤ l.length) :
    s.mul pfx =
      .ok ([TrimSpace (s.token.drop pfx.length)],
        { s with token := [], lines := [l.take MaxScanTokenSize],
                 readErr := some GoError.ErrTooLong }) := by
  have ht : taken none (HasPrefix · pfx) l = false := taken_long _ hlen
  have hf : fits s.readErr l = false := by rw [hre]; exact not_fits_of_length hlen
  have hd : s.lines.dropWhile (taken s.readErr (HasPrefix · pfx)) = l :: rest := by
    rw [hl, hre, List.dropWhile_cons, ht]
    rfl
  have htw : s.lines.takeWhile (taken s.readErr (HasPrefix · pfx)) = [] := by
    rw [hl, hre, List.takeWhile_cons, ht]
    rfl
  rw [mul_eq s pfx, if_pos h, htw, @afterRun_long _ s _ _ l rest hd hf]
  rfl

theorem HasPrefix_replicate (n a : Nat) : HasPrefix (List.replicate (n + 1) a) [a] = true := by
  simp [HasPrefix, List.replicate_succ]

theorem HasPrefix_longLine : HasPrefix longLine (lit "a") = true := by
  have h : lit "a" = [0x61] := by decide
  have h1 : MaxScanTokenSize = MaxScanTokenSize - 1 + 1 :=
    (Nat.sub_add_cancel MaxScanTokenSize_pos).symm
  rw [h, longLine, h1]
  exact HasPrefix_replicate _ _

/-- A line that `dropCR` empties has one byte at most. -/
theorem length_of_dropCR_nil {l : Bytes} (h : dropCR l = []) : l.length ≤ 1 := by
  rcases dropCR_cases l with h1 | h1
  · rw [← h1, h]; simp
  · rw [h1, h]; simp

theorem dropCR_longLine_ne_nil : dropCR longLine ≠ [] := by
  intro h
  have h1 := length_of_dropCR_nil h
  have h2 : 1 < MaxScanTokenSize := by decide
  rw [longLine_length] at h1
  omega

/-- On a line with the prefix `spc` gives the fields of the trimmed text and
calls `Scan` once. -/
theorem spc_eq (s : scanner) (pfx : Bytes) (h : s.hasPrefix pfx = true) :
    s.spc pfx = .ok (Fields (s.token.drop pfx.length), s.Scan.2) := by
  simp only [scanner.spc, h, if_true, txt_eq h, List.nil_append, Fields_TrimSpace]

theorem lineAt_one {s : scanner} {l : Bytes} {ls : List Bytes} (h : s.lines = l :: ls) :
    lineAt s 1 = dropCR l := by
  simp [lineAt, h]

/-- A line that begins with a double quote does not start with a prefix that
begins with another byte. -/
theorem not_HasPrefix_of_isQuoted {l p : Bytes} (h : isQuoted l = true)
    (hp : isQuoted p = false) (hne : p ≠ []) : HasPrefix l p = false := by
  cases l with
  | nil => simp [isQuoted] at h
  | cons a t =>
    cases p with
    | nil => exact absurd rfl hne
    | cons b q =>
      simp only [isQuoted, List.head?_cons, Option.some.injEq, decide_eq_true_eq,
        decide_eq_false_iff_not] at h hp
      subst h
      simp only [HasPrefix, List.isPrefixOf, Bool.and_eq_false_imp, beq_iff_eq]
      intro h0
      exact absurd h0 hp

theorem dropCR_longQuoted_ne_nil : dropCR longQuoted ≠ [] := by
  intro h
  have h1 := length_of_dropCR_nil h
  have h2 : 1 < MaxScanTokenSize := by decide
  rw [longQuoted_length] at h1
  omega

/-! ### Inputs whose lines fit the buffer -/

theorem fits_some (e : GoError) (l : Bytes) : fits (some e) l = true := rfl

theorem afterRun_congr {p q : Bytes → Bool} {ls : List Bytes} (s : scanner) (e : Option GoError)
    (h : ∀ x ∈ ls, p x = q x) : afterRun p s ls e = afterRun q s ls e := by
  unfold afterRun
  rw [(takeWhile_agree h).2]

theorem afterRun_short {p : Bytes → Bool} {s : scanner} {ls : List Bytes} {e : Option GoError}
    {l : Bytes} {rest : List Bytes} (h : ls.dropWhile p = l :: rest)
    (hs : shortLines ls = true) :
    afterRun p s ls e = { s with token := dropCR l, lines := rest, err := e } := by
  have hmem : l ∈ ls := (List.dropWhile_suffix p).subset (h ▸ List.mem_cons_self _ _)
  exact afterRun_cons h (fits_of_shortLines _ hs hmem)

/-- On lines that fit the buffer the run `quo` reads is the run of lines whose
first byte is a double quote. -/
theorem quo_short (s : scanner) (pfx : Bytes) (h : s.hasPrefix pfx = true)
    (hs : shortLines s.lines = true) :
    s.quo pfx =
      .ok (decoded (TrimSpace (s.token.drop pfx.length)) ++
            (((s.lines.takeWhile isQuoted).map dropCR).map decoded).flatten,
          afterRun isQuoted s s.lines
            (stickyAfter s.err
              (TrimSpace (s.token.drop pfx.length) ::
                (s.lines.takeWhile isQuoted).map dropCR))) := by
  have hag : ∀ x ∈ s.lines, taken s.readErr isQuoted x = isQuoted x := fun x hx => by
    rw [taken_short s.readErr isQuoted hs x hx, isQuoted_dropCR]
  rw [quo_eq s pfx h, (takeWhile_agree hag).1, afterRun_congr s _ hag]

/-- On lines that fit the buffer `nextmsg` skips the run of blank lines and
reads one line more. -/
theorem nextmsg_short (s : scanner) (he : s.err = none) (hs : shortLines s.lines = true) :
    s.nextmsg = .ok (({ s with lines := s.lines.dropWhile isBlank } : scanner).Scan) := by
  have hag : ∀ x ∈ s.lines, taken s.readErr isBlank x = isBlank x := fun x hx => by
    rw [taken_short s.readErr isBlank hs x hx, isBlank_dropCR]
  rw [nextmsg_eq s he, (takeWhile_agree hag).2]

/-- On lines that fit the buffer the run `mul` reads is the run of lines that
start with the prefix once their carriage return is dropped. -/
theorem mul_short (s : scanner) (pfx : Bytes) (h : s.hasPrefix pfx = true)
    (hs : shortLines s.lines = true) :
    s.mul pfx =
      .ok (TrimSpace (s.token.drop pfx.length) ::
            (s.lines.takeWhile (fun l => HasPrefix (dropCR l) pfx)).map
              (fun l => TrimSpace ((dropCR l).drop pfx.length)),
          afterRun (fun l => HasPrefix (dropCR l) pfx) s s.lines s.err) := by
  have hag : ∀ x ∈ s.lines,
      taken s.readErr (HasPrefix · pfx) x = (fun l => HasPrefix (dropCR l) pfx) x :=
    fun x hx => taken_short s.readErr (HasPrefix · pfx) hs x hx
  rw [mul_eq s pfx, if_pos h, (takeWhile_agree hag).1, afterRun_congr s _ hag]

/-- The two outcomes of `nextmsg` on lines that fit the buffer: it stops at the
first line that is not blank, or every line is blank and the input is
exhausted. -/
theorem nextmsg_cases (s : scanner) (he : s.err = none) (hs : shortLines s.lines = true) :
    (∃ run l rest, s.lines = run ++ l :: rest ∧ (∀ x ∈ run, isBlank x = true) ∧
        isBlank l = false ∧
        s.nextmsg = .ok (true, { s with token := dropCR l, lines := rest })) ∨
      ((∀ x ∈ s.lines, isBlank x = true) ∧
        s.nextmsg = .ok (false, { s with token := [], lines := [] })) := by
  rcases run_split isBlank s.lines with ⟨run, l, rest, h1, h2, h3, _, h5⟩ | ⟨h1, _, h3⟩
  · refine Or.inl ⟨run, l, rest, h1, h2, h3, ?_⟩
    have hmem : l ∈ s.lines :=
      (List.dropWhile_suffix isBlank).subset (h5 ▸ List.mem_cons_self _ _)
    rw [nextmsg_short s he hs,
      @Scan_fits { s with lines := s.lines.dropWhile isBlank } l rest h5
        (fits_of_shortLines _ hs hmem)]
  · refine Or.inr ⟨h1, ?_⟩
    rw [nextmsg_short s he hs, @Scan_nil { s with lines := s.lines.dropWhile isBlank } h3]
    simp only [h3]

/-- The operation `quo` on a line that no quoted line follows: the decoded
text of that line alone, and one `Scan` further. -/
theorem quo_single (s : scanner) (pfx : Bytes) (h : s.hasPrefix pfx = true)
    (hnq : isQuoted (s.lines.headD []) = false) :
    s.quo pfx = .ok (decoded (TrimSpace (s.token.drop pfx.length)),
      ({ s with err := stickyAfter s.err [TrimSpace (s.token.drop pfx.length)] } : scanner).Scan.2)
    := by
  have h1 : s.lines.takeWhile (taken s.readErr isQuoted) = [] ∧
      s.lines.dropWhile (taken s.readErr isQuoted) = s.lines := by
    cases hl : s.lines with
    | nil => exact ⟨rfl, rfl⟩
    | cons b t =>
      rw [hl] at hnq
      have hb : taken s.readErr isQuoted b = false := by
        simp only [taken, isQuoted_dropCR]
        simp only [List.headD_cons] at hnq
        rw [hnq, Bool.and_false]
      rw [List.takeWhile_cons, List.dropWhile_cons, hb]
      exact ⟨rfl, rfl⟩
  rw [quo_eq s pfx h, h1.1]
  unfold afterRun
  rw [h1.2]
  simp only [List.map_nil, List.flatten_nil, List.append_nil]

/-! ### Inputs made of records -/

/-- A well-formed literal is not empty. -/
theorem wellFormedLit_ne_nil {q : Bytes} (hw : wellFormedLit q = true) : q ≠ [] := by
  intro h
  subst h
  revert hw
  decide

theorem hasPrefix_append (p q : Bytes) (hq : q ≠ []) (ls : List Bytes) (re : Option GoError)
    (hn : Bool) (e : Option GoError) :
    ({ token := dropCR (p ++ q), lines := ls, readErr := re, hasNext := hn,
       err := e } : scanner).hasPrefix p = true := by
  rw [dropCR_append p q hq]
  simp [scanner.hasPrefix, HasPrefix]

/-- The operation `quo` on a line made of the prefix and a well-formed literal
that no quoted line follows: the decoded literal, and one line further. -/
theorem quo_one_line (p q : Bytes) (ls : List Bytes) (re : Option GoError) (hn : Bool)
    (hw : wellFormedLit q = true)
    (hnq : ∀ b rest, ls = b :: rest → isQuoted b = false ∧ b.length < MaxScanTokenSize) :
    ({ token := dropCR (p ++ q), lines := ls, readErr := re, hasNext := hn,
       err := none } : scanner).quo p
      = .ok (decoded (TrimSpace q),
          { token := dropCR (ls.headD []), lines := ls.tail, readErr := re, hasNext := hn,
            err := none }) := by
  have hw1 : (Unquote (TrimSpace q)).2 = none := by simpa [wellFormedLit] using hw
  have hq : q ≠ [] := wellFormedLit_ne_nil hw
  have ht : (dropCR (p ++ q)).drop p.length = dropCR q := by
    rw [dropCR_append p q hq, List.drop_left]
  have hst : stickyAfter none [TrimSpace q] = none := by
    simp [stickyAfter, hw1]
  rw [quo_eq _ _ (hasPrefix_append p q hq ls re hn none)]
  simp only [ht, TrimSpace_dropCR]
  cases ls with
  | nil =>
    rw [@afterRun_nil _ _ [] _ rfl]
    simp only [List.takeWhile_nil, List.map_nil, List.flatten_nil, List.append_nil, hst,
      List.headD_nil, List.tail_nil]
    rfl
  | cons b rest =>
    obtain ⟨hb, hlen⟩ := hnq b rest rfl
    have htk : taken re isQuoted b = false := by
      simp only [taken, isQuoted_dropCR, hb, Bool.and_false]
    have hd : (b :: rest).dropWhile (taken re isQuoted) = b :: rest := by
      rw [List.dropWhile_cons, htk]
      rfl
    have htw : (b :: rest).takeWhile (taken re isQuoted) = [] := by
      rw [List.takeWhile_cons, htk]
      rfl
    rw [@afterRun_cons _ _ (b :: rest) _ b rest hd (fits_of_short _ hlen)]
    simp only [htw, List.map_nil, List.flatten_nil, List.append_nil, hst, List.headD_cons,
      List.tail_cons]

/-- A line `msgstr[n] ...` does not begin with a double quote. -/
theorem not_isQuoted_of_msgstrPrefix {l : Bytes} {n : Nat}
    (h : HasPrefix l (msgstrPrefix n) = true) : isQuoted l = false := by
  have hl : lit "msgstr[" = [109, 115, 103, 115, 116, 114, 91] := by decide
  unfold HasPrefix at h
  obtain ⟨t, rfl⟩ := List.isPrefixOf_iff_prefix.mp h
  simp [msgstrPrefix, hl, isQuoted]

/-- The loop of `msgstr` on the lines `msgstr[n] q`, `msgstr[n+1] q'`, ... with
well-formed literals, followed by the end of the input or by a blank line that
does not begin with a double quote: the decoded literals in order, the scanner
one line behind the last of them. -/
theorem msgstrLoop_plural (qs : List Bytes) : ∀ (q : Bytes) (r : List Bytes) (tail : List Bytes)
    (re : Option GoError) (hn : Bool) (f : Nat),
    wellFormedLit q = true → (∀ x ∈ qs, wellFormedLit x = true) →
    (∀ b rest, tail = b :: rest → isBlank b = true ∧ isQuoted b = false) →
    shortLines (pluralLines (r.length + 1) qs ++ tail) = true →
    (pluralLines (r.length + 1) qs ++ tail).length + 1 < f →
    scanner.msgstrLoop f
        { token := dropCR (msgstrPrefix r.length ++ q),
          lines := pluralLines (r.length + 1) qs ++ tail,
          readErr := re, hasNext := hn, err := none } r
      = .ok (r ++ (q :: qs).map (fun x => decoded (TrimSpace x)),
          { token := dropCR (tail.headD []), lines := tail.tail, readErr := re, hasNext := hn,
            err := none }) := by
  induction qs with
  | nil =>
    intro q r tail re hn f hw _ htail hs hf
    match f, hf with
    | f + 2, _ =>
      simp only [pluralLines, List.nil_append] at hs
      have hq := quo_one_line (msgstrPrefix r.length) q tail re hn hw
        (fun b rest h => ⟨(htail b rest h).2, by
          rw [h] at hs
          exact (shortLines_cons.mp hs).1⟩)
      have hstop : scanner.hasPrefix
          { token := dropCR (tail.headD []), lines := tail.tail, readErr := re, hasNext := hn,
            err := none }
          (msgstrPrefix (r ++ [decoded (TrimSpace q)]).length) = false := by
        cases tail with
        | nil =>
          have := msgstrPrefix_ne_nil (r ++ [decoded (TrimSpace q)]).length
          have hd : dropCR ([] : Bytes) = [] := rfl
          simp only [scanner.hasPrefix, HasPrefix, List.headD_nil, hd]
          cases hm : msgstrPrefix (r ++ [decoded (TrimSpace q)]).length with
          | nil => exact absurd hm this
          | cons a t => rfl
        | cons b rest =>
          have hb : isBlank (dropCR b) = true := by
            rw [isBlank_dropCR]
            exact (htail b rest rfl).1
          exact not_msgstrPrefix_of_isBlank _ hb
      simp only [pluralLines, List.nil_append] at hq ⊢
      simp only [scanner.msgstrLoop, hasPrefix_append _ _ (wellFormedLit_ne_nil hw),
        Bool.not_true, Bool.false_eq_true, if_false, hq, hstop, Bool.not_false, if_true]
      simp
  | cons q1 qs ih =>
    intro q r tail re hn f hw hall htail hs hf
    match f, hf with
    | f + 1, hf =>
      have hs1 : (msgstrPrefix (r.length + 1) ++ q1).length < MaxScanTokenSize ∧
          shortLines (pluralLines (r.length + 1 + 1) qs ++ tail) = true := by
        simp only [pluralLines, List.cons_append] at hs
        exact shortLines_cons.mp hs
      have hq1 : q1 ≠ [] := wellFormedLit_ne_nil (hall q1 (by simp))
      have hq := quo_one_line (msgstrPrefix r.length) q
        (pluralLines (r.length + 1) (q1 :: qs) ++ tail) re hn hw
        (by
          intro b rest h
          simp only [pluralLines, List.cons_append, List.cons.injEq] at h
          rw [← h.1]
          exact ⟨not_isQuoted_of_msgstrPrefix (n := r.length + 1) (by simp [HasPrefix]),
            hs1.1⟩)
      simp only [scanner.msgstrLoop, hasPrefix_append _ _ (wellFormedLit_ne_nil hw),
        Bool.not_true, Bool.false_eq_true, if_false, hq]
      have hlen : (r ++ [decoded (TrimSpace q)]).length = r.length + 1 := by simp
      have := ih q1 (r ++ [decoded (TrimSpace q)]) tail re hn f (hall q1 (by simp))
        (fun x hx => hall x (by simp [hx])) htail
        (by rw [hlen]; exact hs1.2)
        (by rw [hlen]; simp only [pluralLines, List.cons_append, List.length_cons] at hf; omega)
      rw [hlen] at this
      simp only [pluralLines, List.cons_append, List.headD_cons, List.tail_cons]
      rw [this]
      simp

/-- The operation `msgstr` on the msgstr section of a record with well-formed
literals, followed by the end of the input or by a blank line that does not
begin with a double quote: the decoded literals in order, the scanner one line
behind the section. -/
theorem msgstr_section (str : MsgStr) (tail : List Bytes) (re : Option GoError) (hn : Bool)
    (hw : str.texts.all wellFormedLit = true)
    (htail : ∀ b rest, tail = b :: rest → isBlank b = true ∧ isQuoted b = false)
    (hs : shortLines (str.lines.tail ++ tail) = true) :
    scanner.msgstr
        { token := dropCR (str.lines.headD []), lines := str.lines.tail ++ tail, readErr := re,
          hasNext := hn, err := none }
      = .ok (str.texts.map (fun x => decoded (TrimSpace x)),
          { token := dropCR (tail.headD []), lines := tail.tail, readErr := re, hasNext := hn,
            err := none }) := by
  cases str with
  | single q =>
    simp only [MsgStr.texts, List.all_cons, List.all_nil, Bool.and_true] at hw
    simp only [MsgStr.lines, List.tail_cons, List.nil_append] at hs
    have hq := quo_one_line (lit "msgstr ") q tail re hn hw
      (fun b rest h => ⟨(htail b rest h).2, by
        rw [h] at hs
        exact (shortLines_cons.mp hs).1⟩)
    simp only [MsgStr.lines, MsgStr.texts, List.headD_cons, List.tail_cons, List.nil_append,
      scanner.msgstr, hasPrefix_append _ _ (wellFormedLit_ne_nil hw), if_true, hq, List.map_cons,
      List.map_nil]
  | plural q0 qs =>
    simp only [MsgStr.texts, List.all_cons, Bool.and_eq_true, List.all_eq_true] at hw
    have hq0 : q0 ≠ [] := wellFormedLit_ne_nil hw.1
    have hno : scanner.hasPrefix
        { token := dropCR (msgstrPrefix 0 ++ q0), lines := pluralLines 1 qs ++ tail,
          readErr := re, hasNext := hn, err := none } (lit "msgstr ") = false := by
      rw [dropCR_append _ _ hq0]
      simp [scanner.hasPrefix, HasPrefix, msgstrPrefix_eq, lit_msgstr, List.isPrefixOf]
    have hl := msgstrLoop_plural qs q0 [] tail re hn ((pluralLines 1 qs ++ tail).length + 2)
      hw.1 hw.2 htail (by simpa [MsgStr.lines, pluralLines] using hs) (by simp)
    simp only [List.length_nil, Nat.zero_add, List.nil_append] at hl
    simp only [MsgStr.lines, MsgStr.texts, pluralLines, List.headD_cons, List.tail_cons,
      scanner.msgstr, hno, Bool.false_eq_true, if_false, Nat.zero_add]
    exact hl

theorem shortLines_subset {a b : List Bytes} (h : ∀ x ∈ a, x ∈ b) (hb : shortLines b = true) :
    shortLines a = true := by
  simp only [shortLines, List.all_eq_true, decide_eq_true_eq] at hb ⊢
  exact fun x hx => hb x (h x hx)

/-- The caller's loop on an input made of well-formed records separated by
blank lines, where no blank line directly behind a record begins with a double
quote and every line fits the buffer: the decoded records in order, the input
exhausted, no error. -/
theorem drive_layout (recs : List (Record × List Bytes)) : ∀ (lead : List Bytes) (tok : Bytes)
    (re : Option GoError) (hn : Bool),
    (∀ l ∈ lead, isBlank l = true) → (∀ p ∈ recs, p.1.wellFormed = true) →
    blankSeparated recs = true →
    (∀ p ∈ recs, ∀ b rest, p.2 = b :: rest → isQuoted b = false) →
    shortLines (lead ++ layout recs) = true →
    drive (recs.length + 1)
        { token := tok, lines := lead ++ layout recs, readErr := re, hasNext := hn, err := none }
      = .ok (recs.map (fun p => p.1.decoded),
          { token := [], lines := [], readErr := re, hasNext := hn, err := none }) := by
  induction recs with
  | nil =>
    intro lead tok re hn hlead _ _ _ hs
    have hd : List.dropWhile isBlank (lead ++ layout []) = [] := by
      rw [List.dropWhile_eq_nil_iff]
      simpa [layout] using hlead
    have hnm : scanner.nextmsg
        { token := tok, lines := lead ++ layout [], readErr := re, hasNext := hn, err := none }
        = .ok (false, { token := [], lines := [], readErr := re, hasNext := hn,
                        err := none }) := by
      rw [nextmsg_short _ rfl hs]
      simp only [hd]
      rfl
    rw [List.length_nil, drive, hnm]
    rfl
  | cons p rest ih =>
    intro lead tok re hn hlead hwf hsep hq hs
    obtain ⟨r, sep⟩ := p
    obtain ⟨id, str⟩ := r
    have hwf1 := hwf (⟨id, str⟩, sep) (by simp)
    simp only [Record.wellFormed, Bool.and_eq_true] at hwf1
    simp only [blankSeparated, Bool.and_eq_true, Bool.or_eq_true, Bool.not_eq_true',
      List.all_eq_true] at hsep
    obtain ⟨⟨hsepb, hne⟩, hsep'⟩ := hsep
    have hlay : lead ++ layout ((⟨id, str⟩, sep) :: rest)
        = lead ++ (lit "msgid " ++ id) :: (str.lines ++ (sep ++ layout rest)) := by
      simp only [layout, Record.lines, List.cons_append, List.append_assoc]
    have hstr : str.lines = str.lines.headD [] :: str.lines.tail := by
      cases str <;> simp [MsgStr.lines, pluralLines]
    rw [hlay] at hs
    have hs0 : (lit "msgid " ++ id).length < MaxScanTokenSize ∧
        shortLines (str.lines ++ (sep ++ layout rest)) = true :=
      shortLines_cons.mp (shortLines_append.mp hs).2
    have hs1 : (str.lines.headD []).length < MaxScanTokenSize ∧
        shortLines (str.lines.tail ++ (sep ++ layout rest)) = true := by
      have := hs0.2
      rw [hstr, List.cons_append] at this
      simpa using shortLines_cons.mp this
    have hs2 : shortLines (sep ++ layout rest) = true := (shortLines_append.mp hs1.2).2
    -- the lines behind the msgstr section
    have htail : ∀ b rest1, sep ++ layout rest = b :: rest1 →
        isBlank b = true ∧ isQuoted b = false := by
      intro b rest1 h
      cases sep with
      | nil =>
        rcases hne with h1 | h1
        · simp at h1
        · rw [List.isEmpty_iff] at h1
          subst h1
          simp [layout] at h
      | cons b1 sep1 =>
        simp only [List.cons_append, List.cons.injEq] at h
        rw [← h.1]
        exact ⟨hsepb b1 (by simp), hq (⟨id, str⟩, b1 :: sep1) (by simp) b1 sep1 rfl⟩
    -- nextmsg stops at the msgid line
    have hdrop : List.dropWhile isBlank (lead ++ layout ((⟨id, str⟩, sep) :: rest))
        = (lit "msgid " ++ id) :: (str.lines ++ (sep ++ layout rest)) := by
      rw [hlay]
      exact dropWhile_run isBlank lead _ _ hlead (isBlank_msgid id)
    have hnm : scanner.nextmsg
        { token := tok, lines := lead ++ layout ((⟨id, str⟩, sep) :: rest), readErr := re,
          hasNext := hn, err := none }
        = .ok (true, { token := dropCR (lit "msgid " ++ id),
                       lines := str.lines ++ (sep ++ layout rest), readErr := re,
                       hasNext := hn, err := none }) := by
      rw [nextmsg_short _ rfl (by rw [hlay]; exact hs)]
      simp only [hdrop]
      rw [@Scan_fits _ (lit "msgid " ++ id) (str.lines ++ (sep ++ layout rest)) rfl
        (fits_of_short _ hs0.1)]
    have hnotq : isQuoted (str.lines.headD []) = false := by
      cases str with
      | single q => simp [MsgStr.lines, isQuoted, lit_msgstr]
      | plural q0 qs =>
        simp only [MsgStr.lines, pluralLines, List.headD_cons]
        exact not_isQuoted_of_msgstrPrefix (n := 0) (by simp [HasPrefix])
    have hid := quo_one_line (lit "msgid ") id (str.lines ++ (sep ++ layout rest)) re hn hwf1.1
      (by
        intro b rest1 h
        rw [hstr] at h
        simp only [List.cons_append, List.cons.injEq] at h
        rw [← h.1]
        exact ⟨hnotq, hs1.1⟩)
    have hms := msgstr_section str (sep ++ layout rest) re hn hwf1.2 htail hs1.2
    have htl : (sep ++ layout rest).tail = sep.tail ++ layout rest := by
      cases sep with
      | nil =>
        rcases hne with h1 | h1
        · simp at h1
        · rw [List.isEmpty_iff] at h1
          subst h1
          simp [layout]
      | cons b1 sep1 => simp
    have hrest := ih (sep.tail) (dropCR ((sep ++ layout rest).headD [])) re hn
      (fun l hl => hsepb l (List.mem_of_mem_tail hl))
      (fun p hp => hwf p (by simp [hp])) hsep' (fun p hp => hq p (by simp [hp]))
      (by
        rw [← htl]
        exact shortLines_subset (fun x hx => List.mem_of_mem_tail hx) hs2)
    rw [← htl] at hrest
    have hh : (str.lines ++ (sep ++ layout rest)).headD [] = str.lines.headD [] := by
      rw [hstr]; simp
    have ht : (str.lines ++ (sep ++ layout rest)).tail = str.lines.tail ++ (sep ++ layout rest) := by
      rw [hstr]; simp
    rw [hh, ht] at hid
    simp only [List.length_cons]
    rw [drive]
    simp only [hnm, hid, hms, hrest, List.map_cons, Record.decoded]

/-- A text of ASCII white space is trimmed to nothing. -/
theorem TrimSpace_spaces (ws : Bytes) (h : ∀ w ∈ ws, asciiSpace w = true) : TrimSpace ws = [] := by
  have h1 : trimLeftLoop 0 ws = [] := by
    have := trimLeftLoop_ascii ws [] h
    rw [List.append_nil] at this
    rw [this]
    rfl
  unfold TrimSpace
  simp only [h1]
  rfl

theorem longBlank_length : longBlank.length = MaxScanTokenSize :=
  List.length_replicate _ _

theorem isBlank_longBlank : isBlank longBlank = true := by
  have h : TrimSpace longBlank = [] :=
    TrimSpace_spaces _ (fun w hw => by
      rw [longBlank] at hw
      rw [List.eq_of_mem_replicate hw]
      decide)
  simp only [isBlank, h, List.length_nil, Nat.zero_le, decide_True]

theorem isQuoted_replicate (n a : Nat) (h : a ≠ 0x22) :
    isQuoted (List.replicate n a) = false := by
  cases n with
  | zero => rfl
  | succ n => simp [isQuoted, List.replicate_succ, h]

theorem isQuoted_longBlank : isQuoted longBlank = false :=
  isQuoted_replicate _ _ (by decide)

theorem longSep_nextmsg :
    scanner.nextmsg (newScanner [lit "msgid \"one\"", lit "msgstr \"uno\"", longBlank,
        lit "msgid \"two\"", lit "msgstr \"dos\""] none)
      = .ok (true, { token := dropCR (lit "msgid " ++ lit "\"one\""),
                     lines := [lit "msgstr \"uno\"", longBlank, lit "msgid \"two\"",
                       lit "msgstr \"dos\""],
                     readErr := none, hasNext := true, err := none }) := by
  have hb : taken none isBlank (lit "msgid \"one\"") = false := by decide
  have hd : List.dropWhile (taken none isBlank) [lit "msgid \"one\"", lit "msgstr \"uno\"",
      longBlank, lit "msgid \"two\"", lit "msgstr \"dos\""]
      = lit "msgid \"one\"" :: [lit "msgstr \"uno\"", longBlank, lit "msgid \"two\"",
          lit "msgstr \"dos\""] := by
    rw [List.dropWhile_cons, hb]
    simp only [Bool.false_eq_true, if_false]
  have he : lit "msgid " ++ lit "\"one\"" = lit "msgid \"one\"" := by decide
  have hf : fits none (lit "msgid \"one\"") = true := fits_of_short _ (by decide)
  rw [nextmsg_eq _ rfl]
  simp only [newScanner, hd]
  rw [@Scan_fits
    { token := [], lines := lit "msgid \"one\"" :: [lit "msgstr \"uno\"", longBlank,
        lit "msgid \"two\"", lit "msgstr \"dos\""], readErr := none, hasNext := true,
      err := none }
    (lit "msgid \"one\"") [lit "msgstr \"uno\"", longBlank,
    lit "msgid \"two\"", lit "msgstr \"dos\""] rfl hf, he]

theorem longSep_quo :
    scanner.quo { token := dropCR (lit "msgid " ++ lit "\"one\""),
                  lines := [lit "msgstr \"uno\"", longBlank, lit "msgid \"two\"",
                    lit "msgstr \"dos\""],
                  readErr := none, hasNext := true, err := none } (lit "msgid ")
      = .ok (lit "one",
          { token := dropCR (lit "msgstr \"uno\""),
            lines := [longBlank, lit "msgid \"two\"", lit "msgstr \"dos\""],
            readErr := none, hasNext := true, err := none }) := by
  have h2 := quo_one_line (lit "msgid ") (lit "\"one\"")
    [lit "msgstr \"uno\"", longBlank, lit "msgid \"two\"", lit "msgstr \"dos\""] none true
    (by decide)
    (by
      intro b rest h
      simp only [List.cons.injEq] at h
      rw [← h.1]
      exact ⟨by decide, by decide⟩)
  have hv1 : decoded (TrimSpace (lit "\"one\"")) = lit "one" := by decide
  simp only [List.headD_cons, List.tail_cons, hv1] at h2
  exact h2

theorem longSep_msgstr :
    scanner.msgstr
      { token := dropCR (lit "msgstr \"uno\""),
        lines := [longBlank, lit "msgid \"two\"", lit "msgstr \"dos\""],
        readErr := none, hasNext := true, err := none }
      = .ok ([lit "uno"],
          { token := [], lines := [longBlank], readErr := some GoError.ErrTooLong,
            hasNext := true, err := none }) := by
  have hlen : MaxScanTokenSize ≤ longBlank.length := le_of_eq longBlank_length.symm
  have ht : dropCR (lit "msgstr \"uno\"") = lit "msgstr \"uno\"" := by decide
  rw [ht]
  have hp : scanner.hasPrefix
      { token := lit "msgstr \"uno\"",
        lines := [longBlank, lit "msgid \"two\"", lit "msgstr \"dos\""],
        readErr := none, hasNext := true, err := none } (lit "msgstr ") = true := by
    have : HasPrefix (lit "msgstr \"uno\"") (lit "msgstr ") = true := by decide
    exact this
  have hv : decoded (TrimSpace ((lit "msgstr \"uno\"").drop (lit "msgstr ").length))
      = lit "uno" := by decide
  have hst : stickyAfter none
      [TrimSpace ((lit "msgstr \"uno\"").drop (lit "msgstr ").length)] = none := by
    decide
  have hq := quo_long _ (lit "msgstr ") longBlank [lit "msgid \"two\"", lit "msgstr \"dos\""]
    hp rfl rfl hlen
  simp only [hv, hst, take_of_length longBlank_length] at hq
  simp only [scanner.msgstr, hp, if_true, hq]

theorem longSep_end :
    scanner.nextmsg
      { token := [], lines := [longBlank], readErr := some GoError.ErrTooLong, hasNext := true,
        err := none }
      = .ok (false, { token := [], lines := [], readErr := some GoError.ErrTooLong,
                      hasNext := true, err := none }) := by
  have hb : taken (some GoError.ErrTooLong) isBlank longBlank = true := by
    simp only [taken, fits_some, isBlank_dropCR, isBlank_longBlank, Bool.and_self]
  have hd : List.dropWhile (taken (some GoError.ErrTooLong) isBlank) [longBlank] = [] := by
    rw [List.dropWhile_cons, hb]
    simp only [if_true, List.dropWhile_nil]
  rw [nextmsg_eq _ rfl]
  simp only [hd]
  rfl

/-- One round of the caller's loop. -/
theorem drive_step (n : Nat) (s s1 s2 s3 s4 : scanner) (id : Bytes) (strs : List Bytes)
    (more : List (Bytes × List Bytes)) (h1 : s.nextmsg = .ok (true, s1))
    (h2 : s1.quo (lit "msgid ") = .ok (id, s2)) (h3 : s2.msgstr = .ok (strs, s3))
    (h4 : drive n s3 = .ok (more, s4)) :
    drive (n + 1) s = .ok ((id, strs) :: more, s4) := by
  rw [drive, h1]
  simp only [h2, h3, h4]

/-- The end of the caller's loop. -/
theorem drive_stop (n : Nat) (s s1 : scanner) (h : s.nextmsg = .ok (false, s1)) :
    drive (n + 1) s = .ok ([], s1) := by
  rw [drive, h]

/-- The caller's loop on two records separated by a line of 64 KiB spaces: the
`msgstr` of the first record runs into the long line, and the second record
is not read. -/
theorem drive_longSeparated :
    drive 3 (newScanner [lit "msgid \"one\"", lit "msgstr \"uno\"", longBlank,
        lit "msgid \"two\"", lit "msgstr \"dos\""] none)
      = .ok ([(lit "one", [lit "uno"])],
          { token := [], lines := [], readErr := some GoError.ErrTooLong, hasNext := true,
            err := none }) :=
  drive_step 2 _ _ _ _ _ _ _ _ longSep_nextmsg longSep_quo longSep_msgstr
    (drive_stop 1 _ _ longSep_end)

/-- The input `longSeparated` is made of two well-formed records separated by
one blank line that does not begin with a double quote. -/
theorem longSeparated_facts :
    (∀ p ∈ longSeparated, p.1.wellFormed = true) ∧
    blankSeparated longSeparated = true ∧
    (∀ p ∈ longSeparated, isQuoted (p.2.headD []) = false) ∧
    layout longSeparated
      = [lit "msgid \"one\"", lit "msgstr \"uno\"", longBlank, lit "msgid \"two\"",
          lit "msgstr \"dos\""] ∧
    longSeparated.length + 1 = 3 := by
  have w1 : Record.wellFormed { msgid := lit "\"one\"", str := .single (lit "\"uno\"") }
      = true := by decide
  have w2 : Record.wellFormed { msgid := lit "\"two\"", str := .single (lit "\"dos\"") }
      = true := by decide
  have e1 : lit "msgid " ++ lit "\"one\"" = lit "msgid \"one\"" := by decide
  have e2 : lit "msgstr " ++ lit "\"uno\"" = lit "msgstr \"uno\"" := by decide
  have e3 : lit "msgid " ++ lit "\"two\"" = lit "msgid \"two\"" := by decide
  have e4 : lit "msgstr " ++ lit "\"dos\"" = lit "msgstr \"dos\"" := by decide
  refine ⟨?_, ?_, ?_, ?_, rfl⟩
  · intro p hp
    simp only [longSeparated, List.mem_cons, List.mem_singleton, List.not_mem_nil,
      or_false] at hp
    rcases hp with h | h
    · rw [h]; exact w1
    · rw [h]; exact w2
  · simp only [longSeparated, blankSeparated, List.all_cons, List.all_nil, isBlank_longBlank,
      List.isEmpty_cons, List.isEmpty_nil, Bool.not_false, Bool.not_true, Bool.and_self,
      Bool.or_true, Bool.true_or, Bool.and_true]
  · intro p hp
    simp only [longSeparated, List.mem_cons, List.mem_singleton, List.not_mem_nil,
      or_false] at hp
    rcases hp with h | h
    · rw [h]; exact isQuoted_longBlank
    · rw [h]; rfl
  · simp only [longSeparated, layout, Record.lines, MsgStr.lines, List.cons_append,
      List.nil_append, List.append_nil, e1, e2, e3, e4]

/-! ### Two inputs read in step -/

theorem getD_drop (l : List Bytes) (n i : Nat) :
    (l.drop n).getD i [] = l.getD (n + i) [] := by
  induction l generalizing n with
  | nil => simp
  | cons a t ih =>
    cases n with
    | zero => simp
    | succ n =>
      rw [List.drop_succ_cons, ih]
      have : n + 1 + i = (n + i) + 1 := by omega
      rw [this, List.getD_cons_succ]

theorem getD_map_dropCR (l : List Bytes) (i : Nat) :
    (l.map dropCR).getD i [] = dropCR (l.getD i []) := by
  induction l generalizing i with
  | nil => simp; rfl
  | cons a t ih =>
    cases i with
    | zero => simp
    | succ i =>
      rw [List.map_cons, List.getD_cons_succ, List.getD_cons_succ]
      exact ih i

/-- The lines seen from a scanner that stands at index `j`. -/
theorem lineAt_atIndex {s s1 : scanner} {j : Nat} (h : atIndex s j s1) (i : Nat) :
    lineAt s1 i = lineAt s (j + i) := by
  obtain ⟨ht, hl⟩ := h
  cases i with
  | zero => simp [lineAt, ht]
  | succ i =>
    simp only [lineAt, List.getD_cons_succ, hl, getD_map_dropCR]
    rw [getD_drop]
    have : j + 1 + i = (j + i) + 1 := by omega
    rw [this, ← Nat.add_assoc, List.getD_cons_succ, List.getD_cons_succ, getD_map_dropCR]

theorem atIndex_zero (s : scanner) : atIndex s 0 s := by
  simp [atIndex, lineAt]

theorem atIndex_trans {s s1 s2 : scanner} {j1 j2 : Nat} (h1 : atIndex s j1 s1)
    (h2 : atIndex s1 j2 s2) : atIndex s (j1 + j2) s2 := by
  refine ⟨?_, ?_⟩
  · rw [h2.1, lineAt_atIndex h1]
  · rw [h2.2, h1.2]
    cases j2 with
    | zero => simp
    | succ j =>
      simp only [List.drop_succ_cons, List.drop_drop]

/-- The lines a scanner at an index of an input of short lines still has to
read are short. -/
theorem shortLines_atIndex {s s1 : scanner} {j : Nat} (h : atIndex s j s1)
    (hs : shortLines s.lines = true) : shortLines s1.lines = true := by
  rw [h.2, List.drop_succ_cons]
  exact shortLines_subset (fun x hx => List.mem_of_mem_drop hx) hs

/-- Where `afterRun` stands on lines that fit the buffer: behind the leading
run. -/
theorem afterRun_atIndex (p : Bytes → Bool) (s : scanner) (e : Option GoError)
    (hs : shortLines s.lines = true) :
    atIndex s ((s.lines.takeWhile p).length + 1) (afterRun p s s.lines e) ∧
      (afterRun p s s.lines e).readErr = s.readErr ∧
      (afterRun p s s.lines e).hasNext = s.hasNext := by
  rcases run_split p s.lines with ⟨run, l, rest, h1, h2, h3, h4, h5⟩ | ⟨h1, h2, h3⟩
  · rw [afterRun_short h5 hs, h4]
    refine ⟨⟨?_, ?_⟩, rfl, rfl⟩
    · simp only [lineAt, List.getD_cons_succ, getD_map_dropCR]
      rw [h1, List.getD_append_right _ _ _ _ (le_refl _)]
      simp
    · simp only [List.drop_succ_cons]
      rw [h1]
      simp
  · rw [afterRun_nil h3, h2]
    refine ⟨⟨?_, ?_⟩, rfl, rfl⟩
    · simp only [lineAt, List.getD_cons_succ, getD_map_dropCR]
      rw [List.getD_eq_default _ _ (le_refl _)]
      rfl
    · simp

/-- Two lists that agree on `p` position by position have leading runs of the
same length. -/
theorem takeWhile_length_agree (p : Bytes → Bool) : ∀ (l l' : List Bytes),
    l.length = l'.length → (∀ i, p (l.getD i []) = p (l'.getD i [])) →
    (l.takeWhile p).length = (l'.takeWhile p).length := by
  intro l
  induction l with
  | nil =>
    intro l' hl _
    cases l' with
    | nil => rfl
    | cons _ _ => simp at hl
  | cons a t ih =>
    intro l' hl h
    cases l' with
    | nil => simp at hl
    | cons a' t' =>
      have h0 := h 0
      simp only [List.getD_cons_zero] at h0
      have ht := ih t' (by simpa using hl) (fun i => by simpa using h (i + 1))
      by_cases ha : p a = true
      · simp [List.takeWhile_cons, ha, ← h0, ht]
      · have ha' : p a' = false := by rw [← h0]; simpa using ha
        simp [List.takeWhile_cons, ha, ha']

/-- Agreement is kept when both scanners move to the same index. -/
theorem agree_shift {ps : Bytes → Prop} {s s' s1 s1' : scanner} {j : Nat}
    (ha : agree ps s s') (h1 : atIndex s j s1) (h1' : atIndex s' j s1') : agree ps s1 s1' := by
  refine ⟨?_, ?_⟩
  · rw [h1.2, h1'.2]
    simp only [List.length_drop, List.length_cons]
    rw [ha.1]
  · intro i
    rw [lineAt_atIndex h1, lineAt_atIndex h1']
    exact ha.2 (j + i)

/-- The operation `quo` on two scanners that agree and whose lines fit the
buffer: both calls return and leave the scanners at the same index, still in
agreement. -/
theorem quo_lockstep {ps : Bytes → Prop} (s s' : scanner) (pfx : Bytes) (hps : ps pfx)
    (ha : agree ps s s') (hs : shortLines s.lines = true) (hs' : shortLines s'.lines = true) :
    ∃ v v' s1 s1' j, s.quo pfx = .ok (v, s1) ∧ s'.quo pfx = .ok (v', s1') ∧
      atIndex s j s1 ∧ atIndex s' j s1' ∧
      s1.readErr = s.readErr ∧ s1.hasNext = s.hasNext ∧
      s1'.readErr = s'.readErr ∧ s1'.hasNext = s'.hasNext := by
  have hp : s.hasPrefix pfx = s'.hasPrefix pfx := by
    have := (ha.2 0).2 pfx hps
    simpa [lineAt, scanner.hasPrefix] using this
  by_cases h : s.hasPrefix pfx = true
  · have h' : s'.hasPrefix pfx = true := by rw [← hp]; exact h
    have hk : (s.lines.takeWhile isQuoted).length = (s'.lines.takeWhile isQuoted).length := by
      refine takeWhile_length_agree isQuoted _ _ ha.1 ?_
      intro i
      have := (ha.2 (i + 1)).1
      simp only [lineAt, List.getD_cons_succ, getD_map_dropCR, isQuoted_dropCR] at this
      exact this
    obtain ⟨a1, a2, a3⟩ := afterRun_atIndex isQuoted s
      (stickyAfter s.err
        (TrimSpace (s.token.drop pfx.length) :: (s.lines.takeWhile isQuoted).map dropCR)) hs
    obtain ⟨b1, b2, b3⟩ := afterRun_atIndex isQuoted s'
      (stickyAfter s'.err
        (TrimSpace (s'.token.drop pfx.length) :: (s'.lines.takeWhile isQuoted).map dropCR)) hs'
    rw [← hk] at b1
    exact ⟨_, _, _, _, (s.lines.takeWhile isQuoted).length + 1, quo_short s pfx h hs,
      quo_short s' pfx h' hs', a1, b1, a2, a3, b2, b3⟩
  · simp only [Bool.not_eq_true] at h
    have h' : s'.hasPrefix pfx = false := by rw [← hp]; exact h
    exact ⟨[], [], s, s', 0, by simp [scanner.quo, h], by simp [scanner.quo, h'],
      atIndex_zero s, atIndex_zero s', rfl, rfl, rfl, rfl⟩

/-- The loop of `msgstr` on two scanners that agree and whose lines fit the
buffer: both runs return the same number of values and leave the scanners at
the same index. -/
theorem msgstrLoop_lockstep {ps : Bytes → Prop} (hps : ∀ n, ps (msgstrPrefix n)) :
    ∀ (f : Nat) (s s' : scanner) (r r' : List Bytes), r.length = r'.length → agree ps s s' →
    shortLines s.lines = true → shortLines s'.lines = true →
    remaining s < f → remaining s' < f →
    ∃ vs vs' s1 s1' j, scanner.msgstrLoop f s r = .ok (vs, s1) ∧
      scanner.msgstrLoop f s' r' = .ok (vs', s1') ∧ vs.length = vs'.length ∧
      atIndex s j s1 ∧ atIndex s' j s1' ∧
      s1.readErr = s.readErr ∧ s1.hasNext = s.hasNext ∧
      s1'.readErr = s'.readErr ∧ s1'.hasNext = s'.hasNext := by
  intro f
  induction f with
  | zero => intro s s' r r' _ _ _ _ hf; omega
  | succ f ih =>
    intro s s' r r' hr ha hs hs' hf hf'
    have hp : s.hasPrefix (msgstrPrefix r.length) = s'.hasPrefix (msgstrPrefix r'.length) := by
      rw [← hr]
      have := (ha.2 0).2 _ (hps r.length)
      simpa [lineAt, scanner.hasPrefix] using this
    by_cases h : s.hasPrefix (msgstrPrefix r.length) = true
    · have h' : s'.hasPrefix (msgstrPrefix r'.length) = true := by rw [← hp]; exact h
      obtain ⟨v, v', s1, s1', j, hq, hq', hj, hj', e1, e2, e3, e4⟩ :=
        quo_lockstep s s' (msgstrPrefix r.length) (hps _) ha hs hs'
      obtain ⟨_, _, hq2, hlt⟩ := quo_remaining s _ h (msgstrPrefix_ne_nil _)
      rw [hq] at hq2
      simp only [Except.ok.injEq, Prod.mk.injEq] at hq2
      rw [← hq2.2] at hlt
      rw [hr] at hq'
      obtain ⟨_, _, hq3, hlt'⟩ := quo_remaining s' _ h' (msgstrPrefix_ne_nil _)
      rw [hq'] at hq3
      simp only [Except.ok.injEq, Prod.mk.injEq] at hq3
      rw [← hq3.2] at hlt'
      obtain ⟨vs, vs', t1, t1', j2, hl, hl', hlen, hk, hk', g1, g2, g3, g4⟩ :=
        ih s1 s1' (r ++ [v]) (r' ++ [v']) (by simp [hr]) (agree_shift ha hj hj')
          (shortLines_atIndex hj hs) (shortLines_atIndex hj' hs') (by omega) (by omega)
      refine ⟨vs, vs', t1, t1', j + j2, ?_, ?_, hlen, atIndex_trans hj hk,
        atIndex_trans hj' hk', g1.trans e1, g2.trans e2, g3.trans e3, g4.trans e4⟩
      · simp only [scanner.msgstrLoop, h, Bool.not_true, Bool.false_eq_true, if_false, hq]
        exact hl
      · simp only [scanner.msgstrLoop, h', Bool.not_true, Bool.false_eq_true, if_false, hq']
        exact hl'
    · simp only [Bool.not_eq_true] at h
      have h' : s'.hasPrefix (msgstrPrefix r'.length) = false := by rw [← hp]; exact h
      exact ⟨r, r', s, s', 0, by simp [scanner.msgstrLoop, h],
        by simp [scanner.msgstrLoop, h'], hr, atIndex_zero s, atIndex_zero s', rfl, rfl, rfl,
        rfl⟩

/-! ### A literal of nearly 64 KiB -/

theorem written_replicate (n : Nat) :
    written (List.replicate n (Item.char 0x62)) = List.replicate n 0x62 := by
  induction n with
  | zero => rfl
  | succ n ih =>
    have h : EncodeRune 0x62 = [0x62] := by decide
    rw [List.replicate_succ, List.replicate_succ]
    simp only [written, List.flatMap_cons, Item.written, h, List.singleton_append] at ih ⊢
    rw [ih]

/-- The letter `b` again and again between two double quotes is a literal that
`strconv.Unquote` accepts. -/
theorem Unquote_replicate (n : Nat) :
    (Unquote (0x22 :: (List.replicate n 0x62 ++ [0x22]))).2 = none := by
  have h := Unquote_items (List.replicate n (Item.char 0x62)) (by
    intro i hi
    rw [List.eq_of_mem_replicate hi]
    decide)
  rw [written_replicate] at h
  rw [h]

theorem longLiteral_eq :
    longLiteral = 0x22 :: (List.replicate (MaxScanTokenSize - 102) 0x62 ++ [0x22]) := rfl

theorem Unquote_longLiteral : (Unquote longLiteral).2 = none := by
  rw [longLiteral_eq]
  exact Unquote_replicate _

theorem longLiteral_head : longLiteral.head? = some 0x22 := by
  rw [longLiteral_eq]
  rfl

theorem length_quoted_replicate (n a : Nat) :
    (0x22 :: (List.replicate n a ++ [0x22])).length = n + 2 := by
  simp

theorem longLiteral_length : longLiteral.length = MaxScanTokenSize - 100 := by
  have h : 102 ≤ MaxScanTokenSize := by decide
  rw [longLiteral_eq, length_quoted_replicate]
  omega

theorem paddedLiteral_length : paddedLiteral.length = MaxScanTokenSize := by
  have h : 102 ≤ MaxScanTokenSize := by decide
  rw [paddedLiteral, List.length_append, longLiteral_length, List.length_replicate]
  omega

/-- The operation `quo` on a line made of the prefix and a well-formed
double-quoted literal, followed by a line that does not fit the buffer: the
decoded literal, no sticky error, and the scanner stopped by `ErrTooLong`. -/
theorem quo_long_continuation (pfx q L : Bytes) (rest : List Bytes)
    (hq : (Unquote q).2 = none) (h0 : q.head? = some 0x22)
    (hL : MaxScanTokenSize ≤ L.length) :
    (atBytes (pfx ++ q) (L :: rest)).quo pfx
      = .ok ((Unquote q).1,
          { token := [], lines := [L.take MaxScanTokenSize],
            readErr := some GoError.ErrTooLong, hasNext := true, err := none }) := by
  obtain ⟨mid, hmid⟩ := accepted_shape q hq h0
  have hTq : TrimSpace q = q := by
    have := TrimSpace_quoted [] [] mid (by simp) (by simp)
    simp only [List.nil_append, List.append_nil] at this
    rw [hmid]
    exact this
  have hp : (atBytes (pfx ++ q) (L :: rest)).hasPrefix pfx = true := by
    simp [atBytes, scanner.hasPrefix, HasPrefix]
  have hd : (atBytes (pfx ++ q) (L :: rest)).token.drop pfx.length = q := by
    simp [atBytes]
  have hs : stickyAfter none [q] = none := by
    simp [stickyAfter, hq]
  rw [quo_long _ pfx L rest hp rfl rfl hL, hd, hTq, ← Unquote_fst]
  simp only [atBytes, hs]

/-! ## The properties -/

/-- C1, as amended: when the current line starts with the prefix and the lines
still to be read are shorter than 64 KiB, `quo` returns the plain
concatenation, in input order, of the decoded value of the trimmed remainder
of the current line and of the decoded values of the following lines of the
maximal run of lines whose first byte is a double quote, each as `Scan`
delivers it; a piece that does not decode contributes the empty string (see
`decoded`).  The trimmed remainder `t` is what `TrimSpace` gives, and it is
the remainder without the encoded white-space runes at its two ends: it
neither begins nor ends with one. -/
theorem quo_value (s : scanner) (pfx : Bytes) (h : s.hasPrefix pfx = true)
    (hs : shortLines s.lines = true) :
    ∃ (pre post : List Nat) (t : Bytes),
      (∀ r ∈ pre, IsSpace r = true) ∧ (∀ r ∈ post, IsSpace r = true) ∧
      s.token.drop pfx.length
        = (pre.map EncodeRune).flatten ++ t ++ (post.map EncodeRune).flatten ∧
      (∀ r, IsSpace r = true → ¬ EncodeRune r <+: t) ∧
      (∀ r, IsSpace r = true → ¬ EncodeRune r <:+ t) ∧
      t = TrimSpace (s.token.drop pfx.length) ∧
      (s.quo pfx).map Prod.fst =
        .ok (decoded t ++ (((s.lines.takeWhile isQuoted).map dropCR).map decoded).flatten) := by
  obtain ⟨pre, post, h1, h2, h3, h4, h5⟩ := TrimSpace_spec (s.token.drop pfx.length)
  refine ⟨pre, post, _, h1, h2, h3, h4, h5, rfl, ?_⟩
  rw [quo_short s pfx h hs]
  rfl

/-- C1, on the lines `msgid ""`, `"foo"`, `"bar"`: the value is `foobar`; and
on the lines `msgid`, three spaces, `"fo"`, a space and a tab, then `"o"` and
`"bar"`: the white space around the first literal is trimmed and the value is
`foobar` again. -/
theorem quo_value_witness :
    (atLine "msgid   \"fo\" \t" ["\"o\"", "\"bar\"", "x"]).hasPrefix (lit "msgid ") = true ∧
    shortLines (atLine "msgid   \"fo\" \t" ["\"o\"", "\"bar\"", "x"]).lines = true ∧
    (∃ (pre post : List Nat) (t : Bytes),
      (∀ r ∈ pre, IsSpace r = true) ∧ (∀ r ∈ post, IsSpace r = true) ∧
      (atLine "msgid   \"fo\" \t" ["\"o\"", "\"bar\"", "x"]).token.drop (lit "msgid ").length
        = (pre.map EncodeRune).flatten ++ t ++ (post.map EncodeRune).flatten ∧
      (∀ r, IsSpace r = true → ¬ EncodeRune r <+: t) ∧
      (∀ r, IsSpace r = true → ¬ EncodeRune r <:+ t) ∧
      t = TrimSpace ((atLine "msgid   \"fo\" \t" ["\"o\"", "\"bar\"", "x"]).token.drop
        (lit "msgid ").length) ∧
      ((atLine "msgid   \"fo\" \t" ["\"o\"", "\"bar\"", "x"]).quo (lit "msgid ")).map Prod.fst =
        .ok (decoded t ++
          ((((atLine "msgid   \"fo\" \t" ["\"o\"", "\"bar\"", "x"]).lines.takeWhile
            isQuoted).map dropCR).map decoded).flatten)) ∧
    TrimSpace ((atLine "msgid   \"fo\" \t" ["\"o\"", "\"bar\"", "x"]).token.drop
        (lit "msgid ").length) = lit "\"fo\"" ∧
    (atLine "msgid   \"fo\" \t" ["\"o\"", "\"bar\"", "x"]).quo (lit "msgid ")
      = .ok (lit "foobar", atLine "x" []) ∧
    ((atLine "msgid \"\"" ["\"foo\"", "\"bar\""]).quo (lit "msgid ")).map Prod.fst
      = .ok (lit "foobar") :=
  ⟨by decide, by decide, quo_value _ _ (by decide) (by decide), by decide, by decide, by decide⟩

/-- C1 as stated fails: on the lines `msgid "a"`, a line of 64 KiB that
begins with a double quote, and `"c"`, both following lines belong to the run
of lines whose first byte is a double quote, but the second line does not fit
the buffer of the `bufio.Scanner`: `Scan` fails, `quo` returns `a` alone, and
the value of `"c"` is missing. -/
theorem quo_value_counterexample :
    (atBytes (lit "msgid \"a\"") [longQuoted, lit "\"c\""]).hasPrefix (lit "msgid ") = true ∧
    (atBytes (lit "msgid \"a\"") [longQuoted, lit "\"c\""]).lines.takeWhile isQuoted
      = [longQuoted, lit "\"c\""] ∧
    (atBytes (lit "msgid \"a\"") [longQuoted, lit "\"c\""]).quo (lit "msgid ")
      = .ok (lit "a",
          { token := [], lines := [longQuoted], readErr := some GoError.ErrTooLong,
            hasNext := true, err := none }) ∧
    ((atBytes (lit "msgid \"a\"") [longQuoted, lit "\"c\""]).quo (lit "msgid ")).map Prod.fst
      ≠ .ok (decoded (TrimSpace ((atBytes (lit "msgid \"a\"")
              [longQuoted, lit "\"c\""]).token.drop (lit "msgid ").length)) ++
          ((((atBytes (lit "msgid \"a\"") [longQuoted, lit "\"c\""]).lines.takeWhile
            isQuoted).map dropCR).map decoded).flatten) := by
  have hp : (atBytes (lit "msgid \"a\"") [longQuoted, lit "\"c\""]).hasPrefix (lit "msgid ")
      = true := by decide
  have hrun : (atBytes (lit "msgid \"a\"") [longQuoted, lit "\"c\""]).lines.takeWhile isQuoted
      = [longQuoted, lit "\"c\""] := by
    have hc : isQuoted (lit "\"c\"") = true := by decide
    simp [atBytes, List.takeWhile_cons, isQuoted_longQuoted, hc]
  have hq : (atBytes (lit "msgid \"a\"") [longQuoted, lit "\"c\""]).quo (lit "msgid ")
      = .ok (lit "a",
          { token := [], lines := [longQuoted], readErr := some GoError.ErrTooLong,
            hasNext := true, err := none }) := by
    have hv : decoded (TrimSpace ((lit "msgid \"a\"").drop (lit "msgid ").length)) = lit "a" := by
      decide
    have he : stickyAfter none [TrimSpace ((lit "msgid \"a\"").drop (lit "msgid ").length)]
        = none := by
      decide
    rw [quo_long _ _ longQuoted [lit "\"c\""] hp rfl rfl (le_of_eq longQuoted_length.symm),
      take_of_length longQuoted_length]
    simp only [atBytes, hv, he]
  refine ⟨hp, hrun, hq, ?_⟩
  rw [hq, hrun]
  intro hc
  simp only [Except.map, Except.ok.injEq] at hc
  have := congrArg List.length hc
  have h1 : (lit "a").length = 1 := by decide
  have h2 : (decoded (TrimSpace ((atBytes (lit "msgid \"a\"")
      [longQuoted, lit "\"c\""]).token.drop (lit "msgid ").length))).length = 1 := by
    show (decoded (TrimSpace ((lit "msgid \"a\"").drop (lit "msgid ").length))).length = 1
    decide
  have h3 : (decoded (dropCR (lit "\"c\""))).length = 1 := by decide
  simp only [List.map_cons, List.map_nil, List.flatten_cons, List.flatten_nil, List.append_nil,
    List.length_append, h1, h2, h3] at this
  omega

/-- C2, as amended: when the current line starts with the prefix and the lines
still to be read are shorter than 64 KiB, `quo` returns, and afterwards
either the current line is the first line after the starting one that does
not begin with a double quote (as `Scan` delivers it), with exactly the lines
behind it still to be read, or every following line began with a double quote
and the input is exhausted. -/
theorem quo_position (s : scanner) (pfx : Bytes) (h : s.hasPrefix pfx = true)
    (hs : shortLines s.lines = true) :
    ∃ v s1, s.quo pfx = .ok (v, s1) ∧ s1.readErr = s.readErr ∧ s1.hasNext = s.hasNext ∧
      ((∃ run l rest, s.lines = run ++ l :: rest ∧ (∀ x ∈ run, isQuoted x = true) ∧
          isQuoted l = false ∧ s1.token = dropCR l ∧ s1.lines = rest) ∨
        ((∀ x ∈ s.lines, isQuoted x = true) ∧ s1.token = [] ∧ s1.lines = [])) := by
  refine ⟨_, _, quo_short s pfx h hs, ?_⟩
  rcases run_split isQuoted s.lines with ⟨run, l, rest, h1, h2, h3, _, h5⟩ | ⟨h1, _, h3⟩
  · rw [afterRun_short h5 hs]
    exact ⟨rfl, rfl, Or.inl ⟨run, l, rest, h1, h2, h3, rfl, rfl⟩⟩
  · rw [afterRun_nil h3]
    exact ⟨rfl, rfl, Or.inr ⟨h1, rfl, rfl⟩⟩

/-- C2, on the lines `msgid ""`, `"foo"`, `"bar"`, `msgstr "x"`, `next`: the
scanner stops at `msgstr "x"` and `next` is still to be read. -/
theorem quo_position_witness :
    (atLine "msgid \"\"" ["\"foo\"", "\"bar\"", "msgstr \"x\"", "next"]).hasPrefix
      (lit "msgid ") = true ∧
    shortLines (atLine "msgid \"\"" ["\"foo\"", "\"bar\"", "msgstr \"x\"", "next"]).lines
      = true ∧
    (∃ v s1,
      (atLine "msgid \"\"" ["\"foo\"", "\"bar\"", "msgstr \"x\"", "next"]).quo (lit "msgid ")
        = .ok (v, s1) ∧
      s1.readErr
        = (atLine "msgid \"\"" ["\"foo\"", "\"bar\"", "msgstr \"x\"", "next"]).readErr ∧
      s1.hasNext
        = (atLine "msgid \"\"" ["\"foo\"", "\"bar\"", "msgstr \"x\"", "next"]).hasNext ∧
      ((∃ run l rest,
          (atLine "msgid \"\"" ["\"foo\"", "\"bar\"", "msgstr \"x\"", "next"]).lines
            = run ++ l :: rest ∧
          (∀ x ∈ run, isQuoted x = true) ∧ isQuoted l = false ∧ s1.token = dropCR l ∧
          s1.lines = rest) ∨
        ((∀ x ∈ (atLine "msgid \"\"" ["\"foo\"", "\"bar\"", "msgstr \"x\"", "next"]).lines,
            isQuoted x = true) ∧ s1.token = [] ∧ s1.lines = []))) ∧
    (atLine "msgid \"\"" ["\"foo\"", "\"bar\"", "msgstr \"x\"", "next"]).quo (lit "msgid ")
      = .ok (lit "foobar", atLine "msgstr \"x\"" ["next"]) :=
  ⟨by decide, by decide, quo_position _ _ (by decide) (by decide), by decide⟩

/-- C2 as stated fails: on the lines `msgid "a"`, a line of 64 KiB that
begins with a double quote, and `msgstr "x"`, the first line after the
starting one that does not begin with a double quote is `msgstr "x"`; after
`quo` the current line is empty, not that line, and the input is not
exhausted: the next `Scan` returns true and delivers the long line. -/
theorem quo_position_counterexample :
    (atBytes (lit "msgid \"a\"") [longQuoted, lit "msgstr \"x\""]).hasPrefix (lit "msgid ")
      = true ∧
    (atBytes (lit "msgid \"a\"") [longQuoted, lit "msgstr \"x\""]).lines
      = [longQuoted] ++ lit "msgstr \"x\"" :: [] ∧
    isQuoted longQuoted = true ∧ isQuoted (lit "msgstr \"x\"") = false ∧
    (atBytes (lit "msgid \"a\"") [longQuoted, lit "msgstr \"x\""]).quo (lit "msgid ")
      = .ok (lit "a",
          { token := [], lines := [longQuoted], readErr := some GoError.ErrTooLong,
            hasNext := true, err := none }) ∧
    ({ token := [], lines := [longQuoted], readErr := some GoError.ErrTooLong,
       hasNext := true, err := none } : scanner).Scan
      = (true, { token := dropCR longQuoted, lines := [],
                 readErr := some GoError.ErrTooLong, hasNext := true, err := none }) := by
  have hp : (atBytes (lit "msgid \"a\"") [longQuoted, lit "msgstr \"x\""]).hasPrefix
      (lit "msgid ") = true := by decide
  refine ⟨hp, rfl, isQuoted_longQuoted, by decide, ?_, ?_⟩
  · have hv : decoded (TrimSpace ((lit "msgid \"a\"").drop (lit "msgid ").length)) = lit "a" := by
      decide
    have he : stickyAfter none [TrimSpace ((lit "msgid \"a\"").drop (lit "msgid ").length)]
        = none := by
      decide
    rw [quo_long _ _ longQuoted [lit "msgstr \"x\""] hp rfl rfl
      (le_of_eq longQuoted_length.symm), take_of_length longQuoted_length]
    simp only [atBytes, hv, he]
  · rw [@Scan_fits _ longQuoted [] rfl (fits_some _ _)]

/-- C3: when the current line does not start with `msgstr `, `msgstr` returns
exactly the values of `quo` on the prefixes `msgstr[0] `, `msgstr[1] `, ...,
`msgstr[k-1] `, each called where the one before it stopped, `k` being the
first index whose prefix does not match the line current at that point; the
scanner is left where the last of these calls stopped.  The prefix of index
`i` is `msgstr[`, the decimal notation of `i`, and `] `. -/
theorem msgstr_plural (s : scanner) (h : s.hasPrefix (lit "msgstr ") = false) :
    (∀ i, ∃ ds, msgstrPrefix i = lit "msgstr[" ++ ds ++ lit "] " ∧ isDecimal ds = true ∧
      decimalValue ds = i) ∧
    ∃ (k : Nat) (st : Nat → scanner) (v : Nat → Bytes), st 0 = s ∧
      (∀ i, i < k → (st i).hasPrefix (msgstrPrefix i) = true ∧
        (st i).quo (msgstrPrefix i) = .ok (v i, st (i + 1))) ∧
      (st k).hasPrefix (msgstrPrefix k) = false ∧
      s.msgstr = .ok ((List.range k).map v, st k) := by
  refine ⟨fun i => ⟨Itoa i, rfl, (Itoa_spec i).1, (Itoa_spec i).2⟩, ?_⟩
  obtain ⟨k, st, v, h0, hstep, hstop⟩ := chain_exists (remaining s) s 0 (Nat.le_refl _)
  simp only [Nat.zero_add] at hstep hstop
  refine ⟨k, st, v, h0, hstep, hstop, ?_⟩
  have hA := msgstrLoop_chain k st v [] (s.lines.length + 2)
    (by rw [h0]; unfold remaining; split <;> omega)
    (by simpa using hstep) (by simpa using hstop)
  simp only [scanner.msgstr, h, Bool.false_eq_true, if_false]
  rw [h0] at hA
  rw [hA]
  simp

/-- C3, on the lines `msgstr[0] "a"`, `msgstr[2] "c"`: the result is `["a"]`
and the line `msgstr[2] "c"` is left as the current line; on the lines
`msgstr[0] "a"`, `msgstr[1] "b"`, `msgstr[3] "d"`, `msgstr[2] "c"`: the result
is `["a", "b"]` and the line `msgstr[3] "d"` is left as the current line; the
prefixes of the indices 1 and 12 are `msgstr[1] ` and `msgstr[12] `. -/
theorem msgstr_plural_witness :
    (atLine "msgstr[0] \"a\"" ["msgstr[2] \"c\""]).hasPrefix (lit "msgstr ") = false ∧
    ((∀ i, ∃ ds, msgstrPrefix i = lit "msgstr[" ++ ds ++ lit "] " ∧ isDecimal ds = true ∧
      decimalValue ds = i) ∧
    ∃ (k : Nat) (st : Nat → scanner) (v : Nat → Bytes),
      st 0 = atLine "msgstr[0] \"a\"" ["msgstr[2] \"c\""] ∧
      (∀ i, i < k → (st i).hasPrefix (msgstrPrefix i) = true ∧
        (st i).quo (msgstrPrefix i) = .ok (v i, st (i + 1))) ∧
      (st k).hasPrefix (msgstrPrefix k) = false ∧
      (atLine "msgstr[0] \"a\"" ["msgstr[2] \"c\""]).msgstr
        = .ok ((List.range k).map v, st k)) ∧
    (atLine "msgstr[0] \"a\"" ["msgstr[2] \"c\""]).msgstr
      = .ok ([lit "a"], atLine "msgstr[2] \"c\"" []) ∧
    (atLine "msgstr[0] \"a\"" ["msgstr[1] \"b\"", "msgstr[3] \"d\"", "msgstr[2] \"c\""]).msgstr
      = .ok ([lit "a", lit "b"], atLine "msgstr[3] \"d\"" ["msgstr[2] \"c\""]) ∧
    msgstrPrefix 1 = lit "msgstr[1] " ∧ msgstrPrefix 12 = lit "msgstr[12] " :=
  ⟨by decide, msgstr_plural _ (by decide), by decide, by decide, by decide, by decide⟩

/-- C4: when the current line starts with `msgstr ` (trailing space
included), `msgstr` returns the one-element sequence of what `quo("msgstr ")`
returns from the same state and leaves the scanner where that call leaves it;
an indexed `msgstr[n] ` line that follows the literal is not read: when the
lines up to it fit the buffer of the scanner (see `fits`), it is left as the
current line. -/
theorem msgstr_single (s : scanner) (h : s.hasPrefix (lit "msgstr ") = true) :
    ∃ v s1, s.quo (lit "msgstr ") = .ok (v, s1) ∧ s.msgstr = .ok ([v], s1) ∧
      ∀ run l rest n, s.lines = run ++ l :: rest → (∀ x ∈ run, isQuoted x = true) →
        HasPrefix l (msgstrPrefix n) = true → (∀ x ∈ run ++ [l], fits s.readErr x = true) →
        s1.token = dropCR l ∧ s1.lines = rest := by
  refine ⟨_, _, quo_eq s _ h, ?_, ?_⟩
  · simp [scanner.msgstr, h, quo_eq s _ h]
  · intro run l rest n hl hrun hn hs
    have hq : isQuoted l = false := not_isQuoted_of_msgstrPrefix hn
    have ht1 : ∀ x ∈ run, taken s.readErr isQuoted x = true := fun x hx => by
      simp only [taken, isQuoted_dropCR, hrun x hx, hs x (List.mem_append_left _ hx),
        Bool.and_self]
    have ht2 : taken s.readErr isQuoted l = false := by
      simp only [taken, isQuoted_dropCR, hq, Bool.and_false]
    have hd := dropWhile_run (taken s.readErr isQuoted) run l rest ht1 ht2
    rw [← hl] at hd
    rw [afterRun_cons hd (hs l (by simp))]
    exact ⟨rfl, rfl⟩

/-- C4, on the lines `msgstr "a"`, `"b"`, `msgstr[0] "c"`: the result is
`["ab"]` and the indexed line is left as the current line. -/
theorem msgstr_single_witness :
    (atLine "msgstr \"a\"" ["\"b\"", "msgstr[0] \"c\""]).hasPrefix (lit "msgstr ") = true ∧
    (∃ v s1,
      (atLine "msgstr \"a\"" ["\"b\"", "msgstr[0] \"c\""]).quo (lit "msgstr ") = .ok (v, s1) ∧
      (atLine "msgstr \"a\"" ["\"b\"", "msgstr[0] \"c\""]).msgstr = .ok ([v], s1) ∧
      ∀ run l rest n,
        (atLine "msgstr \"a\"" ["\"b\"", "msgstr[0] \"c\""]).lines = run ++ l :: rest →
        (∀ x ∈ run, isQuoted x = true) →
        HasPrefix l (msgstrPrefix n) = true →
        (∀ x ∈ run ++ [l], fits (atLine "msgstr \"a\"" ["\"b\"", "msgstr[0] \"c\""]).readErr x
          = true) →
        s1.token = dropCR l ∧ s1.lines = rest) ∧
    (atLine "msgstr \"a\"" ["\"b\"", "msgstr[0] \"c\""]).msgstr
      = .ok ([lit "ab"], atLine "msgstr[0] \"c\"" []) :=
  ⟨by decide, msgstr_single _ (by decide), by decide⟩

/-- C5, as amended: without a sticky error and with lines still to be read
that are shorter than 64 KiB, `nextmsg` returns, and its result depends only on
the lines after the current one: it is `true` exactly when one of them has
more than one byte left after trimming; the current line is then the first
such line (as `Scan` delivers it) and every line skipped before it has at
most one byte left after trimming; otherwise the result is `false` and the
input is exhausted.  In particular any number of blank lines followed by a
line that is not blank gives `true` with that line as the current line. -/
theorem nextmsg_spec (s : scanner) (he : s.err = none) (hs : shortLines s.lines = true) :
    ∃ b s1, s.nextmsg = .ok (b, s1) ∧
      s1.err = none ∧ s1.readErr = s.readErr ∧ s1.hasNext = s.hasNext ∧
      (b = true ↔ ∃ l ∈ s.lines, 1 < (TrimSpace l).length) ∧
      (b = true → ∃ pre l post, s.lines = pre ++ l :: post ∧
        (∀ x ∈ pre, (TrimSpace x).length ≤ 1) ∧ 1 < (TrimSpace l).length ∧
        s1.token = dropCR l ∧ s1.lines = post) ∧
      (b = false → s1.token = [] ∧ s1.lines = []) ∧
      (∀ blanks real rest, s.lines = blanks ++ real :: rest →
        (∀ x ∈ blanks, (TrimSpace x).length ≤ 1) → 1 < (TrimSpace real).length →
        b = true ∧ s1.token = dropCR real ∧ s1.lines = rest) := by
  have hblank : ∀ x, isBlank x = true ↔ (TrimSpace x).length ≤ 1 := fun x => by
    simp [isBlank]
  have hnot : ∀ x, isBlank x = false ↔ 1 < (TrimSpace x).length := fun x => by
    simp [isBlank]
  rcases nextmsg_cases s he hs with ⟨run, l, rest, h1, h2, h3, h4⟩ | ⟨h1, h4⟩
  · refine ⟨_, _, h4, he, rfl, rfl, ?_, ?_, ?_, ?_⟩
    · simp only [true_iff]
      exact ⟨l, by simp [h1], (hnot l).mp h3⟩
    · intro _
      exact ⟨run, l, rest, h1, fun x hx => (hblank x).mp (h2 x hx), (hnot l).mp h3, rfl, rfl⟩
    · intro h
      cases h
    · intro blanks real rest1 hl hb hr
      have hd := dropWhile_run isBlank blanks real rest1
        (fun x hx => (hblank x).mpr (hb x hx)) ((hnot real).mpr hr)
      have hd2 := dropWhile_run isBlank run l rest h2 h3
      rw [← hl, h1, hd2] at hd
      injection hd with e1 e2
      subst e1; subst e2
      exact ⟨rfl, rfl, rfl⟩
  · refine ⟨_, _, h4, he, rfl, rfl, ?_, ?_, ?_, ?_⟩
    · simp only [Bool.false_eq_true, false_iff, not_exists, not_and]
      intro x hx
      have := (hblank x).mp (h1 x hx)
      omega
    · intro h
      cases h
    · intro _
      exact ⟨rfl, rfl⟩
    · intro blanks real rest1 hl hb hr
      have : isBlank real = true := h1 real (by rw [hl]; simp)
      rw [(hnot real).mpr hr] at this
      cases this

/-- C5, on three blank lines (empty, white space, a lone `#`) followed by a
record: the result is `true` and the current line is the `msgid` line, whatever
the line that was current before. -/
theorem nextmsg_spec_witness :
    (atLine "msgstr \"old\"" ["", "  \t", "#", "msgid \"a\"", "msgstr \"b\""]).err = none ∧
    shortLines (atLine "msgstr \"old\"" ["", "  \t", "#", "msgid \"a\"", "msgstr \"b\""]).lines
      = true ∧
    (∃ b s1,
      (atLine "msgstr \"old\"" ["", "  \t", "#", "msgid \"a\"", "msgstr \"b\""]).nextmsg
        = .ok (b, s1) ∧
      s1.err = none ∧
      s1.readErr
        = (atLine "msgstr \"old\"" ["", "  \t", "#", "msgid \"a\"", "msgstr \"b\""]).readErr ∧
      s1.hasNext
        = (atLine "msgstr \"old\"" ["", "  \t", "#", "msgid \"a\"", "msgstr \"b\""]).hasNext ∧
      (b = true ↔
        ∃ l ∈ (atLine "msgstr \"old\"" ["", "  \t", "#", "msgid \"a\"", "msgstr \"b\""]).lines,
          1 < (TrimSpace l).length) ∧
      (b = true → ∃ pre l post,
        (atLine "msgstr \"old\"" ["", "  \t", "#", "msgid \"a\"", "msgstr \"b\""]).lines
          = pre ++ l :: post ∧
        (∀ x ∈ pre, (TrimSpace x).length ≤ 1) ∧ 1 < (TrimSpace l).length ∧
        s1.token = dropCR l ∧ s1.lines = post) ∧
      (b = false → s1.token = [] ∧ s1.lines = []) ∧
      (∀ blanks real rest,
        (atLine "msgstr \"old\"" ["", "  \t", "#", "msgid \"a\"", "msgstr \"b\""]).lines
          = blanks ++ real :: rest →
        (∀ x ∈ blanks, (TrimSpace x).length ≤ 1) → 1 < (TrimSpace real).length →
        b = true ∧ s1.token = dropCR real ∧ s1.lines = rest)) ∧
    (atLine "msgstr \"old\"" ["", "  \t", "#", "msgid \"a\"", "msgstr \"b\""]).nextmsg
      = .ok (true, atLine "msgid \"a\"" ["msgstr \"b\""]) :=
  ⟨rfl, by decide, nextmsg_spec _ rfl (by decide), by decide⟩

/-- C5 as stated fails: on a line of 64 KiB followed by the line `msgid "a"`,
a line after the current position has more than one byte left after
trimming, yet `nextmsg` returns false; and the input is not exhausted: the
next `Scan` returns true and delivers the long line. -/
theorem nextmsg_spec_counterexample :
    (atBytes [] [longLine, lit "msgid \"a\""]).err = none ∧
    (∃ l ∈ (atBytes [] [longLine, lit "msgid \"a\""]).lines, 1 < (TrimSpace l).length) ∧
    (atBytes [] [longLine, lit "msgid \"a\""]).nextmsg
      = .ok (false,
          { token := [], lines := [longLine], readErr := some GoError.ErrTooLong,
            hasNext := true, err := none }) ∧
    ({ token := [], lines := [longLine], readErr := some GoError.ErrTooLong,
       hasNext := true, err := none } : scanner).Scan
      = (true, { token := dropCR longLine, lines := [],
                 readErr := some GoError.ErrTooLong, hasNext := true, err := none }) := by
  refine ⟨rfl, ⟨lit "msgid \"a\"", ?_, by decide⟩, ?_, ?_⟩
  · simp [atBytes]
  · rw [nextmsg_long _ longLine [lit "msgid \"a\""] rfl rfl rfl
      (le_of_eq longLine_length.symm), take_of_length longLine_length]
    rfl
  · rw [@Scan_fits _ longLine [] rfl (fits_some _ _)]

/-- C6: from a scanner whose sticky error is set, every finite sequence of
operations (`nextmsg`, `mul`, `spc`, `one`, `quo`, `msgstr`, with any
prefixes) runs to its end, the sticky error is still set after each of them,
and every `nextmsg` among them returns `false`, whatever lines remain. -/
theorem sticky_error_kept (ops : List Op) (s : scanner) (he : s.err ≠ none) :
    ∃ tr, runOps ops s = .ok tr ∧ tr.length = ops.length ∧
      ∀ p ∈ ops.zip tr, p.2.2.err ≠ none ∧ (p.1 = Op.nextmsg → p.2.1 = Ret.flag false) := by
  induction ops generalizing s with
  | nil => exact ⟨[], rfl, rfl, by simp⟩
  | cons op ops ih =>
    obtain ⟨r, s1, hx, h1, hn⟩ := exec_keeps_err op s he
    obtain ⟨tr, htr, hlen, hall⟩ := ih s1 h1
    refine ⟨(r, s1) :: tr, by simp [runOps, hx, htr], by simp [hlen], ?_⟩
    intro p hp
    simp only [List.zip_cons_cons, List.mem_cons] at hp
    rcases hp with rfl | hp
    · exact ⟨h1, hn⟩
    · exact hall p hp
/-- C6, from the scanner left by the malformed line `msgid "bad\q"`, with two
well-formed records still to be read: six operations in a row keep the error
set, and both `nextmsg` calls return `false`. -/
theorem sticky_error_kept_witness :
    ({ atLine "msgstr \"x\"" ["", "msgid \"two\"", "msgstr \"dos\""] with
        err := some GoError.ErrSyntax } : scanner).err ≠ none ∧
    (∃ tr,
      runOps [Op.nextmsg, Op.mul (lit "#"), Op.quo (lit "msgid "), Op.msgstr, Op.nextmsg,
          Op.one (lit "")]
        ({ atLine "msgstr \"x\"" ["", "msgid \"two\"", "msgstr \"dos\""] with
            err := some GoError.ErrSyntax } : scanner) = .ok tr ∧
      tr.length = [Op.nextmsg, Op.mul (lit "#"), Op.quo (lit "msgid "), Op.msgstr, Op.nextmsg,
          Op.one (lit "")].length ∧
      ∀ p ∈ [Op.nextmsg, Op.mul (lit "#"), Op.quo (lit "msgid "), Op.msgstr, Op.nextmsg,
          Op.one (lit "")].zip tr,
        p.2.2.err ≠ none ∧ (p.1 = Op.nextmsg → p.2.1 = Ret.flag false)) :=
  ⟨by decide, sticky_error_kept _ _ (by decide)⟩

/-- C7, as amended: without a sticky error and on a line with the prefix, the
sticky error is set after `quo` exactly when `strconv.Unquote` rejects at
least one decoded piece, the trimmed remainder of the first line or one of the
continuation lines taken (the lines that `Scan` delivers and that begin with a
double quote), each as delivered; when it accepts every piece the error stays
unset.  `strconv.Unquote` accepts every double-quoted literal made of
well-formed constituents (characters in UTF-8 and Go escapes), with the value
they stand for; it rejects every text that is not bounded at both ends by one
and the same quote character (an unterminated quote in particular), and
every double-quoted text in which well-formed constituents are followed by a
backslash and a byte that starts no escape (an invalid escape). -/
theorem quo_error_iff (s : scanner) (pfx : Bytes) (he : s.err = none)
    (h : s.hasPrefix pfx = true) :
    (∃ v s1, s.quo pfx = .ok (v, s1) ∧
      (s1.err ≠ none ↔
        ((Unquote (TrimSpace (s.token.drop pfx.length))).2 ≠ none ∨
          ∃ l ∈ s.lines.takeWhile (taken s.readErr isQuoted), (Unquote (dropCR l)).2 ≠ none)) ∧
      (((Unquote (TrimSpace (s.token.drop pfx.length))).2 = none ∧
          ∀ l ∈ s.lines.takeWhile (taken s.readErr isQuoted), (Unquote (dropCR l)).2 = none) →
        s1.err = none)) ∧
    (∀ items : List Item, (∀ i ∈ items, i.plain = true) →
      Unquote (0x22 :: (written items ++ [0x22])) = (meaning items, none)) ∧
    (∀ x : Bytes, (¬ ∃ q, (q = 0x22 ∨ q = 0x27 ∨ q = 0x60) ∧ x.head? = some q ∧
        x.getLast? = some q ∧ 2 ≤ x.length) →
      Unquote x = ([], some GoError.ErrSyntax)) ∧
    (∀ (items : List Item) (c : Nat) (tail : Bytes), (∀ i ∈ items, i.plain = true) →
      isEscapeStart c = false →
      Unquote (0x22 :: (written items ++ 0x5C :: c :: tail)) = ([], some GoError.ErrSyntax)) := by
  refine ⟨⟨_, _, quo_eq s pfx h, ?_⟩, Unquote_items,
    fun x hx => Unquote_rejected x (fun hok => hx (Unquote_ok_bounded x hok)),
    fun items c tail hp hc => Unquote_invalid items hp c tail hc⟩
  rw [afterRun_err, he]
  have hiff := stickyAfter_ne_none_iff none
    (TrimSpace (s.token.drop pfx.length) ::
      (s.lines.takeWhile (taken s.readErr isQuoted)).map dropCR)
  simp only [ne_eq, not_true_eq_false, false_or, List.mem_cons, exists_eq_or_imp, List.mem_map,
    exists_exists_and_eq_and] at hiff
  refine ⟨hiff, ?_⟩
  intro hall
  by_contra hc
  rcases hiff.mp hc with h1 | ⟨l, hl, h2⟩
  · exact h1 hall.1
  · exact h2 (hall.2 l hl)

/-- C7, on the line `msgid "bad\q"` followed by well-formed records: `quo`
leaves the error set and the next `nextmsg` returns `false` without reading on;
on the lines `msgid "ok\n"`, `"fine"`, `x` the error stays unset; an invalid
escape and an unterminated quote are both rejected by `strconv.Unquote`, and
`"bad\q"` is the well-formed constituents `b`, `a`, `d` followed by a
backslash and `q`, which starts no escape. -/
theorem quo_error_iff_witness :
    (atLine "msgid \"bad\\q\"" ["msgstr \"x\"", "", "msgid \"two\"", "msgstr \"dos\""]).err
      = none ∧
    (atLine "msgid \"bad\\q\"" ["msgstr \"x\"", "", "msgid \"two\"",
      "msgstr \"dos\""]).hasPrefix (lit "msgid ") = true ∧
    ((∃ v s1,
      (atLine "msgid \"bad\\q\"" ["msgstr \"x\"", "", "msgid \"two\"",
        "msgstr \"dos\""]).quo (lit "msgid ") = .ok (v, s1) ∧
      (s1.err ≠ none ↔
        ((Unquote (TrimSpace ((atLine "msgid \"bad\\q\"" ["msgstr \"x\"", "",
            "msgid \"two\"", "msgstr \"dos\""]).token.drop (lit "msgid ").length))).2 ≠ none ∨
          ∃ l ∈ (atLine "msgid \"bad\\q\"" ["msgstr \"x\"", "", "msgid \"two\"",
              "msgstr \"dos\""]).lines.takeWhile
                (taken (atLine "msgid \"bad\\q\"" ["msgstr \"x\"", "", "msgid \"two\"",
                  "msgstr \"dos\""]).readErr isQuoted),
            (Unquote (dropCR l)).2 ≠ none)) ∧
      (((Unquote (TrimSpace ((atLine "msgid \"bad\\q\"" ["msgstr \"x\"", "",
            "msgid \"two\"", "msgstr \"dos\""]).token.drop (lit "msgid ").length))).2 = none ∧
          ∀ l ∈ (atLine "msgid \"bad\\q\"" ["msgstr \"x\"", "", "msgid \"two\"",
              "msgstr \"dos\""]).lines.takeWhile
                (taken (atLine "msgid \"bad\\q\"" ["msgstr \"x\"", "", "msgid \"two\"",
                  "msgstr \"dos\""]).readErr isQuoted),
            (Unquote (dropCR l)).2 = none) →
        s1.err = none)) ∧
    (∀ items : List Item, (∀ i ∈ items, i.plain = true) →
      Unquote (0x22 :: (written items ++ [0x22])) = (meaning items, none)) ∧
    (∀ x : Bytes, (¬ ∃ q, (q = 0x22 ∨ q = 0x27 ∨ q = 0x60) ∧ x.head? = some q ∧
        x.getLast? = some q ∧ 2 ≤ x.length) →
      Unquote x = ([], some GoError.ErrSyntax)) ∧
    (∀ (items : List Item) (c : Nat) (tail : Bytes), (∀ i ∈ items, i.plain = true) →
      isEscapeStart c = false →
      Unquote (0x22 :: (written items ++ 0x5C :: c :: tail))
        = ([], some GoError.ErrSyntax))) ∧
    (atLine "msgid \"bad\\q\"" ["msgstr \"x\"", "", "msgid \"two\"",
        "msgstr \"dos\""]).quo (lit "msgid ")
      = .ok ([], { atLine "msgstr \"x\"" ["", "msgid \"two\"", "msgstr \"dos\""] with
                    err := some GoError.ErrSyntax }) ∧
    ({ atLine "msgstr \"x\"" ["", "msgid \"two\"", "msgstr \"dos\""] with
        err := some GoError.ErrSyntax } : scanner).nextmsg
      = .ok (false, { atLine "msgstr \"x\"" ["", "msgid \"two\"", "msgstr \"dos\""] with
                    err := some GoError.ErrSyntax }) ∧
    (atLine "msgid \"ok\\n\"" ["\"fine\"", "x"]).quo (lit "msgid ")
      = .ok (lit "ok\nfine", atLine "x" []) ∧
    (atLine "x" []).err = none ∧
    Unquote (lit "\"bad\\q\"") = ([], some GoError.ErrSyntax) ∧
    Unquote (lit "\"unterminated") = ([], some GoError.ErrSyntax) ∧
    lit "\"bad\\q\""
      = 0x22 :: (written [Item.char 0x62, Item.char 0x61, Item.char 0x64] ++
          0x5C :: 0x71 :: lit "\"") ∧
    isEscapeStart 0x71 = false :=
  ⟨rfl, by decide, quo_error_iff _ _ rfl (by decide), by decide, by decide, by decide, rfl,
    by decide, by decide, by decide, by decide⟩

/-- C7 as stated fails, in both directions.  On the line `msgid` followed by
`a\qb` in back quotes the piece is not bounded by double quotes and holds the
invalid escape `\q`, yet `strconv.Unquote` takes it as a raw Go literal: `quo`
returns the four bytes between the back quotes and sets no error.  On the line
`msgid "it\'s"` the piece is bounded by double quotes and its one escape is
the C escape of the single quote, yet `strconv.Unquote` rejects it: `quo`
returns the empty string and sets the error. -/
theorem quo_error_iff_counterexample :
    (atLine "msgid `a\\qb`" ["x"]).err = none ∧
    (atLine "msgid `a\\qb`" ["x"]).hasPrefix (lit "msgid ") = true ∧
    TrimSpace ((atLine "msgid `a\\qb`" ["x"]).token.drop (lit "msgid ").length)
      = lit "`a\\qb`" ∧
    (lit "`a\\qb`").head? ≠ some 0x22 ∧ (lit "`a\\qb`").getLast? ≠ some 0x22 ∧
    (atLine "msgid `a\\qb`" ["x"]).quo (lit "msgid ") = .ok (lit "a\\qb", atLine "x" []) ∧
    (atLine "x" []).err = none ∧
    (atLine "msgid \"it\\'s\"" ["x"]).err = none ∧
    (atLine "msgid \"it\\'s\"" ["x"]).hasPrefix (lit "msgid ") = true ∧
    TrimSpace ((atLine "msgid \"it\\'s\"" ["x"]).token.drop (lit "msgid ").length)
      = lit "\"it\\'s\"" ∧
    (lit "\"it\\'s\"").head? = some 0x22 ∧ (lit "\"it\\'s\"").getLast? = some 0x22 ∧
    (atLine "msgid \"it\\'s\"" ["x"]).quo (lit "msgid ")
      = .ok ([], { atLine "x" [] with err := some GoError.ErrSyntax }) := by
  decide

/-- C8: an extraction whose prefix the current line does not start with
returns the empty value and leaves the whole scanner state (current line,
lines still to be read, both errors) as it was, so that a second call meets
the same state and gives the same result: `mul`, `spc`, `one` and `quo` for
every prefix, and `msgstr` when the current line starts with neither
`msgstr ` nor `msgstr[0] `. -/
theorem nonmatching_noop (s : scanner) (pfx : Bytes) :
    (s.hasPrefix pfx = false →
      s.mul pfx = .ok ([], s) ∧ s.spc pfx = .ok ([], s) ∧ s.one pfx = .ok ([], s) ∧
        s.quo pfx = .ok ([], s)) ∧
    (s.hasPrefix (lit "msgstr ") = false → s.hasPrefix (lit "msgstr[0] ") = false →
      s.msgstr = .ok ([], s)) := by
  constructor
  · intro h
    refine ⟨?_, ?_, ?_, ?_⟩
    · simp [scanner.mul, scanner.mulLoop, h]
    · simp [scanner.spc, h]
    · simp [scanner.one, h]
    · simp [scanner.quo, h]
  · intro h1 h2
    have hp : msgstrPrefix 0 = lit "msgstr[0] " := by decide
    simp [scanner.msgstr, scanner.msgstrLoop, h1, hp, h2]
/-- C8, at the line `msgid "a"`: the prefix `#,` and both `msgstr` prefixes do
not match, and all five operations return the empty value and the same
scanner. -/
theorem nonmatching_noop_witness :
    ((atLine "msgid \"a\"" ["msgstr \"b\""]).mul (lit "#,")
        = .ok ([], atLine "msgid \"a\"" ["msgstr \"b\""]) ∧
      (atLine "msgid \"a\"" ["msgstr \"b\""]).spc (lit "#,")
        = .ok ([], atLine "msgid \"a\"" ["msgstr \"b\""]) ∧
      (atLine "msgid \"a\"" ["msgstr \"b\""]).one (lit "#,")
        = .ok ([], atLine "msgid \"a\"" ["msgstr \"b\""]) ∧
      (atLine "msgid \"a\"" ["msgstr \"b\""]).quo (lit "#,")
        = .ok ([], atLine "msgid \"a\"" ["msgstr \"b\""])) ∧
    (atLine "msgid \"a\"" ["msgstr \"b\""]).msgstr
        = .ok ([], atLine "msgid \"a\"" ["msgstr \"b\""]) :=
  ⟨(nonmatching_noop (atLine "msgid \"a\"" ["msgstr \"b\""]) (lit "#,")).1 (by decide),
    (nonmatching_noop (atLine "msgid \"a\"" ["msgstr \"b\""]) (lit "#,")).2 (by decide)
      (by decide)⟩

/-- C9, as amended: on every input made of records separated by one or more
blank lines (lines with at most one byte left after trimming), where every
line is shorter than 64 KiB, the blank line directly behind a record does not
begin with a double quote, and each record is a `msgid` line with a
well-formed literal followed by one `msgstr` line or by the lines
`msgstr[0]`, ..., `msgstr[k]` with well-formed literals, the caller's loop
reads, for each record in input order, `nextmsg() = true`, the decoded msgid
and the list of the decoded msgstr values; the `nextmsg` call behind the last
record returns `false`, the input is exhausted and the error is unset. -/
theorem drive_records (lead : List Bytes) (recs : List (Record × List Bytes))
    (re : Option GoError)
    (hlead : ∀ l ∈ lead, isBlank l = true)
    (hwf : ∀ p ∈ recs, p.1.wellFormed = true)
    (hsep : blankSeparated recs = true)
    (hq : ∀ p ∈ recs, isQuoted (p.2.headD []) = false)
    (hs : shortLines (lead ++ layout recs) = true) :
    drive (recs.length + 1) (newScanner (lead ++ layout recs) re)
      = .ok (recs.map (fun p => p.1.decoded),
          { token := [], lines := [], readErr := re, hasNext := true, err := none }) := by
  refine drive_layout recs lead [] re true hlead hwf hsep ?_ hs
  intro p hp b rest h
  have hb := hq p hp
  rw [h] at hb
  exact hb

/-- C9, on the two-record input of the specification: `("one", ["uno"])`, then
`("two", ["dos-a", "dos-b"])`, and the third `nextmsg` returns `false`. -/
theorem drive_records_witness :
    (∀ l ∈ ([] : List Bytes), isBlank l = true) ∧
    (∀ p ∈ twoRecords, p.1.wellFormed = true) ∧
    blankSeparated twoRecords = true ∧
    (∀ p ∈ twoRecords, isQuoted (p.2.headD []) = false) ∧
    shortLines ([] ++ layout twoRecords) = true ∧
    drive (twoRecords.length + 1) (newScanner ([] ++ layout twoRecords) none)
      = .ok (twoRecords.map (fun p => p.1.decoded),
          { token := [], lines := [], readErr := none, hasNext := true, err := none }) ∧
    layout twoRecords
      = [lit "msgid \"one\"", lit "msgstr \"uno\"", lit "", lit "msgid \"two\"",
          lit "msgstr[0] \"dos-a\"", lit "msgstr[1] \"dos-b\""] ∧
    twoRecords.map (fun p => p.1.decoded)
      = [(lit "one", [lit "uno"]), (lit "two", [lit "dos-a", lit "dos-b"])] :=
  ⟨by decide, by decide, by decide, by decide, by decide,
    drive_records [] twoRecords none (by decide) (by decide) (by decide) (by decide) (by decide),
    by decide, by decide⟩

/-- C9 as stated fails: the input `msgid "one"`, `msgstr "uno"`, `"`,
`msgid "two"`, `msgstr "dos"` is made of two well-formed records separated by
one blank line (a lone double quote has one byte after trimming), but `quo`
takes that line as a continuation of `msgstr "uno"`, fails to decode it and
sets the sticky error, so that the second `nextmsg` returns `false`: the loop
reads only `("one", ["uno"])` and ends with the error set.  It fails on a
separator of 64 KiB spaces too: that line is blank, but it does not fit the
buffer of the `bufio.Scanner`, and the loop reads only `("one", ["uno"])`. -/
theorem drive_records_counterexample :
    (∀ p ∈ quoteSeparated, p.1.wellFormed = true) ∧
    blankSeparated quoteSeparated = true ∧
    layout quoteSeparated
      = [lit "msgid \"one\"", lit "msgstr \"uno\"", lit "\"", lit "msgid \"two\"",
          lit "msgstr \"dos\""] ∧
    quoteSeparated.map (fun p => p.1.decoded)
      = [(lit "one", [lit "uno"]), (lit "two", [lit "dos"])] ∧
    drive (quoteSeparated.length + 1) (newScanner (layout quoteSeparated) none)
      = .ok ([(lit "one", [lit "uno"])],
          { token := lit "msgid \"two\"", lines := [lit "msgstr \"dos\""], readErr := none,
            hasNext := true, err := some GoError.ErrSyntax }) ∧
    (¬ ∃ final, drive (quoteSeparated.length + 1) (newScanner (layout quoteSeparated) none)
        = .ok (quoteSeparated.map (fun p => p.1.decoded), final) ∧ final.err = none) ∧
    (∀ p ∈ longSeparated, p.1.wellFormed = true) ∧
    blankSeparated longSeparated = true ∧
    (∀ p ∈ longSeparated, isQuoted (p.2.headD []) = false) ∧
    layout longSeparated
      = [lit "msgid \"one\"", lit "msgstr \"uno\"", longBlank, lit "msgid \"two\"",
          lit "msgstr \"dos\""] ∧
    drive (longSeparated.length + 1) (newScanner (layout longSeparated) none)
      = .ok ([(lit "one", [lit "uno"])],
          { token := [], lines := [], readErr := some GoError.ErrTooLong, hasNext := true,
            err := none }) := by
  have hrun : drive (quoteSeparated.length + 1) (newScanner (layout quoteSeparated) none)
      = .ok ([(lit "one", [lit "uno"])],
          { token := lit "msgid \"two\"", lines := [lit "msgstr \"dos\""], readErr := none,
            hasNext := true, err := some GoError.ErrSyntax }) := by decide
  obtain ⟨f1, f2, f3, f4, f5⟩ := longSeparated_facts
  refine ⟨by decide, by decide, by decide, by decide, hrun, ?_, f1, f2, f3, f4, ?_⟩
  · rintro ⟨final, h, _⟩
    rw [hrun] at h
    simp only [Except.ok.injEq, Prod.mk.injEq] at h
    have := congrArg List.length h.1
    simp [quoteSeparated] at this
  · rw [f4, f5]
    exact drive_longSeparated

/-- C10, as amended: when the lines still to be read are shorter than 64 KiB,
`mul` returns one string per line of the maximal run of consecutive lines, the
current line first and the following lines as `Scan` delivers them, that
start with the prefix: the text of each such line behind the prefix, trimmed,
in input order; afterwards the current line is the first line behind the run,
which does not start with the prefix, with exactly the lines behind it still
to be read, or the run reached the end and the input is exhausted.  This holds
for every prefix, the non-empty ones in particular. -/
theorem mul_spec (s : scanner) (pfx : Bytes) (hs : shortLines s.lines = true) :
    ∃ run, (∀ l ∈ run, HasPrefix l pfx = true) ∧
      ((∃ l rest, s.token :: s.lines.map dropCR = run ++ l :: rest ∧ HasPrefix l pfx = false ∧
          s.mul pfx = .ok (run.map (fun x => TrimSpace (x.drop pfx.length)),
            { s with token := l, lines := s.lines.drop run.length })) ∨
        (s.token :: s.lines.map dropCR = run ∧
          s.mul pfx = .ok (run.map (fun x => TrimSpace (x.drop pfx.length)),
            { s with token := [], lines := [] }))) := by
  by_cases hp : s.hasPrefix pfx = true
  · rcases run_split (fun l => HasPrefix (dropCR l) pfx) s.lines with
      ⟨run, l, rest, h1, h2, h3, h4, h5⟩ | ⟨h1, h2, h3⟩
    · refine ⟨s.token :: run.map dropCR, ?_, Or.inl ⟨dropCR l, rest.map dropCR, ?_, h3, ?_⟩⟩
      · intro x hx
        rcases List.mem_cons.mp hx with h | h
        · rw [h]; exact hp
        · obtain ⟨y, hy, rfl⟩ := List.mem_map.mp h
          exact h2 y hy
      · rw [h1]; simp
      · rw [mul_short s pfx hp hs, h4, afterRun_short h5 hs]
        have hd : s.lines.drop (s.token :: run.map dropCR).length = rest := by
          rw [h1]
          simp
        rw [hd]
        simp [List.map_map, Function.comp_def]
    · refine ⟨s.token :: s.lines.map dropCR, ?_, Or.inr ⟨rfl, ?_⟩⟩
      · intro x hx
        rcases List.mem_cons.mp hx with h | h
        · rw [h]; exact hp
        · obtain ⟨y, hy, rfl⟩ := List.mem_map.mp h
          exact h1 y hy
      · rw [mul_short s pfx hp hs, h2, afterRun_nil h3]
        simp [List.map_map, Function.comp_def]
  · refine ⟨[], by simp, Or.inl ⟨s.token, s.lines.map dropCR, rfl, ?_, ?_⟩⟩
    · simpa [scanner.hasPrefix] using hp
    · rw [mul_eq, if_neg hp]
      rfl

/-- C10, on the lines `#. a`, `#.  b `, `#. a`, `msgid "x"`, `end` with the
prefix `#.`: the result is `["a", "b", "a"]`, the current line is then
`msgid "x"` and `end` is still to be read. -/
theorem mul_spec_witness :
    shortLines (atLine "#. a" ["#.  b ", "#. a", "msgid \"x\"", "end"]).lines = true ∧
    (∃ run, (∀ l ∈ run, HasPrefix l (lit "#.") = true) ∧
      ((∃ l rest,
          (atLine "#. a" ["#.  b ", "#. a", "msgid \"x\"", "end"]).token ::
            (atLine "#. a" ["#.  b ", "#. a", "msgid \"x\"", "end"]).lines.map dropCR
              = run ++ l :: rest ∧
          HasPrefix l (lit "#.") = false ∧
          (atLine "#. a" ["#.  b ", "#. a", "msgid \"x\"", "end"]).mul (lit "#.")
            = .ok (run.map (fun x => TrimSpace (x.drop (lit "#.").length)),
              { atLine "#. a" ["#.  b ", "#. a", "msgid \"x\"", "end"] with
                token := l,
                lines := (atLine "#. a" ["#.  b ", "#. a", "msgid \"x\"", "end"]).lines.drop
                  run.length })) ∨
        ((atLine "#. a" ["#.  b ", "#. a", "msgid \"x\"", "end"]).token ::
            (atLine "#. a" ["#.  b ", "#. a", "msgid \"x\"", "end"]).lines.map dropCR = run ∧
          (atLine "#. a" ["#.  b ", "#. a", "msgid \"x\"", "end"]).mul (lit "#.")
            = .ok (run.map (fun x => TrimSpace (x.drop (lit "#.").length)),
              { atLine "#. a" ["#.  b ", "#. a", "msgid \"x\"", "end"] with
                token := [], lines := [] })))) ∧
    (atLine "#. a" ["#.  b ", "#. a", "msgid \"x\"", "end"]).mul (lit "#.")
      = .ok ([lit "a", lit "b", lit "a"], atLine "msgid \"x\"" ["end"]) :=
  ⟨by decide, mul_spec _ _ (by decide), by decide⟩

/-- C10 as stated fails: on the lines `a b`, a line of 64 KiB letters `a`, and
`x`, with the prefix `a`, the run of lines that start with the prefix is the
first two lines, yet `mul` returns the one string `b`; afterwards the current
line is empty, not `x`, and the input is not exhausted: the next `Scan`
returns true and delivers the long line. -/
theorem mul_spec_counterexample :
    (atBytes (lit "a b") [longLine, lit "x"]).hasPrefix (lit "a") = true ∧
    HasPrefix longLine (lit "a") = true ∧ HasPrefix (lit "x") (lit "a") = false ∧
    (atBytes (lit "a b") [longLine, lit "x"]).mul (lit "a")
      = .ok ([lit "b"],
          { token := [], lines := [longLine], readErr := some GoError.ErrTooLong,
            hasNext := true, err := none }) ∧
    ({ token := [], lines := [longLine], readErr := some GoError.ErrTooLong,
       hasNext := true, err := none } : scanner).Scan
      = (true, { token := dropCR longLine, lines := [],
                 readErr := some GoError.ErrTooLong, hasNext := true, err := none }) := by
  have hp : (atBytes (lit "a b") [longLine, lit "x"]).hasPrefix (lit "a") = true := by decide
  refine ⟨hp, HasPrefix_longLine, by decide, ?_, ?_⟩
  · have hv : TrimSpace ((lit "a b").drop (lit "a").length) = lit "b" := by decide
    rw [mul_long _ _ longLine [lit "x"] hp rfl rfl (le_of_eq longLine_length.symm),
      take_of_length longLine_length]
    simp only [atBytes, hv]
  · rw [@Scan_fits _ longLine [] rfl (fits_some _ _)]

/-- C11, as amended: when the current line starts with the prefix and the line
that follows it, if any, is shorter than 64 KiB, `spc` returns the fields of
the remainder of the current line, in order: every field is non-empty and free
of white space, and the fields joined by single spaces are the remainder with
its runs of white space collapsed and its ends trimmed; the scanner stops
exactly one line further, whatever that line is, with its errors unchanged. -/
theorem spc_spec (s : scanner) (pfx : Bytes) (h : s.hasPrefix pfx = true)
    (hs : shortLines (s.lines.take 1) = true) :
    ∃ toks s1, s.spc pfx = .ok (toks, s1) ∧
      (∀ t ∈ toks, t ≠ [] ∧ hasSpace t = false) ∧
      List.intercalate [0x20] toks = collapseSpace (s.token.drop pfx.length) ∧
      atIndex s 1 s1 ∧ s1.err = s.err ∧ s1.readErr = s.readErr := by
  refine ⟨Fields (s.token.drop pfx.length), s.Scan.2, spc_eq s pfx h, ?_, Fields_collapse _, ?_,
    Scan_err s, ?_⟩
  · intro t ht
    exact ⟨fieldsLoop_ne_nil _ 0 false [] [] (by simp) t ht,
      fieldsLoop_clean _ _ (le_refl _) false [] [] (fun z _ => rfl) (by simp) t ht⟩
  · cases hl : s.lines with
    | nil =>
      rw [Scan_nil hl]
      simp [atIndex, lineAt, hl]
    | cons l ls =>
      rw [hl] at hs
      have hf : fits s.readErr l = true :=
        fits_of_shortLines _ hs (by simp)
      rw [Scan_fits hl hf]
      simp [atIndex, lineAt, hl]
  · cases hl : s.lines with
    | nil => rw [Scan_nil hl]
    | cons l ls =>
      rw [hl] at hs
      have hf : fits s.readErr l = true :=
        fits_of_shortLines _ hs (by simp)
      rw [Scan_fits hl hf]

/-- C11 on the line `#: a.c:1  b.c:2`, tab, ` c.c:3 ` followed by the line
`#: d.c:4`, which starts with the prefix too: the three references of the
first line only. -/
theorem spc_spec_witness :
    (atLine "#: a.c:1  b.c:2\t c.c:3 " ["#: d.c:4"]).hasPrefix (lit "#: ") = true ∧
    shortLines ((atLine "#: a.c:1  b.c:2\t c.c:3 " ["#: d.c:4"]).lines.take 1) = true ∧
    (atLine "#: a.c:1  b.c:2\t c.c:3 " ["#: d.c:4"]).spc (lit "#: ")
      = .ok ([lit "a.c:1", lit "b.c:2", lit "c.c:3"], atLine "#: d.c:4" []) ∧
    collapseSpace (lit "a.c:1  b.c:2\t c.c:3 ") = lit "a.c:1 b.c:2 c.c:3" ∧
    ∃ toks s1, (atLine "#: a.c:1  b.c:2\t c.c:3 " ["#: d.c:4"]).spc (lit "#: ") = .ok (toks, s1) ∧
      (∀ t ∈ toks, t ≠ [] ∧ hasSpace t = false) ∧
      List.intercalate [0x20] toks
        = collapseSpace ((atLine "#: a.c:1  b.c:2\t c.c:3 " ["#: d.c:4"]).token.drop
            (lit "#: ").length) ∧
      atIndex (atLine "#: a.c:1  b.c:2\t c.c:3 " ["#: d.c:4"]) 1 s1 ∧
      s1.err = (atLine "#: a.c:1  b.c:2\t c.c:3 " ["#: d.c:4"]).err ∧
      s1.readErr = (atLine "#: a.c:1  b.c:2\t c.c:3 " ["#: d.c:4"]).readErr :=
  ⟨by decide, by decide, by decide, by decide,
    spc_spec (atLine "#: a.c:1  b.c:2\t c.c:3 " ["#: d.c:4"]) (lit "#: ") (by decide)
      (by decide)⟩

/-- C11 as stated fails: on the line `#: a` followed by a line of 64 KiB
letters `a`, `spc` returns the field `a`, but the scanner has not advanced to
the line that follows: its current line is empty, the reader holds the error
`ErrTooLong`, and the long line is still to be delivered. -/
theorem spc_spec_counterexample :
    (atBytes (lit "#: a") [longLine]).hasPrefix (lit "#: ") = true ∧
    (atBytes (lit "#: a") [longLine]).spc (lit "#: ")
      = .ok ([lit "a"],
          { token := [], lines := [longLine], readErr := some GoError.ErrTooLong,
            hasNext := true, err := none }) ∧
    lineAt (atBytes (lit "#: a") [longLine]) 1 = dropCR longLine ∧ dropCR longLine ≠ [] ∧
    ¬ atIndex (atBytes (lit "#: a") [longLine]) 1
      { token := [], lines := [longLine], readErr := some GoError.ErrTooLong,
        hasNext := true, err := none } := by
  have hp : (atBytes (lit "#: a") [longLine]).hasPrefix (lit "#: ") = true := by decide
  have h1 : lineAt (atBytes (lit "#: a") [longLine]) 1 = dropCR longLine :=
    @lineAt_one (atBytes (lit "#: a") [longLine]) longLine [] rfl
  refine ⟨hp, ?_, h1, dropCR_longLine_ne_nil, ?_⟩
  · have hv : Fields ((lit "#: a").drop (lit "#: ").length) = [lit "a"] := by decide
    have hf : fits (atBytes (lit "#: a") [longLine]).readErr longLine = false :=
      not_fits_of_length (le_of_eq longLine_length.symm)
    rw [spc_eq _ _ hp, @Scan_long (atBytes (lit "#: a") [longLine]) longLine [] rfl hf,
      take_of_length longLine_length]
    simp only [atBytes, hv]
  · intro h
    have h2 : ([] : Bytes) = lineAt (atBytes (lit "#: a") [longLine]) 1 := h.1
    rw [h1] at h2
    exact dropCR_longLine_ne_nil h2.symm

/-- C12, as amended: on a line made of the prefix and a double-quoted literal
whose text consists of UTF-8 encoded characters other than the backslash, the
double quote and the line feed, and of escapes, followed by a line that does
not begin with a double quote (or by the end of the input), `quo` returns the
text between the quotes with every character unchanged and every escape
replaced by what it stands for; it sets no error and stops one `Scan`
further.  A character that is not part of an escape stands for itself, and
the escapes `\n`, `\t`, `\"` and `\\` stand for a line feed, a tab, a double
quote and a backslash. -/
theorem quo_unescapes (pfx : Bytes) (items : List Item) (rest : List Bytes)
    (re : Option GoError) (hn : Bool) (hp : ∀ i ∈ items, i.plain = true)
    (hnext : isQuoted (rest.headD []) = false) :
    ({ token := pfx ++ 0x22 :: (written items ++ [0x22]), lines := rest, readErr := re,
       hasNext := hn, err := none } : scanner).quo pfx
      = .ok (meaning items,
          ({ token := pfx ++ 0x22 :: (written items ++ [0x22]), lines := rest, readErr := re,
             hasNext := hn, err := none } : scanner).Scan.2) ∧
    ({ token := pfx ++ 0x22 :: (written items ++ [0x22]), lines := rest, readErr := re,
       hasNext := hn, err := none } : scanner).Scan.2.err = none ∧
    (∀ r, (Item.char r).meaning = (Item.char r).written) ∧
    (Item.simple 0x6E).written = [0x5C, 0x6E] ∧ (Item.simple 0x6E).meaning = [0x0A] ∧
    (Item.simple 0x74).written = [0x5C, 0x74] ∧ (Item.simple 0x74).meaning = [0x09] ∧
    (Item.simple 0x22).written = [0x5C, 0x22] ∧ (Item.simple 0x22).meaning = [0x22] ∧
    (Item.simple 0x5C).written = [0x5C, 0x5C] ∧ (Item.simple 0x5C).meaning = [0x5C] := by
  have ht : TrimSpace (0x22 :: (written items ++ [0x22])) = 0x22 :: (written items ++ [0x22]) := by
    have := TrimSpace_quoted [] [] (written items) (by simp) (by simp)
    simpa using this
  have hu := Unquote_items items hp
  have hpre : scanner.hasPrefix
      { token := pfx ++ 0x22 :: (written items ++ [0x22]), lines := rest, readErr := re,
        hasNext := hn, err := none } pfx = true := by
    simp [scanner.hasPrefix, HasPrefix]
  refine ⟨?_, Scan_err _, fun r => rfl, rfl, rfl, rfl, rfl, rfl, rfl, rfl, rfl⟩
  rw [quo_single _ pfx hpre hnext]
  simp only [List.drop_left, ht]
  have hd : decoded (0x22 :: (written items ++ [0x22])) = meaning items := by
    rw [← Unquote_fst, hu]
  have hs : stickyAfter none [0x22 :: (written items ++ [0x22])] = none := by
    simp [stickyAfter, hu]
  rw [hd, hs]

/-- The amended C12 on the line
`msgid "a\tb\\c\"d\né\r\x41\101é\U0001F600\a"`, followed by the
line `msgstr ""`: the value is `a`, a tab, `b`, a backslash, `c`, a double
quote, `d`, a line feed, the two bytes of `é`, a carriage return, `A`, `A`,
the two bytes of `é`, the four bytes of U+1F600 and a bell; no error is set
and the scanner stands at the line `msgstr ""`. -/
theorem quo_unescapes_witness :
    (∀ i ∈ sampleItems, i.plain = true) ∧
    isQuoted ([lit "msgstr \"\""].headD []) = false ∧
    written sampleItems = lit "a\\tb\\\\c\\\"d\\né\\r\\x41\\101\\u00e9\\U0001F600\\a" ∧
    meaning sampleItems
      = [0x61, 0x09, 0x62, 0x5C, 0x63, 0x22, 0x64, 0x0A, 0xC3, 0xA9, 0x0D, 0x41, 0x41, 0xC3, 0xA9,
          0xF0, 0x9F, 0x98, 0x80, 0x07] ∧
    (({ token := lit "msgid " ++ 0x22 :: (written sampleItems ++ [0x22]),
        lines := [lit "msgstr \"\""], readErr := none, hasNext := true,
        err := none } : scanner).quo (lit "msgid ")
      = .ok (meaning sampleItems,
          ({ token := lit "msgid " ++ 0x22 :: (written sampleItems ++ [0x22]),
             lines := [lit "msgstr \"\""], readErr := none, hasNext := true,
             err := none } : scanner).Scan.2) ∧
    ({ token := lit "msgid " ++ 0x22 :: (written sampleItems ++ [0x22]),
       lines := [lit "msgstr \"\""], readErr := none, hasNext := true,
       err := none } : scanner).Scan.2.err = none ∧
    (∀ r, (Item.char r).meaning = (Item.char r).written) ∧
    (Item.simple 0x6E).written = [0x5C, 0x6E] ∧ (Item.simple 0x6E).meaning = [0x0A] ∧
    (Item.simple 0x74).written = [0x5C, 0x74] ∧ (Item.simple 0x74).meaning = [0x09] ∧
    (Item.simple 0x22).written = [0x5C, 0x22] ∧ (Item.simple 0x22).meaning = [0x22] ∧
    (Item.simple 0x5C).written = [0x5C, 0x5C] ∧ (Item.simple 0x5C).meaning = [0x5C]) ∧
    ({ token := lit "msgid " ++ 0x22 :: (written sampleItems ++ [0x22]),
       lines := [lit "msgstr \"\""], readErr := none, hasNext := true,
       err := none } : scanner).Scan.2 = atLine "msgstr \"\"" [] :=
  ⟨by decide, by decide, by decide, by decide,
    quo_unescapes (lit "msgid ") sampleItems [lit "msgstr \"\""] none true (by decide)
      (by decide), by decide⟩

/-- C12 as stated fails on a literal that is not UTF-8: on the line `msgid "`,
the byte E9 (the letter é in Latin-1), `"`, the byte between the quotes is not
part of an escape, yet `quo` returns the three bytes EF BF BD of U+FFFD in its
place, and sets no error.  It fails too on a literal with an escape of C that
is no escape of Go: on the line `msgid "a\?"` the text between the quotes is
`a` and the C escape of the question mark, yet `quo` returns the empty string
and sets the error. -/
theorem quo_invalid_utf8_counterexample :
    (atBytes (lit "msgid \"" ++ [0xE9] ++ lit "\"") []).quo (lit "msgid ")
      = .ok ([0xEF, 0xBF, 0xBD], atBytes [] []) ∧
    (atBytes [] []).err = none ∧
    (¬ ∃ s1, (atBytes (lit "msgid \"" ++ [0xE9] ++ lit "\"") []).quo (lit "msgid ")
      = .ok ([0xE9], s1)) ∧
    (atLine "msgid \"a\\?\"" []).quo (lit "msgid ")
      = .ok ([], { atLine "" [] with err := some GoError.ErrSyntax }) := by
  have h : (atBytes (lit "msgid \"" ++ [0xE9] ++ lit "\"") []).quo (lit "msgid ")
      = .ok ([0xEF, 0xBF, 0xBD], atBytes [] []) := by
    decide
  refine ⟨h, rfl, ?_, by decide⟩
  rintro ⟨s1, h1⟩
  rw [h] at h1
  simp at h1

/-- C13, as amended: on the line `msgid "hello\n"` (backslash and `n` before
the closing quote) `quo("msgid ")` returns the six bytes `hello` followed by a
literal newline, sets no error and exhausts the input. -/
theorem quo_hello :
    (atLine "msgid \"hello\\n\"" []).quo (lit "msgid ")
      = .ok ([0x68, 0x65, 0x6C, 0x6C, 0x6F, 0x0A], atLine "" []) ∧
    ([0x68, 0x65, 0x6C, 0x6C, 0x6F, 0x0A] : Bytes) = lit "hello" ++ [0x0A] ∧
    ([0x68, 0x65, 0x6C, 0x6C, 0x6F, 0x0A] : Bytes).length = 6 ∧
    lit "msgid \"hello\\n\"" = lit "msgid \"hello" ++ [0x5C, 0x6E, 0x22] := by
  decide
/-- C13 as stated fails: the string returned for `msgid "hello\n"` does not have
five characters; `hello` and the newline make six. -/
theorem quo_hello_counterexample :
    ¬ ∃ v s1, (atLine "msgid \"hello\\n\"" []).quo (lit "msgid ") = .ok (v, s1) ∧
      v.length = 5 ∧ 0x0A ∈ v := by
  rintro ⟨v, s1, h, h5, _⟩
  have hq : (atLine "msgid \"hello\\n\"" []).quo (lit "msgid ")
      = .ok ([0x68, 0x65, 0x6C, 0x6C, 0x6F, 0x0A], atLine "" []) := by decide
  rw [hq] at h
  simp only [Except.ok.injEq, Prod.mk.injEq] at h
  rw [← h.1] at h5
  simp at h5
/-- C14: `Err` reports the sticky error whenever it is set, whatever the error
of the underlying `bufio.Scanner`; when the sticky error is unset it reports
the error of the underlying scanner; when neither is present it reports no
error. -/
theorem Err_spec (s : scanner) :
    (s.err ≠ none → s.Err = s.err) ∧
    (s.err = none → s.Err = s.readErr) ∧
    (s.err = none → s.readErr = none → s.Err = none) := by
  refine ⟨?_, ?_, ?_⟩
  · intro h
    simp [scanner.Err, h]
  · intro h
    simp [scanner.Err, h]
  · intro h1 h2
    simp [scanner.Err, h1, h2]
/-- C14, on three scanners: both errors present, only the reader's error
present, none present. -/
theorem Err_spec_witness :
    ({ token := [], lines := [], readErr := some (GoError.readFault 5), hasNext := true,
       err := some GoError.ErrSyntax } : scanner).Err = some GoError.ErrSyntax ∧
    ({ token := [], lines := [], readErr := some (GoError.readFault 5), hasNext := true,
       err := none } : scanner).Err = some (GoError.readFault 5) ∧
    ({ token := [], lines := [], readErr := none, hasNext := true,
       err := none } : scanner).Err = none :=
  ⟨(Err_spec _).1 (by decide), (Err_spec _).2.1 rfl, (Err_spec _).2.2 rfl rfl⟩

/-- The encoding of a rune from U+0080 on has two bytes at least. -/
theorem EncodeRune_length (r : Nat) (h : 0x80 ≤ r) : 2 ≤ (EncodeRune r).length := by
  unfold EncodeRune
  have h1 : ¬ r ≤ 0x7F := by omega
  rw [if_neg h1]
  split
  · simp
  · split
    · simp
    · split <;> simp

/-- C15, as amended: a line shorter than 64 KiB that is exactly one byte after
trimming (a lone `#` or any other single ASCII character) is skipped by
`nextmsg`: the call goes on as if it had been made with that line as the
current line, and it does not return `true` placed at that line.  A line
whose trimmed text is a single character encoded in more than one byte (a
character from U+0080 on) is not skipped: `nextmsg` returns `true` placed at
it. -/
theorem nextmsg_skips_single_byte (s : scanner) (l : Bytes) (rest : List Bytes)
    (he : s.err = none) (hl : s.lines = l :: rest) (hf : l.length < MaxScanTokenSize) :
    ((TrimSpace l).length = 1 →
      s.nextmsg = ({ s with token := dropCR l, lines := rest } : scanner).nextmsg ∧
      s.nextmsg ≠ .ok (true, { s with token := dropCR l, lines := rest })) ∧
    (∀ r, 0x80 ≤ r → TrimSpace l = EncodeRune r →
      s.nextmsg = .ok (true, { s with token := dropCR l, lines := rest })) := by
  have hfit : fits s.readErr l = true := fits_of_short _ hf
  constructor
  · intro h1
    have hb : taken s.readErr isBlank l = true := by
      simp [taken, hfit, isBlank, TrimSpace_dropCR, h1]
    have hn := nextmsg_eq s he
    have hn1 := nextmsg_eq ({ s with token := dropCR l, lines := rest } : scanner) he
    have hd : s.lines.dropWhile (taken s.readErr isBlank)
        = rest.dropWhile (taken s.readErr isBlank) := by
      rw [hl, List.dropWhile_cons, hb]
      rfl
    rw [hd] at hn
    have hsc : ({ s with lines := rest.dropWhile (taken s.readErr isBlank) } : scanner).Scan
        = ({ s with token := dropCR l,
                    lines := rest.dropWhile (taken s.readErr isBlank) } : scanner).Scan :=
      Scan_any_token _ _ _ _ _ _
    refine ⟨?_, ?_⟩
    · rw [hn, hn1]
      exact congrArg Except.ok hsc
    · rw [hn]
      intro hc
      simp only [Except.ok.injEq] at hc
      have hlen : (rest.dropWhile (taken s.readErr isBlank)).length ≤ rest.length :=
        (List.dropWhile_suffix _).length_le
      cases hd1 : rest.dropWhile (taken s.readErr isBlank) with
      | nil =>
        rw [@Scan_nil { s with lines := rest.dropWhile (taken s.readErr isBlank) } hd1] at hc
        have := congrArg Prod.fst hc
        simp at this
      | cons a t =>
        rw [hd1] at hlen
        cases hfa : fits s.readErr a with
        | true =>
          rw [@Scan_fits { s with lines := rest.dropWhile (taken s.readErr isBlank) } a t hd1
            hfa] at hc
          have := congrArg (fun p => p.2.lines) hc
          simp only at this
          rw [this] at hlen
          simp at hlen
        | false =>
          rw [@Scan_long { s with lines := rest.dropWhile (taken s.readErr isBlank) } a t hd1
            hfa] at hc
          have := congrArg Prod.fst hc
          simp at this
  · intro r hr ht
    have hlen := EncodeRune_length r hr
    have hb : taken s.readErr isBlank l = false := by
      simp only [taken, isBlank, TrimSpace_dropCR, ht, Bool.and_eq_false_imp,
        decide_eq_false_iff_not]
      intro _
      omega
    have hd : s.lines.dropWhile (taken s.readErr isBlank) = l :: rest := by
      rw [hl, List.dropWhile_cons, hb]
      rfl
    rw [nextmsg_eq s he,
      @Scan_fits { s with lines := s.lines.dropWhile (taken s.readErr isBlank) } l rest hd hfit]

/-- C15, on the lines `#`, ` x `, `msgid "a"`: the first two are skipped; on
the lines ` é `, `msgid "a"`: the first line is not skipped. -/
theorem nextmsg_skips_single_byte_witness :
    (atLine "" ["#", " x ", "msgid \"a\""]).err = none ∧
    (atLine "" ["#", " x ", "msgid \"a\""]).lines = lit "#" :: [lit " x ", lit "msgid \"a\""] ∧
    (lit "#").length < MaxScanTokenSize ∧
    (TrimSpace (lit "#")).length = 1 ∧
    ((atLine "" ["#", " x ", "msgid \"a\""]).nextmsg
        = ({ atLine "" ["#", " x ", "msgid \"a\""] with
              token := dropCR (lit "#"),
              lines := [lit " x ", lit "msgid \"a\""] } : scanner).nextmsg ∧
      (atLine "" ["#", " x ", "msgid \"a\""]).nextmsg
        ≠ .ok (true, { atLine "" ["#", " x ", "msgid \"a\""] with
              token := dropCR (lit "#"), lines := [lit " x ", lit "msgid \"a\""] })) ∧
    (atLine "" ["#", " x ", "msgid \"a\""]).nextmsg = .ok (true, atLine "msgid \"a\"" []) ∧
    (atLine "" [" é ", "msgid \"a\""]).lines = lit " é " :: [lit "msgid \"a\""] ∧
    (lit " é ").length < MaxScanTokenSize ∧ TrimSpace (lit " é ") = EncodeRune 0xE9 ∧
    (atLine "" [" é ", "msgid \"a\""]).nextmsg
      = .ok (true, { atLine "" [" é ", "msgid \"a\""] with
            token := dropCR (lit " é "), lines := [lit "msgid \"a\""] }) :=
  ⟨rfl, by decide, by decide, by decide,
    (nextmsg_skips_single_byte _ _ _ rfl (by decide) (by decide)).1 (by decide), by decide,
    by decide, by decide, by decide,
    (nextmsg_skips_single_byte (atLine "" [" é ", "msgid \"a\""]) (lit " é ")
      [lit "msgid \"a\""] rfl (by decide) (by decide)).2 0xE9 (by decide) (by decide)⟩

/-- C15 as stated fails: the line ` é ` is, after trimming, the single
character `é`, which is not white space; its UTF-8 encoding has two bytes, so
`nextmsg` does not skip the line but returns `true` placed at it. -/
theorem nextmsg_single_char_counterexample :
    TrimSpace (lit " é ") = EncodeRune 0xE9 ∧
    IsSpace 0xE9 = false ∧
    (TrimSpace (lit " é ")).length = 2 ∧
    (atLine "" [" é ", "msgid \"a\""]).nextmsg
      = .ok (true, atLine " é " ["msgid \"a\""]) := by
  decide

/-- C16, as amended: when the current line starts with the prefix and its
trimmed remainder is not bounded at both ends by one and the same quote
character (a double quote, a single quote or a back quote) with at least two
bytes in all, `quo` records `ErrSyntax` as the sticky error and the remainder
contributes the empty string. -/
theorem quo_unbounded_error (s : scanner) (pfx : Bytes) (h : s.hasPrefix pfx = true)
    (hnb : ¬ ∃ q, (q = 0x22 ∨ q = 0x27 ∨ q = 0x60) ∧
      (TrimSpace (s.token.drop pfx.length)).head? = some q ∧
      (TrimSpace (s.token.drop pfx.length)).getLast? = some q ∧
      2 ≤ (TrimSpace (s.token.drop pfx.length)).length) :
    ∃ v s1, s.quo pfx = .ok (v, s1) ∧ s1.err = some GoError.ErrSyntax ∧
      decoded (TrimSpace (s.token.drop pfx.length)) = [] := by
  have hrej : (Unquote (TrimSpace (s.token.drop pfx.length))).2 ≠ none :=
    fun hok => hnb (Unquote_ok_bounded _ hok)
  have hU := Unquote_rejected _ hrej
  refine ⟨_, _, quo_eq s pfx h, ?_, ?_⟩
  · rw [afterRun_err, stickyAfter_cons]
    have : stickyAfter s.err [TrimSpace (s.token.drop pfx.length)] = some GoError.ErrSyntax := by
      simp [stickyAfter, hU]
    rw [this]
    exact stickyAfter_ErrSyntax _
  · rw [← Unquote_fst, hU]
/-- C16, on the lines `msgid abc`, `msgid "abc` and `msgid 'abc"`: none of the
remainders is bounded by one quote character, and the error is recorded. -/
theorem quo_unbounded_error_witness :
    (atLine "msgid abc" ["x"]).hasPrefix (lit "msgid ") = true ∧
    (¬ ∃ q, (q = 0x22 ∨ q = 0x27 ∨ q = 0x60) ∧
      (TrimSpace ((atLine "msgid abc" ["x"]).token.drop (lit "msgid ").length)).head? = some q ∧
      (TrimSpace ((atLine "msgid abc" ["x"]).token.drop (lit "msgid ").length)).getLast?
        = some q ∧
      2 ≤ (TrimSpace ((atLine "msgid abc" ["x"]).token.drop (lit "msgid ").length)).length) ∧
    (∃ v s1, (atLine "msgid abc" ["x"]).quo (lit "msgid ") = .ok (v, s1) ∧
      s1.err = some GoError.ErrSyntax ∧
      decoded (TrimSpace ((atLine "msgid abc" ["x"]).token.drop (lit "msgid ").length)) = []) ∧
    (atLine "msgid abc" ["x"]).quo (lit "msgid ")
      = .ok ([], { atLine "x" [] with err := some GoError.ErrSyntax }) ∧
    (atLine "msgid \"abc" ["x"]).quo (lit "msgid ")
      = .ok ([], { atLine "x" [] with err := some GoError.ErrSyntax }) ∧
    (atLine "msgid 'abc\"" ["x"]).quo (lit "msgid ")
      = .ok ([], { atLine "x" [] with err := some GoError.ErrSyntax }) :=
  have hnb : ¬ ∃ q, (q = 0x22 ∨ q = 0x27 ∨ q = 0x60) ∧
      (TrimSpace ((atLine "msgid abc" ["x"]).token.drop (lit "msgid ").length)).head? = some q ∧
      (TrimSpace ((atLine "msgid abc" ["x"]).token.drop (lit "msgid ").length)).getLast?
        = some q ∧
      2 ≤ (TrimSpace ((atLine "msgid abc" ["x"]).token.drop (lit "msgid ").length)).length := by
    have ht : TrimSpace ((atLine "msgid abc" ["x"]).token.drop (lit "msgid ").length)
        = [0x61, 0x62, 0x63] := by decide
    rw [ht]
    rintro ⟨q, hq, h1, _⟩
    simp only [List.head?_cons, Option.some.injEq] at h1
    omega
  ⟨by decide, hnb, quo_unbounded_error _ _ (by decide) hnb, by decide, by decide, by decide⟩
/-- C16 as stated fails: the remainders `` `abc` `` and `'a'` are bounded by back
quotes and by single quotes, not by double quotes, and `strconv.Unquote`
accepts both as Go literals: `quo` returns `abc` and `a` and records no
error. -/
theorem quo_unbounded_error_counterexample :
    (atLine "msgid `abc`" ["x"]).hasPrefix (lit "msgid ") = true ∧
    TrimSpace ((atLine "msgid `abc`" ["x"]).token.drop (lit "msgid ").length) = lit "`abc`" ∧
    (lit "`abc`").head? ≠ some 0x22 ∧ (lit "`abc`").getLast? ≠ some 0x22 ∧
    (atLine "msgid `abc`" ["x"]).quo (lit "msgid ") = .ok (lit "abc", atLine "x" []) ∧
    (atLine "x" []).err = none ∧
    (atLine "msgid 'a'" ["x"]).hasPrefix (lit "msgid ") = true ∧
    TrimSpace ((atLine "msgid 'a'" ["x"]).token.drop (lit "msgid ").length) = lit "'a'" ∧
    (lit "'a'").head? ≠ some 0x22 ∧ (lit "'a'").getLast? ≠ some 0x22 ∧
    (atLine "msgid 'a'" ["x"]).quo (lit "msgid ") = .ok (lit "a", atLine "x" []) := by
  decide

/-- C17, as amended: on two inputs of lines shorter than 64 KiB, with the same
number of lines, that agree, line by line, on which lines begin with a double
quote and on which lines start with the prefix, `quo` returns on both and leaves both scanners at the same index of
their input; when they agree in this way for the prefixes `msgstr ` and
`msgstr[n] `, `msgstr` returns the same number of values on both and leaves
both scanners at the same index.  Whether the literals decode plays no part:
only the strings returned and the sticky error may differ. -/
theorem decode_errors_keep_control_flow (s s' : scanner) (hs : shortLines s.lines = true)
    (hs' : shortLines s'.lines = true) :
    (∀ pfx, agree (fun p => p = pfx) s s' →
      ∃ v v' s1 s1' j, s.quo pfx = .ok (v, s1) ∧ s'.quo pfx = .ok (v', s1') ∧
        atIndex s j s1 ∧ atIndex s' j s1' ∧
        s1.readErr = s.readErr ∧ s1.hasNext = s.hasNext ∧
        s1'.readErr = s'.readErr ∧ s1'.hasNext = s'.hasNext) ∧
    (agree (fun p => p = lit "msgstr " ∨ ∃ n, p = msgstrPrefix n) s s' →
      ∃ vs vs' s1 s1' j, s.msgstr = .ok (vs, s1) ∧ s'.msgstr = .ok (vs', s1') ∧
        vs.length = vs'.length ∧ atIndex s j s1 ∧ atIndex s' j s1' ∧
        s1.readErr = s.readErr ∧ s1.hasNext = s.hasNext ∧
        s1'.readErr = s'.readErr ∧ s1'.hasNext = s'.hasNext) := by
  refine ⟨fun pfx ha => @quo_lockstep (fun p => p = pfx) s s' pfx rfl ha hs hs', ?_⟩
  intro ha
  have hp : s.hasPrefix (lit "msgstr ") = s'.hasPrefix (lit "msgstr ") := by
    have := (ha.2 0).2 (lit "msgstr ") (Or.inl rfl)
    simpa [lineAt, scanner.hasPrefix] using this
  by_cases h : s.hasPrefix (lit "msgstr ") = true
  · have h' : s'.hasPrefix (lit "msgstr ") = true := by rw [← hp]; exact h
    obtain ⟨v, v', s1, s1', j, hq, hq', hj, hj', e⟩ :=
      quo_lockstep s s' (lit "msgstr ") (Or.inl rfl) ha hs hs'
    exact ⟨[v], [v'], s1, s1', j, by simp [scanner.msgstr, h, hq],
      by simp [scanner.msgstr, h', hq'], rfl, hj, hj', e⟩
  · simp only [Bool.not_eq_true] at h
    have h' : s'.hasPrefix (lit "msgstr ") = false := by rw [← hp]; exact h
    have hl := @msgstrLoop_lockstep (fun p => p = lit "msgstr " ∨ ∃ n, p = msgstrPrefix n)
      (fun n => Or.inr ⟨n, rfl⟩) (s.lines.length + 2) s s' [] [] rfl ha hs hs'
      (by unfold remaining; split <;> omega)
      (by rw [ha.1]; unfold remaining; split <;> omega)
    simp only [scanner.msgstr, h, h', Bool.false_eq_true, if_false]
    rw [← ha.1]
    exact hl

/-- C17, on the lines `msgstr "ok"`, `"fine"`, `x` and on the lines
`msgstr "bad\q"`, `"open`, `y`: the two inputs agree on the prefixes and on the
double quotes; `quo("msgstr ")` and `msgstr` stop on both at index 2, the last
line, and only the calls on the second input set the error. -/
theorem decode_errors_keep_control_flow_witness :
    shortLines (atLine "msgstr \"ok\"" ["\"fine\"", "x"]).lines = true ∧
    shortLines (atLine "msgstr \"bad\\q\"" ["\"open", "y"]).lines = true ∧
    agree (fun p => p = lit "msgstr ") (atLine "msgstr \"ok\"" ["\"fine\"", "x"])
      (atLine "msgstr \"bad\\q\"" ["\"open", "y"]) ∧
    agree (fun p => p = lit "msgstr " ∨ ∃ n, p = msgstrPrefix n)
      (atLine "msgstr \"ok\"" ["\"fine\"", "x"])
      (atLine "msgstr \"bad\\q\"" ["\"open", "y"]) ∧
    (∃ v v' s1 s1' j,
      (atLine "msgstr \"ok\"" ["\"fine\"", "x"]).quo (lit "msgstr ") = .ok (v, s1) ∧
      (atLine "msgstr \"bad\\q\"" ["\"open", "y"]).quo (lit "msgstr ") = .ok (v', s1') ∧
      atIndex (atLine "msgstr \"ok\"" ["\"fine\"", "x"]) j s1 ∧
      atIndex (atLine "msgstr \"bad\\q\"" ["\"open", "y"]) j s1' ∧
      s1.readErr = (atLine "msgstr \"ok\"" ["\"fine\"", "x"]).readErr ∧
      s1.hasNext = (atLine "msgstr \"ok\"" ["\"fine\"", "x"]).hasNext ∧
      s1'.readErr = (atLine "msgstr \"bad\\q\"" ["\"open", "y"]).readErr ∧
      s1'.hasNext = (atLine "msgstr \"bad\\q\"" ["\"open", "y"]).hasNext) ∧
    (∃ vs vs' s1 s1' j,
      (atLine "msgstr \"ok\"" ["\"fine\"", "x"]).msgstr = .ok (vs, s1) ∧
      (atLine "msgstr \"bad\\q\"" ["\"open", "y"]).msgstr = .ok (vs', s1') ∧
      vs.length = vs'.length ∧
      atIndex (atLine "msgstr \"ok\"" ["\"fine\"", "x"]) j s1 ∧
      atIndex (atLine "msgstr \"bad\\q\"" ["\"open", "y"]) j s1' ∧
      s1.readErr = (atLine "msgstr \"ok\"" ["\"fine\"", "x"]).readErr ∧
      s1.hasNext = (atLine "msgstr \"ok\"" ["\"fine\"", "x"]).hasNext ∧
      s1'.readErr = (atLine "msgstr \"bad\\q\"" ["\"open", "y"]).readErr ∧
      s1'.hasNext = (atLine "msgstr \"bad\\q\"" ["\"open", "y"]).hasNext) ∧
    (atLine "msgstr \"ok\"" ["\"fine\"", "x"]).msgstr
      = .ok ([lit "okfine"], atLine "x" []) ∧
    (atLine "msgstr \"bad\\q\"" ["\"open", "y"]).msgstr
      = .ok ([[]], { atLine "y" [] with err := some GoError.ErrSyntax }) :=
  have hno : ∀ (l : String) (n : Nat), (lit l).take 7 ≠ (msgstrPrefix n).take 7 →
      HasPrefix (lit l) (msgstrPrefix n) = false := by
    intro l n hne
    by_contra hc
    simp only [Bool.not_eq_false] at hc
    obtain ⟨t, ht⟩ := List.isPrefixOf_iff_prefix.mp hc
    apply hne
    rw [← ht, msgstrPrefix_eq]
    simp
  have h7 : ∀ n, (msgstrPrefix n).take 7 = [109, 115, 103, 115, 116, 114, 91] := by
    intro n
    rw [msgstrPrefix_eq]
    simp
  have ha : agree (fun p => p = lit "msgstr " ∨ ∃ n, p = msgstrPrefix n)
      (atLine "msgstr \"ok\"" ["\"fine\"", "x"])
      (atLine "msgstr \"bad\\q\"" ["\"open", "y"]) := by
    refine ⟨rfl, ?_⟩
    intro i
    match i with
    | 0 =>
      refine ⟨by decide, ?_⟩
      rintro p (hp | ⟨n, hp⟩)
      · subst hp; decide
      · subst hp
        show HasPrefix (lit "msgstr \"ok\"") _ = HasPrefix (lit "msgstr \"bad\\q\"") _
        rw [hno _ n (by rw [h7]; decide), hno _ n (by rw [h7]; decide)]
    | 1 =>
      refine ⟨by decide, ?_⟩
      rintro p (hp | ⟨n, hp⟩)
      · subst hp; decide
      · subst hp
        show HasPrefix (lit "\"fine\"") _ = HasPrefix (lit "\"open") _
        rw [hno _ n (by rw [h7]; decide), hno _ n (by rw [h7]; decide)]
    | 2 =>
      refine ⟨by decide, ?_⟩
      rintro p (hp | ⟨n, hp⟩)
      · subst hp; decide
      · subst hp
        show HasPrefix (lit "x") _ = HasPrefix (lit "y") _
        rw [hno _ n (by rw [h7]; decide), hno _ n (by rw [h7]; decide)]
    | i + 3 => exact ⟨rfl, fun p _ => rfl⟩
  have ha1 : agree (fun p => p = lit "msgstr ") (atLine "msgstr \"ok\"" ["\"fine\"", "x"])
      (atLine "msgstr \"bad\\q\"" ["\"open", "y"]) :=
    ⟨ha.1, fun i => ⟨(ha.2 i).1, fun p hp => (ha.2 i).2 p (Or.inl hp)⟩⟩
  ⟨by decide, by decide, ha1, ha,
    (decode_errors_keep_control_flow _ _ (by decide) (by decide)).1 (lit "msgstr ") ha1,
    (decode_errors_keep_control_flow _ _ (by decide) (by decide)).2 ha, by decide, by decide⟩

/-- C17 as stated fails: the lines `msgstr "a"`, `"b"`, `x` and the lines
`msgstr "a"`, a line of 64 KiB that begins with a double quote, `x` are two
inputs with the same number of lines that agree on which lines start with the
prefix `msgstr ` and on which lines begin with a double quote; on the first
`quo` stops at index 2, the line `x`, on the second it stops with an empty
current line and the long line still to be delivered, which is at no index of
the input. -/
theorem decode_errors_keep_control_flow_counterexample :
    agree (fun p => p = lit "msgstr ") (atBytes (lit "msgstr \"a\"") [lit "\"b\"", lit "x"])
      (atBytes (lit "msgstr \"a\"") [longQuoted, lit "x"]) ∧
    (atBytes (lit "msgstr \"a\"") [lit "\"b\"", lit "x"]).quo (lit "msgstr ")
      = .ok (lit "ab", atBytes (lit "x") []) ∧
    (atBytes (lit "msgstr \"a\"") [longQuoted, lit "x"]).quo (lit "msgstr ")
      = .ok (lit "a",
          { token := [], lines := [longQuoted], readErr := some GoError.ErrTooLong,
            hasNext := true, err := none }) ∧
    atIndex (atBytes (lit "msgstr \"a\"") [lit "\"b\"", lit "x"]) 2 (atBytes (lit "x") []) ∧
    ∀ j, ¬ atIndex (atBytes (lit "msgstr \"a\"") [longQuoted, lit "x"]) j
      { token := [], lines := [longQuoted], readErr := some GoError.ErrTooLong,
        hasNext := true, err := none } := by
  have hp : (atBytes (lit "msgstr \"a\"") [longQuoted, lit "x"]).hasPrefix (lit "msgstr ")
      = true := by decide
  have hl1 : lineAt (atBytes (lit "msgstr \"a\"") [longQuoted, lit "x"]) 1 = dropCR longQuoted :=
    @lineAt_one (atBytes (lit "msgstr \"a\"") [longQuoted, lit "x"]) longQuoted [lit "x"] rfl
  refine ⟨⟨?_, ?_⟩, by decide, ?_, ⟨by decide, by decide⟩, ?_⟩
  · simp only [atBytes, List.length_cons, List.length_nil]
  · intro i
    match i with
    | 0 =>
      have h0 : lineAt (atBytes (lit "msgstr \"a\"") [longQuoted, lit "x"]) 0
          = lit "msgstr \"a\"" := by
        simp only [lineAt, atBytes, List.getD_cons_zero]
      have h0' : lineAt (atBytes (lit "msgstr \"a\"") [lit "\"b\"", lit "x"]) 0
          = lit "msgstr \"a\"" := by
        simp only [lineAt, atBytes, List.getD_cons_zero]
      rw [h0, h0']
      exact ⟨rfl, fun p _ => rfl⟩
    | 1 =>
      rw [hl1]
      have hq : isQuoted (dropCR longQuoted) = true := by
        rw [isQuoted_dropCR]; exact isQuoted_longQuoted
      refine ⟨by rw [hq]; decide, ?_⟩
      intro p hp1
      subst hp1
      rw [not_HasPrefix_of_isQuoted hq (by decide) (by decide)]
      decide
    | 2 =>
      have h2 : lineAt (atBytes (lit "msgstr \"a\"") [longQuoted, lit "x"]) 2
          = dropCR (lit "x") := by
        simp only [lineAt, atBytes, List.map_cons, List.map_nil, List.getD_cons_succ,
          List.getD_cons_zero]
      have h2' : lineAt (atBytes (lit "msgstr \"a\"") [lit "\"b\"", lit "x"]) 2
          = dropCR (lit "x") := by
        simp only [lineAt, atBytes, List.map_cons, List.map_nil, List.getD_cons_succ,
          List.getD_cons_zero]
      rw [h2, h2']
      exact ⟨rfl, fun p _ => rfl⟩
    | i + 3 =>
      have h3 : lineAt (atBytes (lit "msgstr \"a\"") [longQuoted, lit "x"]) (i + 3) = [] := by
        simp only [lineAt, atBytes, List.map_cons, List.map_nil, List.getD_cons_succ,
          List.getD_nil]
      have h4 : lineAt (atBytes (lit "msgstr \"a\"") [lit "\"b\"", lit "x"]) (i + 3) = [] := by
        simp only [lineAt, atBytes, List.map_cons, List.map_nil, List.getD_cons_succ,
          List.getD_nil]
      rw [h3, h4]
      exact ⟨rfl, fun p _ => rfl⟩
  · have hv : decoded (TrimSpace ((lit "msgstr \"a\"").drop (lit "msgstr ").length))
        = lit "a" := by decide
    have he : stickyAfter none [TrimSpace ((lit "msgstr \"a\"").drop (lit "msgstr ").length)]
        = none := by
      decide
    rw [quo_long _ _ longQuoted [lit "x"] hp rfl rfl (le_of_eq longQuoted_length.symm),
      take_of_length longQuoted_length]
    simp only [atBytes, hv, he]
  · intro j h
    have hlen := congrArg List.length h.2
    simp only [atBytes, List.length_cons, List.length_nil, List.length_drop] at hlen
    have hj : j = 1 := by omega
    subst hj
    have ht : ([] : Bytes) = lineAt (atBytes (lit "msgstr \"a\"") [longQuoted, lit "x"]) 1 :=
      h.1
    rw [hl1] at ht
    exact dropCR_longQuoted_ne_nil ht.symm

/-- A `Scan` that returns false leaves an empty current line. -/
theorem Scan_false_token (s : scanner) (h : s.Scan.1 = false) : s.Scan.2.token = [] := by
  cases hl : s.lines with
  | nil => rw [Scan_nil hl]
  | cons l ls =>
    cases hf : fits s.readErr l with
    | true =>
      rw [Scan_fits hl hf] at h
      cases h
    | false => rw [Scan_long hl hf]

/-- C18: every operation returns on every scanner (the loops end within the
iteration bound the number of lines left provides).  For the loop of `msgstr`:
a `quo` whose non-empty prefix matches takes at least one line away, and after
a `Scan` that found the input exhausted, or that returned false for any
reason, no non-empty prefix matches; hence
`msgstr`, and `mul` with a non-empty prefix, return at most as many values as
there are lines from the current line onwards. -/
theorem operations_terminate (s : scanner) :
    (∀ op : Op, ∃ r s1, op.exec s = .ok (r, s1)) ∧
    (∃ vs s1, s.msgstr = .ok (vs, s1) ∧ vs.length ≤ remaining s) ∧
    (∀ pfx, pfx ≠ [] → ∃ vs s1, s.mul pfx = .ok (vs, s1) ∧ vs.length ≤ remaining s) ∧
    (∀ pfx, pfx ≠ [] → s.hasPrefix pfx = true →
      ∃ v s1, s.quo pfx = .ok (v, s1) ∧ remaining s1 < remaining s) ∧
    (∀ pfx, pfx ≠ [] → s.lines = [] →
      s.Scan.1 = false ∧ s.Scan.2.token = [] ∧ s.Scan.2.hasPrefix pfx = false) ∧
    remaining s ≤ s.lines.length + 1 ∧
    (∀ pfx, pfx ≠ [] → s.Scan.1 = false →
      s.Scan.2.token = [] ∧ s.Scan.2.hasPrefix pfx = false) := by
  refine ⟨fun op => exec_total op s, msgstr_total s, ?_, ?_, ?_, ?_, ?_⟩
  · intro pfx hp
    obtain ⟨vs, s1, h, _, hb⟩ := mul_total s pfx
    exact ⟨vs, s1, h, hb hp⟩
  · intro pfx hp h
    exact quo_remaining s pfx h hp
  · intro pfx hp hl
    cases pfx with
    | nil => exact absurd rfl hp
    | cons a t => simp [scanner.Scan, hl, scanner.hasPrefix, HasPrefix]
  · unfold remaining
    split <;> omega
  · intro pfx hp hf
    have ht := Scan_false_token s hf
    refine ⟨ht, ?_⟩
    cases pfx with
    | nil => exact absurd rfl hp
    | cons a t => simp [scanner.hasPrefix, HasPrefix, ht]

/-- C18, on the lines `msgstr[0] "a"`, `msgstr[1] "b"`, `x`: both `msgstr` and
`mul("msgstr[")` return two values, with three lines held. -/
theorem operations_terminate_witness :
    ((∀ op : Op, ∃ r s1, op.exec (atLine "msgstr[0] \"a\"" ["msgstr[1] \"b\"", "x"])
        = .ok (r, s1)) ∧
      (∃ vs s1, (atLine "msgstr[0] \"a\"" ["msgstr[1] \"b\"", "x"]).msgstr = .ok (vs, s1) ∧
        vs.length ≤ remaining (atLine "msgstr[0] \"a\"" ["msgstr[1] \"b\"", "x"])) ∧
      (∀ pfx, pfx ≠ [] →
        ∃ vs s1, (atLine "msgstr[0] \"a\"" ["msgstr[1] \"b\"", "x"]).mul pfx = .ok (vs, s1) ∧
          vs.length ≤ remaining (atLine "msgstr[0] \"a\"" ["msgstr[1] \"b\"", "x"])) ∧
      (∀ pfx, pfx ≠ [] →
        (atLine "msgstr[0] \"a\"" ["msgstr[1] \"b\"", "x"]).hasPrefix pfx = true →
        ∃ v s1, (atLine "msgstr[0] \"a\"" ["msgstr[1] \"b\"", "x"]).quo pfx = .ok (v, s1) ∧
          remaining s1 < remaining (atLine "msgstr[0] \"a\"" ["msgstr[1] \"b\"", "x"])) ∧
      (∀ pfx, pfx ≠ [] → (atLine "msgstr[0] \"a\"" ["msgstr[1] \"b\"", "x"]).lines = [] →
        (atLine "msgstr[0] \"a\"" ["msgstr[1] \"b\"", "x"]).Scan.1 = false ∧
        (atLine "msgstr[0] \"a\"" ["msgstr[1] \"b\"", "x"]).Scan.2.token = [] ∧
        (atLine "msgstr[0] \"a\"" ["msgstr[1] \"b\"", "x"]).Scan.2.hasPrefix pfx = false) ∧
      remaining (atLine "msgstr[0] \"a\"" ["msgstr[1] \"b\"", "x"])
        ≤ (atLine "msgstr[0] \"a\"" ["msgstr[1] \"b\"", "x"]).lines.length + 1 ∧
      (∀ pfx, pfx ≠ [] → (atLine "msgstr[0] \"a\"" ["msgstr[1] \"b\"", "x"]).Scan.1 = false →
        (atLine "msgstr[0] \"a\"" ["msgstr[1] \"b\"", "x"]).Scan.2.token = [] ∧
        (atLine "msgstr[0] \"a\"" ["msgstr[1] \"b\"", "x"]).Scan.2.hasPrefix pfx = false)) ∧
    (atLine "msgstr[0] \"a\"" ["msgstr[1] \"b\"", "x"]).msgstr
      = .ok ([lit "a", lit "b"], atLine "x" []) ∧
    (atLine "msgstr[0] \"a\"" ["msgstr[1] \"b\"", "x"]).mul (lit "msgstr[")
      = .ok ([lit "0] \"a\"", lit "1] \"b\""], atLine "x" []) ∧
    remaining (atLine "msgstr[0] \"a\"" ["msgstr[1] \"b\"", "x"]) = 3 ∧
    (∃ v s1, (atLine "x" []).quo (lit "x") = .ok (v, s1) ∧
      remaining s1 < remaining (atLine "x" [])) ∧
    ((atLine "x" []).Scan.1 = false ∧ (atLine "x" []).Scan.2.token = [] ∧
      (atLine "x" []).Scan.2.hasPrefix (lit "x") = false) :=
  ⟨operations_terminate _, by decide, by decide, by decide,
    (operations_terminate (atLine "x" [])).2.2.2.1 (lit "x") (by decide) (by decide),
    (operations_terminate (atLine "x" [])).2.2.2.2.1 (lit "x") (by decide) rfl⟩

/-- C19: `txt` is in range on every line that starts with the prefix, and no
run of `mul`, `spc`, `one`, `quo` or `msgstr`, from any scanner (the one before
the first `nextmsg` and the exhausted one included) and with any prefix, ends
in the panic of the slice expression: these operations call `txt` only behind
the test of the prefix. -/
theorem txt_in_range (s : scanner) (pfx : Bytes) :
    (s.hasPrefix pfx = true →
      pfx.length ≤ s.token.length ∧ s.txt pfx = .ok (TrimSpace (s.token.drop pfx.length))) ∧
    s.mul pfx ≠ .error Abort.sliceOutOfRange ∧
    s.spc pfx ≠ .error Abort.sliceOutOfRange ∧
    s.one pfx ≠ .error Abort.sliceOutOfRange ∧
    s.quo pfx ≠ .error Abort.sliceOutOfRange ∧
    s.msgstr ≠ .error Abort.sliceOutOfRange := by
  refine ⟨fun h => ⟨hasPrefix_length h, txt_eq h⟩, ?_, ?_, ?_, ?_, ?_⟩
  · obtain ⟨r, s1, h, _⟩ := mul_total s pfx
    rw [h]
    simp
  · obtain ⟨r, s1, h⟩ := spc_total s pfx
    rw [h]
    simp
  · obtain ⟨r, s1, h⟩ := one_total s pfx
    rw [h]
    simp
  · obtain ⟨r, s1, h⟩ := quo_total s pfx
    rw [h]
    simp
  · obtain ⟨r, s1, h, _⟩ := msgstr_total s
    rw [h]
    simp

/-- C19, before the first `nextmsg` with a prefix longer than the empty current
line, where a call of `txt` itself would panic, and at a line with the
prefix. -/
theorem txt_in_range_witness :
    ((newScanner [lit "#: a b"] none).txt (lit "#:") = .error Abort.sliceOutOfRange) ∧
    ((newScanner [lit "#: a b"] none).mul (lit "#:") ≠ .error Abort.sliceOutOfRange ∧
      (newScanner [lit "#: a b"] none).spc (lit "#:") ≠ .error Abort.sliceOutOfRange ∧
      (newScanner [lit "#: a b"] none).one (lit "#:") ≠ .error Abort.sliceOutOfRange ∧
      (newScanner [lit "#: a b"] none).quo (lit "#:") ≠ .error Abort.sliceOutOfRange ∧
      (newScanner [lit "#: a b"] none).msgstr ≠ .error Abort.sliceOutOfRange) ∧
    ((lit "#:").length ≤ (atLine "#: a b" []).token.length ∧
      (atLine "#: a b" []).txt (lit "#:")
        = .ok (TrimSpace ((atLine "#: a b" []).token.drop (lit "#:").length))) ∧
    (atLine "#: a b" []).txt (lit "#:") = .ok (lit "a b") :=
  ⟨by decide, (txt_in_range (newScanner [lit "#: a b"] none) (lit "#:")).2,
    (txt_in_range (atLine "#: a b" []) (lit "#:")).1 (by decide), by decide⟩

/-- C20, as amended: for a double-quoted literal `q` that `strconv.Unquote`
accepts, `quo` on the line made of the prefix, ASCII white space, `q` and
ASCII white space returns the decoded `q` with no error; a following line
shorter than 64 KiB that, as `Scan` delivers it, is made of `q` and anything
that ends in a white-space rune begins with a double quote, so it is taken as
a continuation, but it is decoded untrimmed: it is rejected, contributes the
empty string and sets the sticky error; a following line that begins with a
white-space rune is not taken as a continuation, whatever follows the white
space.  Each time the scanner stops one `Scan` behind the last line taken. -/
theorem quo_whitespace (pfx q ws1 ws2 : Bytes) (rest : List Bytes) (re : Option GoError)
    (hn : Bool) (hq : (Unquote q).2 = none) (h0 : q.head? = some 0x22)
    (h1 : ∀ w ∈ ws1, asciiSpace w = true) (h2 : ∀ w ∈ ws2, asciiSpace w = true)
    (hrest : isQuoted (rest.headD []) = false) :
    scanner.quo
        { token := pfx ++ (ws1 ++ q ++ ws2), lines := rest, readErr := re, hasNext := hn,
          err := none } pfx
      = .ok ((Unquote q).1,
          ({ token := pfx ++ (ws1 ++ q ++ ws2), lines := rest, readErr := re, hasNext := hn,
             err := none } : scanner).Scan.2) ∧
    (∀ L pre r, IsSpace r = true → dropCR L = q ++ pre ++ EncodeRune r →
      L.length < MaxScanTokenSize →
      isQuoted L = true ∧
      Unquote (dropCR L) = ([], some GoError.ErrSyntax) ∧
      scanner.quo
          { token := pfx ++ q, lines := L :: rest, readErr := re, hasNext := hn, err := none }
          pfx
        = .ok ((Unquote q).1 ++ [],
            ({ token := dropCR L, lines := rest, readErr := re, hasNext := hn,
               err := some GoError.ErrSyntax } : scanner).Scan.2) ∧
      ({ token := dropCR L, lines := rest, readErr := re, hasNext := hn,
         err := some GoError.ErrSyntax } : scanner).Scan.2.err = some GoError.ErrSyntax) ∧
    (∀ r post, IsSpace r = true →
      isQuoted (EncodeRune r ++ post) = false ∧
      scanner.quo
          { token := pfx ++ q, lines := (EncodeRune r ++ post) :: rest, readErr := re,
            hasNext := hn, err := none } pfx
        = .ok ((Unquote q).1,
            ({ token := pfx ++ q, lines := (EncodeRune r ++ post) :: rest, readErr := re,
               hasNext := hn, err := none } : scanner).Scan.2) ∧
      ({ token := pfx ++ q, lines := (EncodeRune r ++ post) :: rest, readErr := re,
         hasNext := hn, err := none } : scanner).Scan.2.err = none) := by
  obtain ⟨mid, hmid⟩ := accepted_shape q hq h0
  have hT : TrimSpace (ws1 ++ q ++ ws2) = q := by
    rw [hmid]
    exact TrimSpace_quoted ws1 ws2 mid h1 h2
  have hTq : TrimSpace q = q := by
    have := TrimSpace_quoted [] [] mid (by simp) (by simp)
    simp only [List.nil_append, List.append_nil] at this
    rw [hmid]
    exact this
  have hdec : decoded q = (Unquote q).1 := (Unquote_fst q).symm
  have hs : stickyAfter none [q] = none := by
    simp [stickyAfter, hq]
  have hpre : ∀ (x : Bytes) (ls : List Bytes), scanner.hasPrefix
      { token := pfx ++ x, lines := ls, readErr := re, hasNext := hn, err := none } pfx
      = true := by
    intro x ls
    simp [scanner.hasPrefix, HasPrefix]
  refine ⟨?_, ?_, ?_⟩
  · rw [quo_single _ pfx (hpre _ _) hrest]
    simp only [List.drop_left, hT, hdec, hs]
  · intro L pre r hr hL hlen
    obtain ⟨hne, hnq⟩ := space_encoding hr
    have hquoted : isQuoted L = true := by
      rw [← isQuoted_dropCR, hL, hmid]
      simp [isQuoted]
    have hrej : (Unquote (dropCR L)).2 ≠ none := by
      intro hok
      obtain ⟨c, _, hh, hl, _⟩ := Unquote_ok_bounded _ hok
      rw [hL] at hh hl
      have hh2 : (q ++ pre ++ EncodeRune r).head? = some 0x22 := by
        rw [hmid]
        simp
      rw [hh2] at hh
      simp only [Option.some.injEq] at hh
      rw [List.getLast?_append_of_ne_nil _ hne, ← hh] at hl
      exact hnq (List.mem_of_getLast?_eq_some hl)
    have hU := Unquote_rejected _ hrej
    refine ⟨hquoted, hU, ?_, Scan_err _⟩
    have htk : taken re isQuoted L = true := by
      simp only [taken, fits_of_short re hlen, isQuoted_dropCR, hquoted, Bool.and_self]
    have hrun : List.takeWhile (taken re isQuoted) rest = [] ∧
        List.dropWhile (taken re isQuoted) rest = rest := by
      cases rest with
      | nil => exact ⟨rfl, rfl⟩
      | cons b t =>
        have hb : taken re isQuoted b = false := by
          simp only [List.headD_cons] at hrest
          simp only [taken, isQuoted_dropCR, hrest, Bool.and_false]
        rw [List.takeWhile_cons, List.dropWhile_cons, hb]
        exact ⟨rfl, rfl⟩
    have hd2 : decoded (dropCR L) = [] := by
      rw [← Unquote_fst, hU]
    have hs2 : stickyAfter none [q, dropCR L] = some GoError.ErrSyntax := by
      simp [stickyAfter, hq, hU]
    rw [quo_eq _ _ (hpre q _)]
    simp only [List.drop_left, hTq, List.takeWhile_cons, htk, if_true, hrun.1, List.map_cons,
      List.map_nil, List.flatten_cons, List.flatten_nil, hd2, hdec, hs2]
    unfold afterRun
    simp only [List.dropWhile_cons, htk, if_true, hrun.2]
    rw [Scan_any_token (pfx ++ q) (dropCR L)]
    rfl
  · intro r post hr
    obtain ⟨hne, hnq⟩ := space_encoding hr
    have hnot : isQuoted (EncodeRune r ++ post) = false := by
      cases he : EncodeRune r with
      | nil => exact absurd he hne
      | cons a t =>
        have ha : a ≠ 0x22 := by
          intro hc
          apply hnq
          rw [he, hc]
          simp
        simp [isQuoted, ha]
    refine ⟨hnot, ?_, Scan_err _⟩
    rw [quo_single _ pfx (hpre _ _) (by simpa using hnot)]
    simp only [List.drop_left, hTq, hdec, hs]

/-- C20, with the literal `"abc"`: the line `msgid   "abc" ` followed by a tab
gives `abc` with no error; the continuation line `"abc" ` (trailing space) is
rejected and sets the error; the line ` "def"` (leading space) is not taken
as a continuation. -/
theorem quo_whitespace_witness :
    (Unquote (lit "\"abc\"")).2 = none ∧ (lit "\"abc\"").head? = some 0x22 ∧
    (∀ w ∈ lit "  ", asciiSpace w = true) ∧ (∀ w ∈ lit " \t", asciiSpace w = true) ∧
    isQuoted ([lit "msgstr \"x\""].headD []) = false ∧
    (Unquote (lit "\"abc\"")).1 = lit "abc" ∧
    scanner.quo
        { token := lit "msgid " ++ (lit "  " ++ lit "\"abc\"" ++ lit " \t"),
          lines := [lit "msgstr \"x\""], readErr := none, hasNext := true, err := none }
        (lit "msgid ")
      = .ok ((Unquote (lit "\"abc\"")).1,
          ({ token := lit "msgid " ++ (lit "  " ++ lit "\"abc\"" ++ lit " \t"),
             lines := [lit "msgstr \"x\""], readErr := none, hasNext := true,
             err := none } : scanner).Scan.2) ∧
    scanner.quo
        { token := lit "msgid " ++ lit "\"abc\"",
          lines := lit "\"abc\" " :: [lit "msgstr \"x\""],
          readErr := none, hasNext := true, err := none }
        (lit "msgid ")
      = .ok ((Unquote (lit "\"abc\"")).1 ++ [],
          ({ token := dropCR (lit "\"abc\" "), lines := [lit "msgstr \"x\""],
             readErr := none, hasNext := true,
             err := some GoError.ErrSyntax } : scanner).Scan.2) ∧
    scanner.quo
        { token := lit "msgid " ++ lit "\"abc\"",
          lines := (EncodeRune 0x20 ++ lit "\"def\"") :: [lit "msgstr \"x\""],
          readErr := none, hasNext := true, err := none }
        (lit "msgid ")
      = .ok ((Unquote (lit "\"abc\"")).1,
          ({ token := lit "msgid " ++ lit "\"abc\"",
             lines := (EncodeRune 0x20 ++ lit "\"def\"") :: [lit "msgstr \"x\""],
             readErr := none, hasNext := true, err := none } : scanner).Scan.2) ∧
    scanner.quo
        { token := lit "msgid " ++ lit "\"abc\"",
          lines := lit "\"abc\" " :: [lit "msgstr \"x\""],
          readErr := none, hasNext := true, err := none }
        (lit "msgid ")
      = .ok (lit "abc",
          { token := lit "msgstr \"x\"", lines := [], readErr := none, hasNext := true,
            err := some GoError.ErrSyntax }) ∧
    scanner.quo
        { token := lit "msgid " ++ lit "\"abc\"",
          lines := lit " \"def\"" :: [lit "msgstr \"x\""],
          readErr := none, hasNext := true, err := none }
        (lit "msgid ")
      = .ok (lit "abc",
          { token := lit " \"def\"", lines := [lit "msgstr \"x\""], readErr := none,
            hasNext := true, err := none }) :=
  ⟨by decide, by decide, by decide, by decide, by decide, by decide,
    (quo_whitespace (lit "msgid ") (lit "\"abc\"") (lit "  ") (lit " \t") [lit "msgstr \"x\""]
      none true (by decide) (by decide) (by decide) (by decide) (by decide)).1,
    ((quo_whitespace (lit "msgid ") (lit "\"abc\"") (lit "  ") (lit " \t") [lit "msgstr \"x\""]
      none true (by decide) (by decide) (by decide) (by decide) (by decide)).2.1
        (lit "\"abc\" ") [] 0x20 (by decide) (by decide) (by decide)).2.2.1,
    ((quo_whitespace (lit "msgid ") (lit "\"abc\"") (lit "  ") (lit " \t") [lit "msgstr \"x\""]
      none true (by decide) (by decide) (by decide) (by decide) (by decide)).2.2 0x20
        (lit "\"def\"") (by decide)).2.1,
    by decide, by decide⟩

/-- C20 as stated fails: `longLiteral` is a well-formed double-quoted literal;
the line made of the prefix `msgid ` and of it is shorter than 64 KiB; the
following line is made of the literal and of 100 spaces, white space behind
the literal, and has 64 KiB: it does not fit the buffer of the
`bufio.Scanner`, `Scan` fails, and `quo` returns the decoded literal of the
first line without setting the sticky error. -/
theorem quo_whitespace_counterexample :
    (Unquote longLiteral).2 = none ∧ longLiteral.head? = some 0x22 ∧
    (lit "msgid " ++ longLiteral).length < MaxScanTokenSize ∧
    paddedLiteral = longLiteral ++ List.replicate 100 0x20 ∧
    (∀ w ∈ List.replicate 100 0x20, IsSpace w = true) ∧
    (atBytes (lit "msgid " ++ longLiteral) [paddedLiteral, lit "x"]).quo (lit "msgid ")
      = .ok ((Unquote longLiteral).1,
          { token := [], lines := [paddedLiteral], readErr := some GoError.ErrTooLong,
            hasNext := true, err := none }) := by
  refine ⟨Unquote_longLiteral, longLiteral_head, ?_, rfl, ?_, ?_⟩
  · have h1 : (lit "msgid ").length = 6 := by decide
    have h2 : 102 ≤ MaxScanTokenSize := by decide
    rw [List.length_append, longLiteral_length, h1]
    omega
  · intro w hw
    rw [List.eq_of_mem_replicate hw]
    decide
  · rw [quo_long_continuation (lit "msgid ") longLiteral paddedLiteral [lit "x"]
      Unquote_longLiteral longLiteral_head (le_of_eq paddedLiteral_length.symm),
      take_of_length paddedLiteral_length]

end po
